import Mathlib

/-!
# Verification of the go-pcap core against its specification

Shallow embedding of the `memview`, `mempool`, `gnet` (recognizer factories),
`gnet/tls`, `gnet/ftp`, `gnet/http`, `gnet/http2` and `pcap` (flow dispatch)
components of the go-pcap repository, together with theorems settling the
frozen claims about them.

Conventions:
* Go `byte` is modelled as `Nat` (callers only ever supply values `< 256`;
  no byte-level arithmetic in the modelled code can overflow).
* Go `int`/`int64` are modelled as `Int` wherever a value can be negative
  (offsets, `-1` sentinels); loop counters that are provably non-negative are
  `Nat`.
* Go slices of bytes are `List Nat`; a `MemView` is a list of such slabs plus
  the cached length, exactly as in the source.
* Fallible operations return `Option`/`Except`; `io.EOF` and other errors are
  the two-value type `IOErr`.
* Loops are transliterated into recursive helper functions; loops whose
  termination is not structural carry an explicit fuel argument that is
  chosen large enough at every call site.
-/

set_option maxHeartbeats 1000000

namespace GoPcap

abbrev Byte := Nat

/-- ASCII bytes of a string literal (all modelled protocol constants are
ASCII, so `Char.toNat` is the byte value). -/
def strBytes (s : String) : List Byte := s.data.map Char.toNat

/-- The accept/need-more-data/reject decision of `gnet.AcceptDecision`. -/
inductive AcceptDecision where
  | needMoreData
  | accept
  | reject
deriving Repr, DecidableEq

/-- `io.EOF` versus any other error, as distinguished by the Go code. -/
inductive IOErr where
  | eof
  | other
deriving Repr, DecidableEq

/-! ## First-occurrence search (the behaviour of Go `bytes.Index`) -/

/-- First index at which `sep` occurs in `s` (Go `bytes.Index` semantics:
`some 0` for an empty `sep`). -/
def firstOccur? (s sep : List Byte) : Option Nat :=
  if sep.isPrefixOf s = true then some 0
  else
    match s with
    | [] => none
    | _ :: t => (firstOccur? t sep).map (· + 1)

/-- Go `bytes.Index`: index of the first occurrence or `-1`. -/
def bytesIndex (s sep : List Byte) : Int :=
  match firstOccur? s sep with
  | some i => (i : Int)
  | none => -1

theorem firstOccur?_nil (sep : List Byte) :
    firstOccur? [] sep = if sep.isPrefixOf [] = true then some 0 else none := by
  rw [firstOccur?]

theorem firstOccur?_cons (a : Byte) (t sep : List Byte) :
    firstOccur? (a :: t) sep =
      if sep.isPrefixOf (a :: t) = true then some 0
      else (firstOccur? t sep).map (· + 1) := by
  rw [firstOccur?]

theorem firstOccur?_eq_some_iff (s sep : List Byte) (p : Nat) :
    firstOccur? s sep = some p ↔
      sep.isPrefixOf (s.drop p) ∧ ∀ q < p, ¬ sep.isPrefixOf (s.drop q) := by
  induction s generalizing p with
  | nil =>
    rw [firstOccur?_nil]
    by_cases h : sep.isPrefixOf ([] : List Byte) = true
    · rw [if_pos h]
      simp only [Option.some.injEq]
      constructor
      · rintro rfl
        exact ⟨by simpa using h, fun q hq => absurd hq (by omega)⟩
      · rintro ⟨_, hmin⟩
        by_contra hne
        exact hmin 0 (Nat.pos_of_ne_zero (fun hz => hne hz.symm)) (by simpa using h)
    · rw [if_neg h]
      constructor
      · intro hc; cases hc
      · rintro ⟨hp, _⟩
        simp only [List.drop_nil] at hp
        exact absurd hp h
  | cons a t ih =>
    rw [firstOccur?_cons]
    by_cases h : sep.isPrefixOf (a :: t) = true
    · rw [if_pos h]
      simp only [Option.some.injEq]
      constructor
      · rintro rfl
        exact ⟨by simpa using h, fun q hq => absurd hq (by omega)⟩
      · rintro ⟨_, hmin⟩
        by_contra hne
        exact hmin 0 (Nat.pos_of_ne_zero (fun hz => hne hz.symm)) (by simpa using h)
    · rw [if_neg h]
      cases hfo : firstOccur? t sep with
      | none =>
        simp only [Option.map_none']
        constructor
        · intro hc; cases hc
        · rintro ⟨hp, hmin⟩
          cases p with
          | zero => exact absurd (by simpa using hp) h
          | succ p' =>
            have hcontra := (ih p').mpr ⟨by simpa using hp, fun q hq => by
              have := hmin (q + 1) (by omega)
              simpa using this⟩
            rw [hfo] at hcontra
            cases hcontra
      | some q =>
        simp only [Option.map_some', Option.some.injEq]
        obtain ⟨h1, h2⟩ := (ih q).mp hfo
        constructor
        · rintro rfl
          refine ⟨by simpa using h1, ?_⟩
          intro r hr
          cases r with
          | zero => simpa using h
          | succ r' => simpa using h2 r' (by omega)
        · rintro ⟨hp, hmin⟩
          cases p with
          | zero => exact absurd (by simpa using hp) h
          | succ p' =>
            have hq : firstOccur? t sep = some p' :=
              (ih p').mpr ⟨by simpa using hp, fun r hr => by
                have := hmin (r + 1) (by omega)
                simpa using this⟩
            rw [hfo] at hq
            injection hq with hq'
            omega

theorem firstOccur?_eq_none_iff (s sep : List Byte) :
    firstOccur? s sep = none ↔ ∀ q, ¬ sep.isPrefixOf (s.drop q) := by
  induction s with
  | nil =>
    rw [firstOccur?_nil]
    by_cases h : sep.isPrefixOf ([] : List Byte) = true
    · rw [if_pos h]
      constructor
      · intro hc; cases hc
      · intro hall; exact absurd (by simpa using h) (by simpa using hall 0)
    · rw [if_neg h]
      simp only [true_iff]
      intro q
      simpa using h
  | cons a t ih =>
    rw [firstOccur?_cons]
    by_cases h : sep.isPrefixOf (a :: t) = true
    · rw [if_pos h]
      constructor
      · intro hc; cases hc
      · intro hall; exact absurd (by simpa using h) (by simpa using hall 0)
    · rw [if_neg h]
      rw [Option.map_eq_none', ih]
      constructor
      · intro hall q
        cases q with
        | zero => simpa using h
        | succ q' => simpa using hall q'
      · intro hall q
        have := hall (q + 1)
        simpa using this

/-! ## MemView (package `memview`, src/unnamed/part_001)

A `MemView` is a list of byte slabs plus a cached total length; the logical
byte sequence is the concatenation of the slabs. -/

structure MemView where
  buf : List (List Byte)
  length : Int
deriving Repr, DecidableEq

namespace MemView

/-- `memview.New`: single-slab view, no copy. -/
def new (data : List Byte) : MemView := ⟨[data], (data.length : Int)⟩

/-- `memview.Empty` (also the Go zero value `MemView{}`). -/
def emptyMV : MemView := ⟨[], 0⟩

/-- `MemView.Append` (functional: returns the updated destination). -/
def append (dst src : MemView) : MemView :=
  ⟨dst.buf ++ src.buf, dst.length + src.length⟩

/-- `MemView.Len`. -/
def len (mv : MemView) : Int := mv.length

/-- `MemView.Clear` (functional). -/
def clear (_mv : MemView) : MemView := ⟨[], 0⟩

/-- The logical byte sequence of the view (the data that `String()` /
the byte-slice accessor `Bytes()` expose; `Bytes()` itself lives in a
repository file that is not under src/, and is modelled from the spec's
description of a view as its contiguous logical byte stream). -/
def bytes (mv : MemView) : List Byte := mv.buf.flatten

/-- Well-formedness: the cached length is the total slab length.  Every view
built by the constructors satisfies this. -/
def WF (mv : MemView) : Prop := mv.length = (mv.bytes.length : Int)

instance (mv : MemView) : Decidable mv.WF :=
  inferInstanceAs (Decidable (_ = _))

/-- Loop of `MemView.GetByte`. -/
def getByteLoop : List (List Byte) → Int → Byte
  | [], _ => 0
  | b :: rest, n => if n < (b.length : Int) then b.getD n.toNat 0 else getByteLoop rest (n - b.length)

/-- `MemView.GetByte`: byte at a logical offset, `0` if out of bounds. -/
def getByte (mv : MemView) (index : Int) : Byte :=
  if index < 0 then 0 else getByteLoop mv.buf index

/-- Copy loop of `MemView.getBytes`: the segments copied from each slab, in
order.  (`copyEnd` is clamped to the slab length as in the source.) -/
def getBytesLoop : List (List Byte) → Int → Int → List (List Byte)
  | [], _, _ => []
  | b :: rest, start, stop =>
    if ¬ start < stop then []
    else if (b.length : Int) ≤ start then getBytesLoop rest (start - b.length) (stop - b.length)
    else
      let copyEnd : Int := if (b.length : Int) < stop then (b.length : Int) else stop
      ((b.drop start.toNat).take (copyEnd - start).toNat) :: getBytesLoop rest 0 (stop - b.length)

/-- `make([]byte, n)` followed by copying `l` into its front: the Go result
slice is pre-zeroed, so any bytes the copy loop does not reach are zero. -/
def padZeros (n : Nat) (l : List Byte) : List Byte := l ++ List.replicate (n - l.length) 0

/-- `MemView.getBytes`: a fresh copy of the logical range `[start, stop)`, or
`none` when the range is invalid. -/
def getBytes (mv : MemView) (start stop : Int) : Option (List Byte) :=
  if ¬ (0 ≤ start ∧ start ≤ stop ∧ stop ≤ mv.len) then none
  else some (padZeros (stop - start).toNat (getBytesLoop mv.buf start stop).flatten)

/-- Big-endian interpretation of a byte list (Go `binary.BigEndian`). -/
def beUint (l : List Byte) : Nat := l.foldl (fun acc b => acc * 256 + b) 0

/-- `MemView.GetUint16`: big-endian `uint16` at `offset`, `0` if out of range. -/
def getUint16 (mv : MemView) (offset : Int) : Nat :=
  match mv.getBytes offset (offset + 2) with
  | none => 0
  | some buf => beUint buf

/-- `MemView.GetUint24`. -/
def getUint24 (mv : MemView) (offset : Int) : Nat :=
  match mv.getBytes offset (offset + 3) with
  | none => 0
  | some buf => beUint buf

/-- `MemView.GetUint32`. -/
def getUint32 (mv : MemView) (offset : Int) : Nat :=
  match mv.getBytes offset (offset + 4) with
  | none => 0
  | some buf => beUint buf

/-- Scan loop of `MemView.SubView`: walks the slabs accumulating `n`, records
`(startBuf, startOffset)` when first `n + lb > start`, and stops with
`(endBuf, endOffset)` when first `n + lb ≥ end`. Returns the recorded pairs
(`none` encodes Go's `-1`). -/
def subViewScan :
    List (List Byte) → Nat → Int → Option (Nat × Int) → Int → Int →
    Option (Nat × Int) × Option (Nat × Int)
  | [], _, _, startAcc, _, _ => (startAcc, none)
  | b :: rest, i, n, startAcc, start, stop =>
    let startAcc' :=
      if startAcc = none ∧ start < n + b.length then some (i, start - n) else startAcc
    if stop ≤ n + b.length then (startAcc', some (i, stop - n))
    else subViewScan rest (i + 1) (n + b.length) startAcc' start stop

/-- Re-slicing of the first and last slab of a sub-view, as in the source. -/
def subViewReslice (newBuf : List (List Byte)) (startOffset endOffset : Int) :
    List (List Byte) :=
  match newBuf with
  | [] => []
  | [b] => [(b.drop startOffset.toNat).take (endOffset - startOffset).toNat]
  | b :: rest =>
    (b.drop startOffset.toNat) ::
      (rest.dropLast ++ [(rest.getLastD []).take endOffset.toNat])

/-- `MemView.SubView`: zero-copy view of `mv[start:end)`; empty view when the
range is invalid. -/
def subView (mv : MemView) (start stop : Int) : MemView :=
  if stop ≤ start then ⟨[], 0⟩
  else
    match subViewScan mv.buf 0 0 none start stop with
    | (some (startBuf, startOffset), some (endBuf, endOffset)) =>
      let newBuf := (mv.buf.drop startBuf).take (endBuf + 1 - startBuf)
      ⟨subViewReslice newBuf startOffset endOffset, stop - start⟩
    | _ => ⟨[], 0⟩

/-! ### `MemView.Index` (transliterated, including its cross-slab matching) -/

/-- First inner loop of `Index`: continue a needle match that straddled the
previous slab.  Returns `.inl i` when the needle completes at haystack
position `i`, else `.inr (i, needleIndex)` at loop exit. -/
def straddleLoop (haystack needle : List Byte) : Nat → Nat → Nat → Nat ⊕ (Nat × Nat)
  | 0, i, ni => Sum.inr (i, ni)
  | fuel + 1, i, ni =>
    if i < haystack.length ∧ 0 < ni then
      if haystack.getD i 0 = needle.getD ni 0 then
        if ni + 1 = needle.length then Sum.inl i
        else straddleLoop haystack needle fuel (i + 1) (ni + 1)
      else straddleLoop haystack needle fuel (i + 1) 0
    else Sum.inr (i, ni)

/-- Last inner loop of `Index`: record a partial needle match at the slab's
tail for the next slab to continue. -/
def tailLoop (haystack needle : List Byte) : Nat → Nat → Nat → Nat
  | 0, _, ni => ni
  | fuel + 1, i, ni =>
    if i < haystack.length then
      tailLoop haystack needle fuel (i + 1)
        (if haystack.getD i 0 = needle.getD ni 0 then ni + 1 else 0)
    else ni

/-- Per-slab loop of `Index`. `startOffset` is the in-slab scan start (only
nonzero for the first slab), `ni` the needle index carried across slabs and
`currIndex` the global index of `haystack[startOffset]`. -/
def indexSlabLoop (needle : List Byte) :
    List (List Byte) → Nat → Nat → Int → Int
  | [], _, _, _ => -1
  | haystack :: rest, startOffset, ni, currIndex =>
    match straddleLoop haystack needle (haystack.length + 1) startOffset ni with
    | Sum.inl iRet =>
      currIndex + ((iRet : Int) - startOffset) - ((needle.length : Int) - 1)
    | Sum.inr (i, ni') =>
      if i < haystack.length then
        match firstOccur? (haystack.drop i) needle with
        | some found => currIndex + found
        | none =>
          let needleStart := haystack.length + 1 - needle.length
          let i2 := if i < needleStart then needleStart else i
          let ni2 := tailLoop haystack needle (haystack.length + 1) i2 ni'
          indexSlabLoop needle rest 0 ni2 (currIndex + ((haystack.length : Int) - startOffset))
      else
        indexSlabLoop needle rest 0 ni' (currIndex + ((haystack.length : Int) - startOffset))

/-- Start-of-scan search of `Index`: find the slab containing `start`;
returns the remaining slabs, the in-slab offset and the updated `currIndex`
(which always equals `start` on success). -/
def indexStartScan :
    List (List Byte) → Int → Int → Option (List (List Byte) × Nat × Int)
  | [], _, _ => none
  | b :: rest, start, curr =>
    if curr + (b.length : Int) - 1 < start then indexStartScan rest start (curr + b.length)
    else some (b :: rest, (start - curr).toNat, start)

/-- `MemView.Index`: index of the first instance of `sep` at or after `start`,
or `-1` — as implemented, i.e. including the incomplete handling of matches
that straddle slab boundaries. -/
def index (mv : MemView) (start : Int) (sep : List Byte) : Int :=
  match indexStartScan mv.buf start 0 with
  | none => -1
  | some (slabs, startOffset, curr) =>
    if sep.length = 0 then start
    else indexSlabLoop sep slabs startOffset 0 curr

end MemView

/-! ## MemViewReader (cursor into a `MemView`; src/unnamed/part_001)

The Go reader holds a pointer to its view; here every operation takes the
view and the cursor explicitly.  Cursor: slab index, offset within that slab,
global offset. -/

structure MVReader where
  rIndex : Nat
  rOffset : Nat
  gOffset : Int
deriving Repr, DecidableEq

namespace MVReader

/-- Slab-scan loop of `MemViewReader.ReadByte`. -/
def readByteLoop (mv : MemView) : Nat → MVReader → Option (Byte × MVReader)
  | 0, _ => none
  | fuel + 1, r =>
    if r.rIndex < mv.buf.length then
      let curBuf := mv.buf.getD r.rIndex []
      if r.rOffset < curBuf.length then
        some (curBuf.getD r.rOffset 0, ⟨r.rIndex, r.rOffset + 1, r.gOffset + 1⟩)
      else readByteLoop mv fuel ⟨r.rIndex + 1, 0, r.gOffset⟩
    else none

/-- `MemViewReader.ReadByte` (the scan over slabs carries fuel that the
wrapper makes large enough to never run out). -/
def readByteGo (mv : MemView) (r : MVReader) : Option (Byte × MVReader) :=
  readByteLoop mv (mv.buf.length + 1) r

/-- Copy loop of `MemViewReader.Read`: fill up to `remaining` bytes, slab by
slab, advancing the cursor. -/
def readLoop (mv : MemView) :
    Nat → Nat → Nat → Int → Nat → List Byte → List Byte × MVReader
  | 0, rIndex, rOffset, gOffset, _, acc => (acc, ⟨rIndex, rOffset, gOffset⟩)
  | fuel + 1, rIndex, rOffset, gOffset, remaining, acc =>
    if rIndex < mv.buf.length then
      let curr := (mv.buf.getD rIndex []).drop rOffset
      let cp := min remaining curr.length
      if cp = curr.length then
        readLoop mv fuel (rIndex + 1) 0 (gOffset + cp) (remaining - cp) (acc ++ curr.take cp)
      else (acc ++ curr.take cp, ⟨rIndex, rOffset + cp, gOffset + cp⟩)
    else (acc, ⟨rIndex, rOffset, gOffset⟩)

/-- `MemViewReader.Read` into a buffer of size `n`: the bytes read, the new
cursor, and `io.EOF` only when the cursor starts at the end and `n > 0`. -/
def readGo (mv : MemView) (r : MVReader) (n : Nat) :
    List Byte × MVReader × Option IOErr :=
  if n = 0 then ([], r, none)
  else if mv.buf.length ≤ r.rIndex then ([], r, some .eof)
  else
    let (bs, r') := readLoop mv (mv.buf.length + 1) r.rIndex r.rOffset r.gOffset n []
    (bs, r', none)

/-- `MemViewReader.ReadUint16`. -/
def readUint16Go (mv : MemView) (r : MVReader) : Except IOErr (Nat × MVReader) :=
  let out := readGo mv r 2
  match out.2.2 with
  | some e => .error e
  | none => if out.1.length ≠ 2 then .error .eof else .ok (MemView.beUint out.1, out.2.1)

/-- `MemViewReader.ReadUint24` (three bytes, zero-extended). -/
def readUint24Go (mv : MemView) (r : MVReader) : Except IOErr (Nat × MVReader) :=
  let out := readGo mv r 3
  match out.2.2 with
  | some e => .error e
  | none => if out.1.length ≠ 3 then .error .eof else .ok (MemView.beUint out.1, out.2.1)

/-- `MemViewReader.ReadUint32`. -/
def readUint32Go (mv : MemView) (r : MVReader) : Except IOErr (Nat × MVReader) :=
  let out := readGo mv r 4
  match out.2.2 with
  | some e => .error e
  | none => if out.1.length ≠ 4 then .error .eof else .ok (MemView.beUint out.1, out.2.1)

/-- `MemViewReader.ReadString`: decode `n` bytes. -/
def readStringGo (mv : MemView) (r : MVReader) (n : Nat) :
    Except IOErr (List Byte × MVReader) :=
  let out := readGo mv r n
  match out.2.2 with
  | some e => .error e
  | none => if out.1.length ≠ n then .error .eof else .ok (out.1, out.2.1)

/-- The `io.SeekStart`/`io.SeekEnd`/`io.SeekCurrent` whence values. -/
inductive Whence where
  | seekStart
  | seekEnd
  | seekCurrent
deriving Repr, DecidableEq

/-- The `io.SeekCurrent` loop of `MemViewReader.Seek`.  The fuel argument
bounds the number of slab hops; the wrapper below always supplies enough. -/
def seekLoop (mv : MemView) : Nat → MVReader → Int → Except IOErr (Int × MVReader)
  | 0, _, _ => .error .other
  | fuel + 1, r, offset =>
    if offset = 0 then .ok (r.gOffset, r)
    else if r.rIndex < mv.buf.length ∧ 0 ≤ (r.rOffset : Int) + offset ∧
        (r.rOffset : Int) + offset < ((mv.buf.getD r.rIndex []).length : Int) then
      .ok (r.gOffset + offset, ⟨r.rIndex, ((r.rOffset : Int) + offset).toNat, r.gOffset + offset⟩)
    else if offset < 0 then
      if r.rIndex = 0 then .error .other
      else
        seekLoop mv fuel
          ⟨r.rIndex - 1, (mv.buf.getD (r.rIndex - 1) []).length, r.gOffset - r.rOffset⟩
          (offset + r.rOffset)
    else if r.rIndex < mv.buf.length then
      let numSkipped : Int := ((mv.buf.getD r.rIndex []).length : Int) - r.rOffset
      seekLoop mv fuel ⟨r.rIndex + 1, 0, r.gOffset + numSkipped⟩ (offset - numSkipped)
    else .ok (r.gOffset, r)

/-- `MemViewReader.Seek`: convert the whence to `io.SeekCurrent` and run the
loop; on failure the deferred handler restores the cursor saved on entry. -/
def seekGo (mv : MemView) (r : MVReader) (offset : Int) (whence : Whence) :
    Except IOErr Int × MVReader :=
  let core : Except IOErr (Int × MVReader) :=
    match whence with
    | .seekStart => seekLoop mv (mv.buf.length + 2) ⟨0, 0, 0⟩ offset
    | .seekEnd =>
      seekLoop mv (mv.buf.length + mv.buf.length + 2) ⟨mv.buf.length, 0, mv.length⟩ offset
    | .seekCurrent => seekLoop mv (mv.buf.length + r.rIndex + 2) r offset
  match core with
  | .ok (abs, r') => (.ok abs, r')
  | .error e => (.error e, r)

/-- `MemViewReader.Truncate`: a fresh reader over the sub-view
`[gOffset, gOffset+offset)`. -/
def truncateGo (mv : MemView) (r : MVReader) (offset : Int) :
    Except IOErr (MemView × MVReader) :=
  if offset < 0 ∨ mv.length < r.gOffset + offset then .error .other
  else .ok (mv.subView r.gOffset (r.gOffset + offset), ⟨0, 0, 0⟩)

end MVReader

/-- A reader together with its backing view (the Go reader holds the view by
pointer; bundling them keeps the parser code close to the source). -/
structure Rdr where
  mv : MemView
  st : MVReader
deriving Repr, DecidableEq

namespace Rdr

def ofView (mv : MemView) : Rdr := ⟨mv, ⟨0, 0, 0⟩⟩

def readByte (r : Rdr) : Except IOErr (Byte × Rdr) :=
  match MVReader.readByteGo r.mv r.st with
  | none => .error .eof
  | some (b, st') => .ok (b, ⟨r.mv, st'⟩)

def readUint16 (r : Rdr) : Except IOErr (Nat × Rdr) :=
  match MVReader.readUint16Go r.mv r.st with
  | .error e => .error e
  | .ok (v, st') => .ok (v, ⟨r.mv, st'⟩)

def seek (r : Rdr) (offset : Int) (whence : MVReader.Whence) : Except IOErr (Int × Rdr) :=
  match MVReader.seekGo r.mv r.st offset whence with
  | (.ok abs, st') => .ok (abs, ⟨r.mv, st'⟩)
  | (.error e, _) => .error e

def readString (r : Rdr) (n : Nat) : Except IOErr (List Byte × Rdr) :=
  match MVReader.readStringGo r.mv r.st n with
  | .error e => .error e
  | .ok (bs, st') => .ok (bs, ⟨r.mv, st'⟩)

/-- `ReadString_byte`: read a 1-byte length then that many bytes. -/
def readStringByte (r : Rdr) : Except IOErr (List Byte × Rdr) :=
  match r.readByte with
  | .error e => .error e
  | .ok (n, r') => r'.readString n

/-- `ReadString_uint16`. -/
def readStringU16 (r : Rdr) : Except IOErr (List Byte × Rdr) :=
  match r.readUint16 with
  | .error e => .error e
  | .ok (n, r') => r'.readString n

/-- `ReadByteAndSeek`: skip a 1-byte-length-prefixed field. -/
def readByteAndSeek (r : Rdr) : Except IOErr Rdr :=
  match r.readByte with
  | .error e => .error e
  | .ok (n, r') =>
    match r'.seek n .seekCurrent with
    | .error e => .error e
    | .ok (_, r'') => .ok r''

/-- `ReadUint16AndSeek`: skip a 2-byte-length-prefixed field. -/
def readUint16AndSeek (r : Rdr) : Except IOErr Rdr :=
  match r.readUint16 with
  | .error e => .error e
  | .ok (n, r') =>
    match r'.seek n .seekCurrent with
    | .error e => .error e
    | .ok (_, r'') => .ok r''

/-- `ReadUint16AndTruncate`: read a 2-byte length, return it, the parent
reader advanced past the length field, and a fresh reader truncated to the
field. -/
def readUint16AndTruncate (r : Rdr) : Except IOErr (Nat × Rdr × Rdr) :=
  match r.readUint16 with
  | .error e => .error e
  | .ok (n, r') =>
    match MVReader.truncateGo r'.mv r'.st (n : Int) with
    | .error e => .error e
    | .ok (sub, st0) => .ok (n, r', ⟨sub, st0⟩)

end Rdr

/-! ## Parsed network content and the TLS 1.2/1.3 Client Hello parser
(src/unnamed/part_013, package `gnet/tls`) -/

/-- The `gnet.ParsedNetworkContent` values needed by the claims. -/
inductive PNC where
  | droppedBytes (n : Int)
  | tlsClientHello (hostname : Option (List Byte)) (protocols : List (List Byte))
  | http2ConnectionPreface
deriving Repr, DecidableEq

namespace TLSHello

/-- TLS constants from the source: record header 5 bytes, handshake header 4,
client version 2, client random 32; extension IDs 0x0000 (SNI) and 0x0010
(ALPN); SNI entry type 0x00 = DNS hostname. -/
def tlsRecordHeaderLen : Int := 5

/-- `parseServerNameExtension`: walk the SNI list; first DNS-type entry wins.
Fuel bounds the loop (each iteration consumes at least two bytes of the
parent reader). -/
def parseServerName : Nat → Rdr → Except IOErr (List Byte)
  | 0, _ => .error .other
  | fuel + 1, reader =>
    match reader.readUint16AndTruncate with
    | .error .eof => .error .other
    | .error e => .error e
    | .ok (entryLen, parent, entryReader) =>
      match parent.seek (entryLen : Int) .seekCurrent with
      | .error e => .error e
      | .ok (_, parent1) =>
        match entryReader.readByte with
        | .error e => .error e
        | .ok (entryType, entryReader1) =>
          if entryType = 0 then
            match entryReader1.readStringU16 with
            | .error _ => .error .other
            | .ok (hostname, _) => .ok hostname
          else parseServerName fuel parent1

/-- Inner loop of `parseALPNExtension`. -/
def parseALPNLoop : Nat → Rdr → List (List Byte) → List (List Byte)
  | 0, _, acc => acc
  | fuel + 1, reader, acc =>
    match reader.readStringByte with
    | .error _ => acc
    | .ok (protocol, reader1) => parseALPNLoop fuel reader1 (acc ++ [protocol])

/-- `parseALPNExtension`. -/
def parseALPN (reader : Rdr) : List (List Byte) :=
  match reader.readUint16AndTruncate with
  | .error _ => []
  | .ok (_, _, fieldReader) =>
    parseALPNLoop (fieldReader.mv.length.toNat + 1) fieldReader []

/-- The extension walk of `tlsClientHelloParser.parse` (each iteration
consumes at least four bytes of the reader, so the caller's fuel suffices). -/
def extensionsLoop :
    Nat → Rdr → Option (List Byte) → List (List Byte) →
    Except IOErr (Option (List Byte) × List (List Byte))
  | 0, _, _, _ => .error .other
  | fuel + 1, reader, dnsHostname, protocols =>
    match reader.readUint16 with
    | .error .eof => .ok (dnsHostname, protocols)
    | .error e => .error e
    | .ok (extensionType, reader1) =>
      match reader1.readUint16AndTruncate with
      | .error e => .error e
      | .ok (extensionContentLen, reader2, extensionReader) =>
        match reader2.seek (extensionContentLen : Int) .seekCurrent with
        | .error e => .error e
        | .ok (_, reader3) =>
          let dnsHostname1 :=
            if extensionType = 0 then
              match parseServerName (extensionReader.mv.length.toNat + 1) extensionReader with
              | .ok serverName => some serverName
              | .error _ => dnsHostname
            else dnsHostname
          let protocols1 :=
            if extensionType = 16 then parseALPN extensionReader else protocols
          extensionsLoop fuel reader3 dnsHostname1 protocols1

/-- The handshake-body part of `tlsClientHelloParser.parse` (the code after
the record-framing guards): seek past the headers, skip session id, cipher
suites and compression methods, truncate to the extensions and walk them.
Returns result, `numBytesConsumed` and error. -/
def parseBody (all : MemView) : Option PNC × Int × Option IOErr :=
  let handshakeMsgLen := all.getUint16 (tlsRecordHeaderLen - 2)
  let handshakeMsgEndPos : Int := tlsRecordHeaderLen + handshakeMsgLen
  let buf := all.subView tlsRecordHeaderLen handshakeMsgEndPos
  let reader := Rdr.ofView buf
  match reader.seek (4 + 2 + 32) .seekCurrent with
  | .error e => (none, 0, some e)
  | .ok (_, r1) =>
    match r1.readByteAndSeek with
    | .error e => (none, 0, some e)
    | .ok r2 =>
      match r2.readUint16AndSeek with
      | .error e => (none, 0, some e)
      | .ok r3 =>
        match r3.readByteAndSeek with
        | .error e => (none, 0, some e)
        | .ok r4 =>
          match r4.readUint16AndTruncate with
          | .error _ => (none, 0, some .other)
          | .ok (_, _, r5) =>
            match extensionsLoop (r5.mv.length.toNat + 1) r5 none [] with
            | .error e => (none, 0, some e)
            | .ok (dnsHostname, protocols) =>
              (some (.tlsClientHello dnsHostname protocols), handshakeMsgEndPos, none)

/-- `tlsClientHelloParser.parse` (lower-case): append the input to the
accumulated buffer, wait for the full record, then parse the handshake body.
Returns the new accumulated buffer, the result, `numBytesConsumed` and the
error. -/
def parseInner (allInputPrev input : MemView) :
    MemView × Option PNC × Int × Option IOErr :=
  let all := allInputPrev.append input
  if all.len < tlsRecordHeaderLen then (all, none, 0, none)
  else
    let handshakeMsgLen := all.getUint16 (tlsRecordHeaderLen - 2)
    let handshakeMsgEndPos : Int := tlsRecordHeaderLen + handshakeMsgLen
    if all.len < handshakeMsgEndPos then (all, none, 0, none)
    else
      let out := parseBody all
      (all, out.1, out.2.1, out.2.2)

/-- `tlsClientHelloParser.Parse`: wraps `parseInner`, turning a missing
result at end-of-stream into an error and splitting off the unused suffix.
Returns (new accumulated buffer, result, unused, totalBytesConsumed, err). -/
def parseGo (st input : MemView) (isEnd : Bool) :
    MemView × Option PNC × MemView × Int × Option IOErr :=
  let out := parseInner st input
  let st' := out.1
  let result := out.2.1
  let numConsumed := out.2.2.1
  let err0 := out.2.2.2
  let err := if isEnd ∧ result = none ∧ err0 = none then some IOErr.other else err0
  let total := st'.len
  match err with
  | some e => (st', none, .emptyMV, total, some e)
  | none =>
    match result with
    | some c =>
      let unused := st'.subView numConsumed st'.len
      (st', some c, unused, total - unused.len, none)
    | none => (st', none, .emptyMV, total, none)

end TLSHello

/-! ## HTTP/1.x request recognizer (src/gnet/http/parser_factory.go) -/

namespace HTTPRec

def minSupportedHTTPMethodLength : Int := 3
def maxSupportedHTTPMethodLength : Int := 7
def maxHTTPRequestURILength : Int := 4000

/-- The supported methods, in the source's priority order. -/
def supportedHTTPMethods : List (List Byte) :=
  [strBytes "GET", strBytes "POST", strBytes "DELETE", strBytes "HEAD",
   strBytes "PUT", strBytes "PATCH", strBytes "CONNECT", strBytes "OPTIONS",
   strBytes "TRACE"]

/-- `hasValidHTTPRequestLine`: the input starts right after the HTTP method. -/
def hasValidHTTPRequestLine (input : MemView) : AcceptDecision :=
  if input.len = 0 then .needMoreData
  else if input.getByte 0 ≠ 32 then .reject
  else
    let nextSP := input.index 1 (strBytes " ")
    if nextSP < 0 then
      if maxHTTPRequestURILength < input.len - 1 then .reject else .needMoreData
    else if nextSP = 1 then .reject
    else
      let tail := input.subView (nextSP + 1) input.len
      if tail.len < 10 then .needMoreData
      else if tail.index 0 (strBytes "HTTP/1.1\r\n") = 0 ∨
          tail.index 0 (strBytes "HTTP/1.0\r\n") = 0 then .accept
      else .reject

/-- The method loop of `httpRequestParserFactory.Accepts`: first method whose
first occurrence is followed by an `Accept` or `NeedMoreData` request line. -/
def requestLoop (input : MemView) : List (List Byte) → Option (AcceptDecision × Int)
  | [] => none
  | m :: rest =>
    let start := input.index 0 m
    if 0 ≤ start then
      match hasValidHTTPRequestLine (input.subView (start + m.length) input.len) with
      | .accept => some (.accept, start)
      | .needMoreData => some (.needMoreData, start)
      | .reject => requestLoop input rest
    else requestLoop input rest

/-- `httpRequestParserFactory.Accepts` before the deferred end-of-stream
conversion. -/
def requestAcceptsCore (input : MemView) : AcceptDecision × Int :=
  if input.len < minSupportedHTTPMethodLength then (.needMoreData, 0)
  else
    match requestLoop input supportedHTTPMethods with
    | some r => r
    | none =>
      if input.len < maxSupportedHTTPMethodLength then (.needMoreData, 0)
      else (.reject, input.len)

/-- `httpRequestParserFactory.Accepts` (with the deferred conversion of
`NeedMoreData` into `Reject` at end of stream). -/
def requestAccepts (input : MemView) (isEnd : Bool) : AcceptDecision × Int :=
  let r := requestAcceptsCore input
  if r.1 = .needMoreData ∧ isEnd then (.reject, input.len) else r

end HTTPRec

/-! ## FTP/SMTP response recognizer (src/gnet/ftp/parser_factory.go) -/

namespace FTPRec

/-- `minFtpCMDLengthBytes = 3 + 1 + 1 + 2`. -/
def minFtpCMDLengthBytes : Int := 3 + 1 + 1 + 2

/-- `ftpResponseParserFactory.accepts` (lower-case). -/
def responseAcceptsCore (input : MemView) : AcceptDecision × Int :=
  if input.len < minFtpCMDLengthBytes then (.needMoreData, 0)
  else
    let data := input.bytes
    if data.getD 0 0 < 0x31 ∨ 0x35 < data.getD 0 0 ∨ 0x35 < data.getD 1 0 then
      (.reject, 0)
    else if data.getD 3 0 ≠ 0x20 ∧ data.getD 3 0 ≠ 0x2d then (.reject, 0)
    else if data.getD (data.length - 2) 0 ≠ 0x0d ∨ data.getD (data.length - 1) 0 ≠ 0x0a then
      (.reject, 0)
    else (.accept, 0)

/-- `ftpResponseParserFactory.Accepts`. -/
def responseAccepts (input : MemView) (isEnd : Bool) : AcceptDecision × Int :=
  let r := responseAcceptsCore input
  if r.1 = .needMoreData ∧ isEnd then (.reject, input.len) else r

end FTPRec

/-! ## HTTP/2 connection-preface recognizer (src/gnet/http2/parser_factory.go) -/

namespace HTTP2Rec

/-- The 24-octet literal `PRI * HTTP/2.0\r\n\r\nSM\r\n\r\n`. -/
def connectionPreface : List Byte := strBytes "PRI * HTTP/2.0\r\n\r\nSM\r\n\r\n"

/-- `http2PrefaceParserFactory.Accepts`. -/
def accepts (input : MemView) (isEnd : Bool) : AcceptDecision × Int :=
  if input.len < (connectionPreface.length : Int) then
    if isEnd then (.reject, input.len) else (.needMoreData, 0)
  else
    let start := input.index 0 connectionPreface
    if 0 ≤ start then (.accept, start)
    else if isEnd then (.reject, input.len)
    else
      let nMinus1Suffix := input.len - (connectionPreface.length : Int) + 1
      let possible := input.index nMinus1Suffix (connectionPreface.take 1)
      if 0 ≤ possible then (.needMoreData, possible)
      else (.reject, input.len)

/-- The `http2Sink` parser state. -/
structure Http2Sink where
  firstInput : Bool
  totalBytesConsumed : Int
deriving Repr, DecidableEq

/-- `http2PrefaceParserFactory.CreateParser`. -/
def createParser : Http2Sink := ⟨true, 0⟩

/-- `http2Sink.Parse`: one preface result on the first call, then sink
everything silently. -/
def sinkParse (s : Http2Sink) (input : MemView) (_isEnd : Bool) :
    Http2Sink × Option PNC × MemView × Int × Option IOErr :=
  if s.firstInput then
    (⟨false, 0⟩, some .http2ConnectionPreface, .emptyMV, input.len, none)
  else
    (⟨s.firstInput, s.totalBytesConsumed + input.len⟩, none, .emptyMV,
      s.totalBytesConsumed + input.len, none)

end HTTP2Rec

/-! ## The parser-factory selector and the per-flow dispatcher
(`gnet.TCPParserFactorySelector.Select` and `tcpFlow.reassembledWithIgnore`
of src/pcap/pcap_stream.go) -/

namespace Flow

/-- Outcome of asking the factory selector for a decision on some input: the
decision, the discard-front, and on `Accept` the parser created by the
winning factory (`CreateParser`). -/
inductive SelectOut (σ : Type) where
  | needMoreData (discardFront : Int)
  | reject (discardFront : Int)
  | accept (discardFront : Int) (parser : σ)

/-- Modelled from the spec: the implementation of
`gnet.TCPParserFactorySelector.Select` is not under src/ (only its unit test
`TestTCPParserFactorySelector` and its callers are).  Per the spec, the
selector asks each factory in order, returns on the first `Accept` with that
factory's discard-front, otherwise returns `NeedMoreData` with the minimum
discard-front over all need-more-data factories, and otherwise `Reject`
discarding the entire input.  Factories are modelled by their `Accepts`
functions; the selector returns the index of the accepting factory. -/
def selectLoop (input : MemView) (isEnd : Bool) :
    List (MemView → Bool → AcceptDecision × Int) → Nat → Option Int →
    Option Nat × AcceptDecision × Int
  | [], _, minNMD =>
    match minNMD with
    | some m => (none, .needMoreData, m)
    | none => (none, .reject, input.len)
  | fact :: rest, idx, minNMD =>
    let r := fact input isEnd
    match r.1 with
    | .accept => (some idx, .accept, r.2)
    | .needMoreData =>
      selectLoop input isEnd rest (idx + 1)
        (some (match minNMD with | none => r.2 | some m => min m r.2))
    | .reject => selectLoop input isEnd rest (idx + 1) minNMD

theorem selectLoop_nil (input : MemView) (isEnd : Bool) (idx : Nat)
    (minNMD : Option Int) :
    selectLoop input isEnd [] idx minNMD
      = match minNMD with
        | some m => (none, .needMoreData, m)
        | none => (none, .reject, input.len) := rfl

theorem selectLoop_cons (input : MemView) (isEnd : Bool)
    (fact : MemView → Bool → AcceptDecision × Int)
    (rest : List (MemView → Bool → AcceptDecision × Int)) (idx : Nat)
    (minNMD : Option Int) :
    selectLoop input isEnd (fact :: rest) idx minNMD
      = match (fact input isEnd).1 with
        | .accept => (some idx, .accept, (fact input isEnd).2)
        | .needMoreData =>
          selectLoop input isEnd rest (idx + 1)
            (some (match minNMD with | none => (fact input isEnd).2
                                     | some m => min m (fact input isEnd).2))
        | .reject => selectLoop input isEnd rest (idx + 1) minNMD := rfl

/-- Modelled from the spec: `TCPParserFactorySelector.Select`. -/
def selectGo (facts : List (MemView → Bool → AcceptDecision × Int))
    (input : MemView) (isEnd : Bool) : Option Nat × AcceptDecision × Int :=
  selectLoop input isEnd facts 0 none

/-- One `parse` call's outcome: new parser state, result, unused suffix,
total bytes consumed, error. -/
structure ParseOut (σ : Type) where
  st : σ
  result : Option PNC
  unused : MemView
  consumed : Int
  err : Option IOErr

/-- Per-direction flow state: the active parser (if any) and the residual
buffer kept while no parser has been selected. -/
structure FlowState (σ : Type) where
  currentParser : Option σ
  unusedAcceptBuf : MemView

/-- An emitted record, reduced to what the claims are about: the parsed
content and the payload bytes handed to `toPNT`. -/
abbrev Emission := PNC × List Byte

/-- `tcpFlow.handleUnparseable`: emit non-empty data as dropped bytes. -/
def handleUnparseable (data : List Byte) : List Emission :=
  if 0 < data.length then [(.droppedBytes (data.length : Int), data)] else []

/-- Parser dispatch step of `tcpFlow.reassembledWithIgnore` (the code after
parser selection).  Returns either the final flow state and emissions, or —
when a completed parse leaves unused bytes at end of stream — the emissions
so far together with the `ignoreCount` at which to re-enter
`reassembledWithIgnore`. -/
def flowDispatch {σ : Type} (parseFn : σ → MemView → Bool → ParseOut σ)
    (p : σ) (pktData uab : MemView) (sgBytes : List Byte)
    (isEnd : Bool) (ems : List Emission) :
    (FlowState σ × List Emission) ⊕ (MemView × List Emission × Nat) :=
  let out := parseFn p pktData isEnd
  match out.err with
  | some _ => .inl (⟨none, uab⟩, ems ++ handleUnparseable pktData.bytes)
  | none =>
    match out.result with
    | some c =>
      let ems2 := ems ++ [(c, pktData.bytes)]
      if 0 < out.unused.len then
        if isEnd then .inr (uab, ems2, sgBytes.length - out.unused.len.toNat)
        else .inl (⟨none, uab⟩, ems2)
      else .inl (⟨none, uab⟩, ems2)
    | none => .inl (⟨some out.st, uab⟩, ems)

/-- `tcpFlow.reassembledWithIgnore`, parametrised by the active parser's
`Parse` function and the selector (interface dispatch in the source).
`sgBytes` is the reassembled data in the scatter/gather buffer and
`ignoreCount` the number of leading bytes to ignore; capture-timestamp
bookkeeping and the `KeepFrom` calls (which do not change flow state) are
not modelled.  The fuel bounds the end-of-stream re-entry on unused bytes
and is chosen large enough by the `reassembled` wrapper. -/
def reassembledWithIgnore {σ : Type} (parseFn : σ → MemView → Bool → ParseOut σ)
    (selectFn : MemView → Bool → SelectOut σ) :
    Nat → FlowState σ → List Byte → Nat → Bool → FlowState σ × List Emission
  | 0, f, _, _, _ => (f, [])
  | fuel + 1, f, sgBytes, ignoreCount, isEnd =>
    let pktData0 := MemView.new (sgBytes.drop ignoreCount)
    let dispatched : ((FlowState σ × List Emission) ⊕ (MemView × List Emission × Nat)) ⊕
        (FlowState σ × List Emission) :=
      match f.currentParser with
      | none =>
        match selectFn pktData0 isEnd with
        | .needMoreData discardFront =>
          let ems := if 0 < discardFront then handleUnparseable pktData0.bytes else []
          let pktData :=
            if 0 < discardFront then pktData0.subView discardFront pktData0.len else pktData0
          .inr (⟨none, pktData⟩, ems)
        | .reject discardFront =>
          let ems := if 0 < discardFront then handleUnparseable pktData0.bytes else []
          .inr (⟨none, MemView.emptyMV⟩, ems)
        | .accept discardFront p =>
          let ems := if 0 < discardFront then handleUnparseable pktData0.bytes else []
          let pktData :=
            if 0 < discardFront then pktData0.subView discardFront pktData0.len else pktData0
          .inl (flowDispatch parseFn p pktData MemView.emptyMV sgBytes isEnd ems)
      | some p =>
        .inl (flowDispatch parseFn p pktData0 f.unusedAcceptBuf sgBytes isEnd [])
    match dispatched with
    | .inr out => out
    | .inl (.inl out) => out
    | .inl (.inr (uab, ems2, newIgnore)) =>
      let rec2 := reassembledWithIgnore parseFn selectFn fuel
        ⟨none, uab⟩ sgBytes newIgnore isEnd
      (rec2.1, ems2 ++ rec2.2)

/-- `tcpFlow.reassembled`: entry point with `ignoreCount = 0`. -/
def reassembled {σ : Type} (parseFn : σ → MemView → Bool → ParseOut σ)
    (selectFn : MemView → Bool → SelectOut σ)
    (f : FlowState σ) (sgBytes : List Byte) (isEnd : Bool) :
    FlowState σ × List Emission :=
  reassembledWithIgnore parseFn selectFn (sgBytes.length + 1) f sgBytes 0 isEnd

end Flow

/-! ## Buffer pool and buffer (src/mempool, src/unnamed/part_020) -/

namespace Mempool

/-- The pool: a bounded queue of free chunks, modelled by the number of free
chunks, the queue capacity, and the fixed chunk size.  `getChunk` zeroes the
chunk it hands out, so free chunks need not be stored individually. -/
structure Pool where
  free : Nat
  capNum : Nat
  chunkSize : Nat
deriving Repr, DecidableEq

/-- `bufferPool.getChunk`: a zeroed chunk, or `none` when the pool is empty
(non-blocking receive). -/
def Pool.getChunk (pool : Pool) : Option (List Byte) × Pool :=
  if pool.free = 0 then (none, pool)
  else (some (List.replicate pool.chunkSize 0), { pool with free := pool.free - 1 })

/-- `bufferPool.release`: non-blocking sends; stops at the first full queue
(dropping the remaining chunks). -/
def Pool.releaseLoop : List (List Byte) → Pool → Pool
  | [], pool => pool
  | _ :: rest, pool =>
    if pool.free < pool.capNum then Pool.releaseLoop rest { pool with free := pool.free + 1 }
    else pool

/-- The `buffer` representation: owned chunks, read offset into the first,
write offset into the last. -/
structure GoBuffer where
  chunks : List (List Byte)
  readOffset : Nat
  writeOffset : Nat
deriving Repr, DecidableEq

/-- Chunk-acquisition loop of `buffer.grow`: obtain up to `k` chunks,
stopping when the pool is empty.  Returns pool, extended chunk list, and the
number obtained. -/
def growObtain : Nat → Pool → List (List Byte) → Pool × List (List Byte) × Nat
  | 0, pool, chunks => (pool, chunks, 0)
  | k + 1, pool, chunks =>
    match pool.getChunk with
    | (none, pool1) => (pool1, chunks, 0)
    | (some c, pool1) =>
      let out := growObtain k pool1 (chunks ++ [c])
      (out.1, out.2.1, out.2.2 + 1)

/-- `buffer.grow`: make room for up to `n` more bytes.  Returns the pool, the
buffer with any new chunks appended, the chunk index and offset at which to
write, and the available space. -/
def grow (pool : Pool) (buf : GoBuffer) (n : Int) :
    Pool × GoBuffer × Nat × Nat × Int :=
  let init : Nat × Nat × Int :=
    if buf.chunks.length = 0 then (0, 0, 0)
    else (buf.chunks.length - 1, buf.writeOffset, (pool.chunkSize : Int) - buf.writeOffset)
  let chunkIdx := init.1
  let offset := init.2.1
  let avail := init.2.2
  let spaceNeeded := n - avail
  if spaceNeeded ≤ 0 then (pool, buf, chunkIdx, offset, avail)
  else
    let chunksNeeded := ((spaceNeeded + pool.chunkSize - 1) / pool.chunkSize).toNat
    let out := growObtain chunksNeeded pool buf.chunks
    let adj : Nat × Nat := if offset = pool.chunkSize then (chunkIdx + 1, 0) else (chunkIdx, offset)
    (out.1, { buf with chunks := out.2.1 }, adj.1, adj.2,
      avail + (out.2.2 : Int) * pool.chunkSize)

/-- Go `copy(chunk[offset:], src)`: write `src` into `chunk` starting at
`offset`, clamped to the chunk's end; returns the updated chunk and the
number of bytes copied. -/
def copyInto (chunk : List Byte) (offset : Nat) (src : List Byte) : List Byte × Nat :=
  let cp := min (chunk.length - offset) src.length
  (chunk.take offset ++ src.take cp ++ chunk.drop (offset + cp), cp)

/-- The write loop of `buffer.Write`: copy `p` chunk by chunk from
`(chunkIdx, offset)` to the end of the chunk list; returns the chunks, the
final write offset, and the number of bytes written. -/
def writeLoop (p : List Byte) :
    Nat → List (List Byte) → Nat → Nat → Nat → List (List Byte) × Nat × Nat
  | 0, chunks, _, offset, totalWritten => (chunks, offset, totalWritten)
  | fuel + 1, chunks, chunkIdx, offset, totalWritten =>
    if chunkIdx < chunks.length then
      let chunk := chunks.getD chunkIdx []
      let out := copyInto chunk offset (p.drop totalWritten)
      let chunks1 := chunks.set chunkIdx out.1
      let total1 := totalWritten + out.2
      if chunkIdx + 1 = chunks.length then (chunks1, offset + out.2, total1)
      else writeLoop p fuel chunks1 (chunkIdx + 1) 0 total1
    else (chunks, offset, totalWritten)

/-- `buffer.Write`: append `p`, drawing chunks from the pool; on exhaustion
writes what fits and reports the empty-pool error.  Returns pool, buffer,
bytes written, error. -/
def write (pool : Pool) (buf : GoBuffer) (p : List Byte) :
    Pool × GoBuffer × Nat × Option Unit :=
  if p.length = 0 then (pool, buf, 0, none)
  else
    let g := grow pool buf p.length
    let pool1 := g.1
    let buf1 := g.2.1
    let chunkIdx := g.2.2.1
    let offset := g.2.2.2.1
    let avail := g.2.2.2.2
    let err : Option Unit := if avail < (p.length : Int) then some () else none
    if avail = 0 then (pool1, buf1, 0, err)
    else
      let out := writeLoop p (buf1.chunks.length + 1) buf1.chunks chunkIdx offset 0
      (pool1, ⟨out.1, buf1.readOffset, out.2.1⟩, out.2.2, err)

/-- One planned response of the abstract `io.Reader` driving `ReadFrom`:
the bytes the reader produces (clamped to the space it is offered) and the
error it returns alongside them. -/
structure ReadResp where
  data : List Byte
  err : Option IOErr
deriving Repr, DecidableEq

/-- Errors surfaced by `buffer.ReadFrom`. -/
inductive BufErr where
  | emptyPool
  | readOther
deriving Repr, DecidableEq

/-- The space-ensuring step at the top of each `ReadFrom` iteration: grow by
one chunk when the buffer is empty or its last chunk is full; `none` when the
pool cannot supply a chunk. -/
def readFromEnsure (pool : Pool) (buf : GoBuffer) : Option (Pool × GoBuffer) :=
  if buf.chunks.length = 0 ∨ buf.writeOffset = pool.chunkSize then
    let g := grow pool buf pool.chunkSize
    if g.2.2.2.2 = 0 then none
    else some (g.1, ⟨g.2.1.chunks, g.2.1.readOffset, 0⟩)
  else some (pool, buf)

/-- The loop of `buffer.ReadFrom`: ensure space (growing by one chunk when
the last chunk is full), read into the last chunk, stop on EOF, error, or
pool exhaustion.  The reader is modelled by its list of planned responses;
an exhausted plan answers `(0, io.EOF)`. -/
def readFromLoop : List ReadResp → Pool → GoBuffer → Nat →
    Pool × GoBuffer × Nat × Option BufErr
  | [], pool, buf, total =>
    (match readFromEnsure pool buf with
     | none =>
       let g := grow pool buf pool.chunkSize
       (g.1, g.2.1, total, some .emptyPool)
     | some (pool1, buf1) => (pool1, buf1, total, none))
  | resp :: rest, pool, buf, total =>
    (match readFromEnsure pool buf with
     | none =>
       let g := grow pool buf pool.chunkSize
       (g.1, g.2.1, total, some .emptyPool)
     | some (pool1, buf1) =>
       let lastIdx := buf1.chunks.length - 1
       let chunk := buf1.chunks.getD lastIdx []
       let space := chunk.length - buf1.writeOffset
       let bytesCopied := min resp.data.length space
       let out := copyInto chunk buf1.writeOffset (resp.data.take bytesCopied)
       let buf2 : GoBuffer :=
         ⟨buf1.chunks.set lastIdx out.1, buf1.readOffset, buf1.writeOffset + bytesCopied⟩
       let total1 := total + bytesCopied
       match resp.err with
       | some .eof => (pool1, buf2, total1, none)
       | some .other => (pool1, buf2, total1, some .readOther)
       | none => readFromLoop rest pool1 buf2 total1)

/-- The deferred handler of `buffer.ReadFrom`: release a trailing unused
chunk back to the pool. -/
def readFromFinish (pool : Pool) (buf : GoBuffer) : Pool × GoBuffer :=
  if buf.chunks.length = 0 then (pool, buf)
  else if buf.writeOffset = 0 then
    (Pool.releaseLoop [buf.chunks.getLastD []] pool,
      ⟨buf.chunks.dropLast, buf.readOffset, pool.chunkSize⟩)
  else (pool, buf)

/-- `buffer.ReadFrom`. -/
def readFrom (pool : Pool) (buf : GoBuffer) (plan : List ReadResp) :
    Pool × GoBuffer × Nat × Option BufErr :=
  let out := readFromLoop plan pool buf 0
  let fin := readFromFinish out.1 out.2.1
  (fin.1, fin.2, out.2.2.1, out.2.2.2)

/-- `buffer.Release` (and `Reset`): return every chunk, clear the list and
the read offset (the write offset is left as-is, exactly as in the source). -/
def release (pool : Pool) (buf : GoBuffer) : Pool × GoBuffer :=
  (Pool.releaseLoop buf.chunks pool, ⟨[], 0, buf.writeOffset⟩)

/-- Slab list built by `buffer.Bytes()`: single chunk `[read:write]`, first
chunk `[read:]`, last chunk `[:write]`, middle chunks whole. -/
def bytesTail (writeOffset : Nat) : List (List Byte) → List (List Byte)
  | [] => []
  | [c] => [c.take writeOffset]
  | c :: rest => c :: bytesTail writeOffset rest

/-- The logical content of the buffer, as exposed by `buffer.Bytes()`. -/
def bufBytes (buf : GoBuffer) : List Byte :=
  match buf.chunks with
  | [] => []
  | [c] => ((c.drop buf.readOffset).take (buf.writeOffset - buf.readOffset))
  | c :: rest => (c.drop buf.readOffset ++ (bytesTail buf.writeOffset rest).flatten)

/-- `buffer.Len`: the offset formula (0 for an empty buffer). -/
def bufferLen (csize : Nat) (buf : GoBuffer) : Int :=
  if buf.chunks.length = 0 then 0
  else
    ((csize : Int) * buf.chunks.length) - buf.readOffset - ((csize : Int) - buf.writeOffset)

/-- The representation invariants checked by `buffer.repOk`, together with
the chunk-length invariant documented on `buffer.chunks`. -/
def RepOk (csize : Nat) (buf : GoBuffer) : Prop :=
  (∀ c ∈ buf.chunks, c.length = csize) ∧
  (buf.chunks = [] → buf.readOffset = 0) ∧
  (buf.chunks ≠ [] → buf.readOffset < csize) ∧
  (buf.chunks ≠ [] → 0 < buf.writeOffset ∧ buf.writeOffset ≤ csize) ∧
  (buf.chunks.length = 1 → buf.readOffset < buf.writeOffset)

instance (csize : Nat) (buf : GoBuffer) : Decidable (RepOk csize buf) := by
  unfold RepOk
  infer_instance

/-- The loop invariant of `ReadFrom`, a relaxation of `RepOk`: immediately
after the space-ensuring grow the write offset may be 0 (the deferred
handler repairs this before returning). -/
def MidInv (csize : Nat) (buf : GoBuffer) : Prop :=
  (∀ c ∈ buf.chunks, c.length = csize) ∧
  (buf.chunks = [] → buf.readOffset = 0) ∧
  (buf.chunks ≠ [] → buf.readOffset < csize) ∧
  (buf.chunks ≠ [] → buf.writeOffset ≤ csize) ∧
  (buf.chunks.length = 1 →
    buf.readOffset < buf.writeOffset ∨ (buf.readOffset = 0 ∧ buf.writeOffset = 0))

end Mempool

/-! ## Basic view lemmas -/

namespace MemView

@[simp]
theorem new_bytes (data : List Byte) : (new data).bytes = data := by
  simp [new, bytes]

@[simp]
theorem new_len (data : List Byte) : (new data).len = (data.length : Int) := rfl

theorem new_wf (data : List Byte) : (new data).WF := by
  simp [WF, new, bytes]

/-- If `stop` lies beyond the total slab length, the sub-view scan never
finds an end slab. -/
theorem subViewScan_snd_none (buf : List (List Byte)) :
    ∀ (i : Nat) (n : Int) (startAcc : Option (Nat × Int)) (start stop : Int),
      n + ((buf.map List.length).sum : Int) < stop →
      (subViewScan buf i n startAcc start stop).2 = none := by
  induction buf with
  | nil => intros; rfl
  | cons b rest ih =>
    intro i n startAcc start stop h
    rw [subViewScan]
    have hsum : (0 : Int) ≤ ((rest.map List.length).sum : Nat) := Int.ofNat_nonneg _
    have hb : ¬ stop ≤ n + (b.length : Int) := by
      simp only [List.map_cons, List.sum_cons, Nat.cast_add] at h
      omega
    rw [if_neg hb]
    apply ih
    simp only [List.map_cons, List.sum_cons, Nat.cast_add] at h
    omega

/-- The copy loop of `getBytes` produces exactly the logical slice when the
range is within bounds. -/
theorem getBytesLoop_flatten (buf : List (List Byte)) :
    ∀ (start stop : Int), 0 ≤ start → start < stop →
      stop ≤ (buf.flatten.length : Int) →
      (getBytesLoop buf start stop).flatten
        = (buf.flatten.drop start.toNat).take (stop - start).toNat := by
  induction buf with
  | nil =>
    intro start stop h0 hlt hle
    simp only [List.flatten_nil, List.length_nil, Nat.cast_zero] at hle
    omega
  | cons b rest ih =>
    intro start stop h0 hlt hle
    rw [getBytesLoop]
    rw [if_neg (by omega)]
    by_cases hskip : (b.length : Int) ≤ start
    · rw [if_pos hskip]
      have := ih (start - b.length) (stop - b.length) (by omega) (by omega) (by
        simp only [List.flatten_cons, List.length_append, Nat.cast_add] at hle
        omega)
      rw [this]
      have hdrop : (b ++ rest.flatten).drop start.toNat
          = rest.flatten.drop (start - (b.length : Int)).toNat := by
        have hsplit : start.toNat = b.length + (start - (b.length : Int)).toNat := by omega
        rw [hsplit, List.drop_append]
      simp only [List.flatten_cons]
      rw [hdrop]
      congr 1
      omega
    · rw [if_neg hskip]
      simp only [List.flatten_cons]
      by_cases hstop : (b.length : Int) < stop
      · have hcopyEnd : (if (b.length : Int) < stop then (b.length : Int) else stop)
            = (b.length : Int) := if_pos hstop
        rw [hcopyEnd]
        have hrec := ih 0 (stop - b.length) (le_refl 0) (by omega) (by
          simp only [List.flatten_cons, List.length_append, Nat.cast_add] at hle
          omega)
        simp only [List.flatten_cons, Int.toNat_zero, List.drop_zero, Int.sub_zero] at hrec
        rw [hrec]
        -- LHS: (b.drop start).take (blen - start) ++ rest.flatten.take (stop - blen)
        have hfull : ((b.drop start.toNat).take ((b.length : Int) - start).toNat)
            = b.drop start.toNat := by
          apply List.take_of_length_le
          simp only [List.length_drop]
          omega
        rw [hfull]
        rw [List.drop_append_of_le_length (by omega)]
        rw [List.take_append_eq_append_take]
        congr 1
        · symm
          apply List.take_of_length_le
          simp only [List.length_drop]
          omega
        · congr 1
          simp only [List.length_drop]
          omega
      · have hcopyEnd : (if (b.length : Int) < stop then (b.length : Int) else stop)
            = stop := if_neg hstop
        rw [hcopyEnd]
        have hrec0 : getBytesLoop rest 0 (stop - b.length) = [] := by
          cases rest with
          | nil => rfl
          | cons c cs =>
            rw [getBytesLoop]
            rw [if_pos (by omega)]
        rw [hrec0]
        simp only [List.flatten_cons, List.flatten_nil, List.append_nil]
        rw [List.drop_append_of_le_length (by omega)]
        rw [List.take_append_eq_append_take]
        have : (stop - start).toNat - (b.drop start.toNat).length = 0 := by
          simp only [List.length_drop]
          omega
        rw [this]
        simp

/-- `getBytes` on a well-formed view with a valid range is the logical
slice. -/
theorem getBytes_eq (mv : MemView) (hwf : mv.WF) (start stop : Int)
    (h0 : 0 ≤ start) (hse : start ≤ stop) (hle : stop ≤ mv.len) :
    mv.getBytes start stop
      = some ((mv.bytes.drop start.toNat).take (stop - start).toNat) := by
  have hlen : mv.len = (mv.bytes.length : Int) := hwf
  rw [getBytes, if_neg (not_not_intro ⟨h0, hse, hle⟩)]
  rcases eq_or_lt_of_le hse with heq | hlt
  · subst heq
    have hloop : getBytesLoop mv.buf start start = [] := by
      cases hb : mv.buf with
      | nil => rfl
      | cons c cs =>
        rw [getBytesLoop]
        rw [if_pos (by omega)]
    rw [hloop]
    simp [padZeros]
  · have hflat : stop ≤ (mv.buf.flatten.length : Int) := by
      have : stop ≤ (mv.bytes.length : Int) := hlen ▸ hle
      exact this
    rw [getBytesLoop_flatten mv.buf start stop h0 hlt hflat]
    have hslice : ((mv.buf.flatten.drop start.toNat).take (stop - start).toNat).length
        = (stop - start).toNat := by
      simp only [List.length_take, List.length_drop]
      rw [MemView.len] at hle
      rw [MemView.bytes] at hlen
      omega
    rw [padZeros, hslice]
    simp [MemView.bytes]

/-- `GetByte` on a well-formed view is the logical byte (0 out of range). -/
theorem getByteLoop_eq (buf : List (List Byte)) :
    ∀ (n : Int), 0 ≤ n → getByteLoop buf n = buf.flatten.getD n.toNat 0 := by
  induction buf with
  | nil => intro n _; simp [getByteLoop]
  | cons b rest ih =>
    intro n h0
    rw [getByteLoop]
    by_cases hin : n < (b.length : Int)
    · rw [if_pos hin]
      simp only [List.flatten_cons]
      rw [List.getD_append b rest.flatten 0 n.toNat (by omega)]
    · rw [if_neg hin]
      rw [ih (n - b.length) (by omega)]
      simp only [List.flatten_cons]
      rw [List.getD_append_right b rest.flatten 0 n.toNat (by omega)]
      congr 1
      omega

theorem getByte_eq (mv : MemView) (i : Int) (h0 : 0 ≤ i) :
    mv.getByte i = mv.bytes.getD i.toNat 0 := by
  rw [getByte, if_neg (by omega)]
  exact getByteLoop_eq mv.buf i h0

/-- `beUint` of a two-byte list. -/
theorem beUint_pair (a b : Byte) : beUint [a, b] = 256 * a + b := by
  simp [beUint, List.foldl]
  ring

/-- `GetUint16` on a well-formed view with both bytes in range is the
big-endian decode of the bytes at `off` and `off+1`. -/
theorem getUint16_eq (mv : MemView) (hwf : mv.WF) (off : Int)
    (h0 : 0 ≤ off) (hle : off + 2 ≤ mv.len) :
    mv.getUint16 off
      = 256 * mv.bytes.getD off.toNat 0 + mv.bytes.getD (off.toNat + 1) 0 := by
  rw [getUint16, getBytes_eq mv hwf off (off + 2) h0 (by omega) hle]
  have h2 : (off + 2 - off).toNat = 2 := by omega
  rw [h2]
  have hlen : (mv.bytes.length : Int) = mv.len := hwf.symm
  have hlt : off.toNat + 1 < mv.bytes.length := by
    rw [MemView.len] at hle hlen
    omega
  have htake : (mv.bytes.drop off.toNat).take 2
      = [mv.bytes.getD off.toNat 0, mv.bytes.getD (off.toNat + 1) 0] := by
    have hgen : ∀ (l : List Byte) (k : Nat) (hk : k + 1 < l.length),
        (l.drop k).take 2 = [l.getD k 0, l.getD (k + 1) 0] := by
      intro l k hk
      have e1 : l.getD k 0 = l.get ⟨k, by omega⟩ := List.getD_eq_getElem l 0 (by omega)
      have e2 : l.getD (k + 1) 0 = l.get ⟨k + 1, by omega⟩ :=
        List.getD_eq_getElem l 0 (by omega)
      rw [e1, e2]
      have hdrop := List.getElem_cons_drop l k (by omega)
      have hdrop2 := List.getElem_cons_drop l (k + 1) (by omega)
      rw [← hdrop, ← hdrop2]
      rfl
    exact hgen mv.bytes off.toNat hlt
  rw [htake]
  exact beUint_pair _ _

/-- `SubView` of a single-slab view with a valid non-empty range. -/
theorem subView_new_eq (data : List Byte) (start stop : Int)
    (_h0 : 0 ≤ start) (hlt : start < stop) (hle : stop ≤ (data.length : Int)) :
    (new data).subView start stop
      = ⟨[(data.drop start.toNat).take (stop - start).toNat], stop - start⟩ := by
  rw [subView, if_neg (by omega)]
  have hscan : subViewScan (new data).buf 0 0 none start stop
      = (some (0, start), some (0, stop)) := by
    show subViewScan [data] 0 0 none start stop = _
    rw [subViewScan]
    rw [if_pos (by omega)]
    rw [if_pos ⟨rfl, by omega⟩]
    simp
  rw [hscan]
  show (⟨subViewReslice ((([data] : List (List Byte)).drop 0).take (0 + 1 - 0))
        start stop, stop - start⟩ : MemView) = _
  simp only [List.drop_zero, List.take_succ_cons, List.take_zero]
  rfl

/-- On a single-slab view, `Index` is exactly the first occurrence at or
after `start` (the cross-slab paths are never taken). -/
theorem index_new (data : List Byte) (start : Int) (sep : List Byte)
    (h0 : 0 ≤ start) :
    (new data).index start sep =
      if (data.length : Int) ≤ start then -1
      else if sep.length = 0 then start
      else
        match firstOccur? (data.drop start.toNat) sep with
        | some p => start + p
        | none => -1 := by
  by_cases hpast : (data.length : Int) ≤ start
  · rw [if_pos hpast]
    have hscan : indexStartScan (new data).buf start 0 = none := by
      show indexStartScan [data] start 0 = none
      rw [indexStartScan, if_pos (by omega)]
      rfl
    rw [index, hscan]
  · rw [if_neg hpast]
    have hscan : indexStartScan (new data).buf start 0
        = some ([data], start.toNat, start) := by
      show indexStartScan [data] start 0 = _
      rw [indexStartScan, if_neg (by omega)]
      simp
    rw [index, hscan]
    show (if sep.length = 0 then start else indexSlabLoop sep [data] start.toNat 0 start) = _
    by_cases hsep : sep.length = 0
    · rw [if_pos hsep, if_pos hsep]
    · rw [if_neg hsep, if_neg hsep]
      rw [indexSlabLoop]
      have hstraddle : straddleLoop data sep (data.length + 1) start.toNat 0
          = Sum.inr (start.toNat, 0) := by
        rw [straddleLoop, if_neg (by simp)]
      rw [hstraddle]
      show (if start.toNat < data.length then _ else _) = _
      rw [if_pos (by omega)]
      cases hfo : firstOccur? (data.drop start.toNat) sep with
      | some p => rfl
      | none => rfl

/-- The `subView` of a single-slab view has the expected bytes and length. -/
theorem subView_new_bytes (data : List Byte) (start stop : Int)
    (h0 : 0 ≤ start) (hlt : start < stop) (hle : stop ≤ (data.length : Int)) :
    ((new data).subView start stop).bytes
        = (data.drop start.toNat).take (stop - start).toNat ∧
      ((new data).subView start stop).len = stop - start := by
  rw [subView_new_eq data start stop h0 hlt hle]
  constructor
  · simp [bytes]
  · rfl

end MemView

/-! ## Claim theorems -/

/-- **C10.** For every view `v` and offsets `0 ≤ start < end` with
`end > v.len`, `SubView(start, end)` returns the empty view (zero slabs,
length 0): an out-of-range upper bound degrades to emptiness rather than
an error or a partial range. -/
theorem subView_out_of_range (mv : MemView) (start stop : Int)
    (hwf : mv.WF) (_h0 : 0 ≤ start) (hlt : start < stop) (hover : mv.len < stop) :
    mv.subView start stop = ⟨[], 0⟩ := by
  rw [MemView.subView, if_neg (by omega)]
  have hlen : mv.length = ((mv.buf.map List.length).sum : Int) := by
    simpa [MemView.WF, MemView.bytes, List.length_flatten] using hwf
  have hnone := MemView.subViewScan_snd_none mv.buf 0 0 none start stop (by
    simp only [MemView.len] at hover
    omega)
  rcases hres : MemView.subViewScan mv.buf 0 0 none start stop with ⟨sa, se⟩
  rw [hres] at hnone
  subst hnone
  cases sa <;> simp

/-- Witness for C10 at a concrete input. -/
theorem subView_out_of_range_witness :
    (MemView.new [1, 2, 3]).subView 1 5 = ⟨[], 0⟩ :=
  subView_out_of_range (MemView.new [1, 2, 3]) 1 5 (MemView.new_wf _)
    (by decide) (by decide) (by decide)

/-- **C1.** Failing input for `MemView.Index`: on the view with slabs
`["G", "GET"]` (logical bytes `"GGET"`), `Index(0, "GET")` returns `-1`
even though `"GET"` occurs at offset 1 — after the cross-slab partial match
`"G"`+`"G"` fails, the scan resumes past the true occurrence.  This
contradicts both the claim and the function's own documentation (which
promises the first occurrence, with `GET` explicitly listed among the
supported prefix-unique needles). -/
theorem index_misses_cross_slab_occurrence :
    MemView.index
      (MemView.append (MemView.new (strBytes "G")) (MemView.new (strBytes "GET")))
      0 (strBytes "GET") = -1 ∧
    (MemView.append (MemView.new (strBytes "G")) (MemView.new (strBytes "GET"))).bytes
      = strBytes "GGET" ∧
    (strBytes "GET").isPrefixOf ((strBytes "GGET").drop 1) = true := by
  decide

/-- `responseAcceptsCore` on an input of at least 7 bytes accepts exactly
under the byte conditions the code tests. -/
theorem ftpCore_accept_iff (data : List Byte) (h7 : 7 ≤ data.length) :
    FTPRec.responseAcceptsCore (MemView.new data) = (.accept, 0) ↔
      (0x31 ≤ data.getD 0 0 ∧ data.getD 0 0 ≤ 0x35 ∧ data.getD 1 0 ≤ 0x35 ∧
        (data.getD 3 0 = 0x20 ∨ data.getD 3 0 = 0x2d) ∧
        data.getD (data.length - 2) 0 = 0x0d ∧ data.getD (data.length - 1) 0 = 0x0a) := by
  simp only [FTPRec.responseAcceptsCore, FTPRec.minFtpCMDLengthBytes,
    MemView.new_len, MemView.new_bytes]
  split_ifs with h0 h1 h2 h3
  · exact absurd h0 (by push_cast; omega)
  · constructor
    · intro hc; exact absurd hc (by decide)
    · rintro ⟨a1, a2, a3, _, _, _⟩
      exfalso
      rcases h1 with h | h | h
      · exact absurd a1 (Nat.not_le.mpr h)
      · exact absurd a2 (Nat.not_le.mpr h)
      · exact absurd a3 (Nat.not_le.mpr h)
  · constructor
    · intro hc; exact absurd hc (by decide)
    · rintro ⟨_, _, _, a4, _, _⟩
      exfalso
      rcases a4 with h | h
      · exact h2.1 h
      · exact h2.2 h
  · constructor
    · intro hc; exact absurd hc (by decide)
    · rintro ⟨_, _, _, _, a5, a6⟩
      exfalso
      rcases h3 with h | h
      · exact h a5
      · exact h a6
  · constructor
    · intro _
      push_neg at h1 h2 h3
      refine ⟨h1.1, h1.2.1, h1.2.2, ?_, h3.1, h3.2⟩
      by_cases hx : data.getD 3 0 = 0x20
      · exact Or.inl hx
      · exact Or.inr (h2 hx)
    · intro _; rfl

/-- `responseAcceptsCore` buffers on inputs shorter than 7 bytes. -/
theorem ftpCore_short (data : List Byte) (h7 : data.length < 7) :
    FTPRec.responseAcceptsCore (MemView.new data) = (.needMoreData, 0) := by
  simp only [FTPRec.responseAcceptsCore, FTPRec.minFtpCMDLengthBytes, MemView.new_len]
  rw [if_pos]
  push_cast
  omega

/-- **C6 (amended).** The FTP/SMTP response recognizer: for every input of at
least **7** bytes (`minFtpCMDLengthBytes = 3+1+1+2`), it accepts exactly when
the first byte is in `'1'..'5'`, the second byte is at most `'5'` (no lower
bound, and the third byte is unconstrained), the fourth byte is a space or
hyphen, and the input's final two bytes are CR LF; inputs shorter than 7
bytes (not at end of stream) yield `NeedMoreData`. -/
theorem ftp_response_accepts_characterization (data : List Byte) (isEnd : Bool) :
    (7 ≤ data.length →
      (FTPRec.responseAccepts (MemView.new data) isEnd = (.accept, 0) ↔
        (0x31 ≤ data.getD 0 0 ∧ data.getD 0 0 ≤ 0x35 ∧ data.getD 1 0 ≤ 0x35 ∧
          (data.getD 3 0 = 0x20 ∨ data.getD 3 0 = 0x2d) ∧
          data.getD (data.length - 2) 0 = 0x0d ∧ data.getD (data.length - 1) 0 = 0x0a))) ∧
    (data.length < 7 → isEnd = false →
      FTPRec.responseAccepts (MemView.new data) isEnd = (.needMoreData, 0)) := by
  constructor
  · intro h7
    rw [← ftpCore_accept_iff data h7]
    simp only [FTPRec.responseAccepts]
    split_ifs with hc
    · constructor
      · intro he
        simp only [Prod.mk.injEq] at he
        exact absurd he.1 (by decide)
      · intro he
        rw [he] at hc
        exact absurd hc.1 (by decide)
    · rfl
  · intro h7 hend
    subst hend
    simp only [FTPRec.responseAccepts, ftpCore_short data h7]
    rfl

/-- Witness for C6 at concrete inputs. -/
theorem ftp_response_accepts_witness :
    FTPRec.responseAccepts (MemView.new (strBytes "331 ok.\r\n")) false = (.accept, 0) ∧
    FTPRec.responseAccepts (MemView.new (strBytes "10")) false = (.needMoreData, 0) := by
  constructor
  · exact ((ftp_response_accepts_characterization (strBytes "331 ok.\r\n") false).1
      (by decide)).mpr (by decide)
  · exact (ftp_response_accepts_characterization (strBytes "10") false).2 (by decide) rfl

/-- **C6 counterexample.** `"100 \r\n"` is 6 bytes, satisfies all of the
claim's acceptance conditions (three-digit status `100`, space, CRLF) and is
at least 5 bytes long, yet the recognizer returns `NeedMoreData`: the code's
minimum is 7 bytes, not the claimed 5. -/
theorem ftp_response_five_byte_claim_false :
    5 ≤ (strBytes "100 \r\n").length ∧ (strBytes "100 \r\n").length < 7 ∧
    FTPRec.responseAccepts (MemView.new (strBytes "100 \r\n")) false =
      (.needMoreData, 0) := by
  decide

/-- **C4 (amended).** TLS Client Hello record framing: the 16-bit big-endian
handshake payload length is taken from the **fourth and fifth** bytes of the
accumulated input (offsets 3 and 4, the last two bytes of the 5-byte record
header); the parser returns no result and no error (it buffers) until at
least `5 + length` bytes are available (when not at end of stream), and once
they are, it parses the handshake body. -/
theorem tls_client_hello_framing (st input : MemView) (isEnd : Bool) :
    ((st.append input).WF → 5 ≤ (st.append input).len →
      (st.append input).getUint16 (TLSHello.tlsRecordHeaderLen - 2)
        = 256 * (st.append input).bytes.getD 3 0
          + (st.append input).bytes.getD 4 0) ∧
    ((st.append input).len <
        5 + ((st.append input).getUint16 3 : Int) →
      TLSHello.parseInner st input = (st.append input, none, 0, none)) ∧
    ((st.append input).len <
        5 + ((st.append input).getUint16 3 : Int) → isEnd = false →
      TLSHello.parseGo st input isEnd
        = (st.append input, none, .emptyMV, (st.append input).len, none)) ∧
    (5 + ((st.append input).getUint16 3 : Int) ≤ (st.append input).len →
      TLSHello.parseInner st input
        = (st.append input, (TLSHello.parseBody (st.append input)).1,
            (TLSHello.parseBody (st.append input)).2.1,
            (TLSHello.parseBody (st.append input)).2.2)) := by
  have hu16 : ∀ v : MemView, v.len < 5 → v.getUint16 3 = 0 := by
    intro v hv
    rw [MemView.getUint16]
    have : v.getBytes 3 (3 + 2) = none := by
      rw [MemView.getBytes, if_pos]
      push_neg
      intro _ _
      omega
    rw [this]
  refine ⟨?_, ?_, ?_, ?_⟩
  · intro hwf h5
    have := MemView.getUint16_eq (st.append input) hwf 3 (by omega) (by omega)
    simpa [TLSHello.tlsRecordHeaderLen] using this
  · intro hlt
    rw [TLSHello.parseInner]
    by_cases h5 : (st.append input).len < TLSHello.tlsRecordHeaderLen
    · rw [if_pos h5]
    · rw [if_neg h5]
      rw [if_pos (by simpa [TLSHello.tlsRecordHeaderLen] using hlt)]
  · intro hlt hend
    subst hend
    have hinner : TLSHello.parseInner st input = (st.append input, none, 0, none) := by
      rw [TLSHello.parseInner]
      by_cases h5 : (st.append input).len < TLSHello.tlsRecordHeaderLen
      · rw [if_pos h5]
      · rw [if_neg h5]
        rw [if_pos (by simpa [TLSHello.tlsRecordHeaderLen] using hlt)]
    rw [TLSHello.parseGo, hinner]
    rfl
  · intro hge
    rw [TLSHello.parseInner]
    have h5 : ¬ (st.append input).len < TLSHello.tlsRecordHeaderLen := by
      have : (0 : Int) ≤ (st.append input).getUint16 3 := Int.ofNat_nonneg _
      simp only [TLSHello.tlsRecordHeaderLen]
      omega
    rw [if_neg h5]
    rw [if_neg (by simpa [TLSHello.tlsRecordHeaderLen] using not_lt.mpr hge)]

/-- Witness for C4 at concrete inputs: a 5-byte record header announcing a
2-byte payload buffers at 6 bytes and parses (here: errors on the malformed
body) at 7 bytes. -/
theorem tls_client_hello_framing_witness :
    TLSHello.parseGo MemView.emptyMV (MemView.new [0x16, 0x03, 0x01, 0x00, 0x02, 0xAA])
        false
      = (MemView.emptyMV.append (MemView.new [0x16, 0x03, 0x01, 0x00, 0x02, 0xAA]), none,
          .emptyMV, 6, none) ∧
    (MemView.emptyMV.append
        (MemView.new [0x16, 0x03, 0x01, 0x00, 0x02, 0xAA])).getUint16
        (TLSHello.tlsRecordHeaderLen - 2)
      = 2 := by
  constructor
  · exact (tls_client_hello_framing MemView.emptyMV
      (MemView.new [0x16, 0x03, 0x01, 0x00, 0x02, 0xAA]) false).2.2.1 (by decide) rfl
  · exact ((tls_client_hello_framing MemView.emptyMV
      (MemView.new [0x16, 0x03, 0x01, 0x00, 0x02, 0xAA]) false).1 (by decide)
        (by decide)).trans (by decide)

/-- **C4 counterexample.** On the 8-byte input
`16 03 01 00 02 01 00 00`, the bytes at the claimed positions (fifth and
sixth, i.e. offsets 4 and 5) read `0x0201 = 513`, so by the claim the parser
should still be buffering (no result, no error) until 518 bytes arrive; the
code instead reads the length `2` from offsets 3-4, considers the record
complete at 7 bytes, parses the body and returns an error. -/
theorem tls_client_hello_fifth_sixth_claim_false :
    (8 : Int) < 5 + (256 * 0x02 + 0x01) ∧
    TLSHello.parseGo MemView.emptyMV
        (MemView.new [0x16, 0x03, 0x01, 0x00, 0x02, 0x01, 0x00, 0x00]) false
      = (MemView.emptyMV.append
          (MemView.new [0x16, 0x03, 0x01, 0x00, 0x02, 0x01, 0x00, 0x00]),
          none, .emptyMV, 8, some IOErr.eof) := by
  constructor
  · decide
  · rfl

/-- **C7.** The HTTP/2 preface recognizer returns `Accept` at the first
occurrence of the literal 24-byte preface; with fewer than 24 bytes buffered
and not at end of stream it returns `NeedMoreData` with discard-front 0
(which preserves every suffix, in particular any suffix matching the
preface's first byte); and once accepted, the parser emits exactly one
preface result on its first `Parse` call (moving to the sunk state) and for
every subsequent input emits nothing and no error. -/
theorem http2_preface_recognizer (data : List Byte) (isEnd : Bool) :
    (∀ p : Nat, firstOccur? data HTTP2Rec.connectionPreface = some p →
      HTTP2Rec.accepts (MemView.new data) isEnd = (.accept, (p : Int))) ∧
    (data.length < 24 → isEnd = false →
      HTTP2Rec.accepts (MemView.new data) isEnd = (.needMoreData, 0)) ∧
    (∀ (input : MemView) (e : Bool),
      HTTP2Rec.sinkParse HTTP2Rec.createParser input e
        = (⟨false, 0⟩, some PNC.http2ConnectionPreface, .emptyMV, input.len, none)) ∧
    (∀ (t : Int) (input : MemView) (e : Bool),
      HTTP2Rec.sinkParse ⟨false, t⟩ input e
        = (⟨false, t + input.len⟩, none, .emptyMV, t + input.len, none)) := by
  have h24 : HTTP2Rec.connectionPreface.length = 24 := by decide
  refine ⟨?_, ?_, ?_, ?_⟩
  · intro p hfo
    have hpref := ((firstOccur?_eq_some_iff data HTTP2Rec.connectionPreface p).mp hfo).1
    have hlenp : p + 24 ≤ data.length := by
      have hp2 : HTTP2Rec.connectionPreface <+: data.drop p :=
        List.isPrefixOf_iff_prefix.mp hpref
      have := hp2.length_le
      simp only [List.length_drop, h24] at this ⊢
      omega
    rw [HTTP2Rec.accepts]
    rw [if_neg (by
      simp only [MemView.new_len, h24]
      push_neg
      exact_mod_cast by omega)]
    have hidx : (MemView.new data).index 0 HTTP2Rec.connectionPreface = (p : Int) := by
      rw [MemView.index_new data 0 HTTP2Rec.connectionPreface le_rfl]
      rw [if_neg (by push_neg; exact_mod_cast by omega)]
      rw [if_neg (by simp [h24])]
      simp only [Int.toNat_zero, List.drop_zero]
      rw [hfo]
      simp
    rw [hidx]
    rw [if_pos (Int.ofNat_nonneg p)]
  · intro hlen hend
    subst hend
    rw [HTTP2Rec.accepts]
    rw [if_pos (by simp only [MemView.new_len, h24]; exact_mod_cast hlen)]
    rfl
  · intro input e
    rfl
  · intro t input e
    rfl

/-- Witness for C7 at concrete inputs: six bytes of garbage followed by the
preface is accepted at offset 6, and a 1-byte input buffers. -/
theorem http2_preface_recognizer_witness :
    HTTP2Rec.accepts
        (MemView.new (strBytes "abcdef" ++ HTTP2Rec.connectionPreface)) true
      = (.accept, 6) ∧
    HTTP2Rec.accepts (MemView.new (strBytes "P")) false = (.needMoreData, 0) := by
  constructor
  · exact (http2_preface_recognizer (strBytes "abcdef" ++ HTTP2Rec.connectionPreface)
      true).1 6 (by decide)
  · exact (http2_preface_recognizer (strBytes "P") false).2.1 (by decide) rfl

namespace Flow

/-- `selectLoop` returns the first accepting factory with its discard-front,
independently of the accumulator. -/
theorem selectLoop_accept (input : MemView) (isEnd : Bool) :
    ∀ (facts : List (MemView → Bool → AcceptDecision × Int)) (idx : Nat)
      (minNMD : Option Int) (i : Nat) (hi : i < facts.length),
      ((facts.get ⟨i, hi⟩) input isEnd).1 = .accept →
      (∀ j (hj : j < i), ((facts.get ⟨j, by omega⟩) input isEnd).1 ≠ .accept) →
      selectLoop input isEnd facts idx minNMD
        = (some (idx + i), .accept, ((facts.get ⟨i, hi⟩) input isEnd).2) := by
  intro facts
  induction facts with
  | nil => intro idx minNMD i hi; exact absurd hi (by simp)
  | cons f rest ih =>
    intro idx minNMD i hi hacc hmin
    cases i with
    | zero =>
      rw [selectLoop_cons]
      simp only [List.get] at hacc ⊢
      rw [hacc]
      simp
    | succ i' =>
      have hne : (f input isEnd).1 ≠ .accept := by
        have := hmin 0 (by omega)
        simpa using this
      rw [selectLoop_cons]
      rcases hr : (f input isEnd) with ⟨d, df⟩
      rw [hr] at hne
      simp only at hne
      have hidx : idx + 1 + i' = idx + (i' + 1) := by omega
      have hrec : ∀ (m : Option Int),
          selectLoop input isEnd rest (idx + 1) m
            = (some (idx + 1 + i'), .accept,
                ((rest.get ⟨i', by simp only [List.length_cons] at hi; omega⟩) input isEnd).2) := by
        intro m
        apply ih (idx + 1) m i' (by simp only [List.length_cons] at hi; omega)
        · simpa using hacc
        · intro j hj
          have := hmin (j + 1) (by omega)
          simpa using this
      cases d with
      | accept => exact absurd rfl hne
      | needMoreData =>
        simp only [hr]
        rw [hrec, hidx]
        rfl
      | reject =>
        simp only [hr]
        rw [hrec, hidx]
        rfl

/-- The discard-fronts reported with `NeedMoreData` by the factories. -/
def nmdFronts (input : MemView) (isEnd : Bool)
    (facts : List (MemView → Bool → AcceptDecision × Int)) : List Int :=
  ((facts.map (fun f => f input isEnd)).filter
    (fun d => d.1 = AcceptDecision.needMoreData)).map Prod.snd

/-- Folding `min` over a list with an optional seed (how the selector
accumulates the minimum need-more-data discard-front). -/
def mfold : Option Int → List Int → Option Int
  | acc, [] => acc
  | none, x :: xs => mfold (some x) xs
  | some m, x :: xs => mfold (some (min m x)) xs

/-- The list an optional accumulator contributes. -/
def optList : Option Int → List Int
  | none => []
  | some m => [m]

theorem mfold_none_iff (l : List Int) :
    ∀ acc, mfold acc l = none ↔ acc = none ∧ l = [] := by
  induction l with
  | nil => intro acc; cases acc <;> simp [mfold]
  | cons x xs ih =>
    intro acc
    cases acc with
    | none =>
      rw [mfold, ih]
      simp
    | some m =>
      rw [mfold, ih]
      simp

theorem mfold_spec (l : List Int) :
    ∀ acc m, mfold acc l = some m →
      m ∈ optList acc ++ l ∧ ∀ x ∈ optList acc ++ l, m ≤ x := by
  induction l with
  | nil =>
    intro acc m hm
    cases acc with
    | none => cases hm
    | some a =>
      simp only [mfold] at hm
      injection hm with hm
      subst hm
      simp [optList]
  | cons x xs ih =>
    intro acc m hm
    cases acc with
    | none =>
      rw [mfold] at hm
      obtain ⟨hmem, hle⟩ := ih (some x) m hm
      simp only [optList, List.cons_append, List.nil_append, List.mem_cons] at hmem hle ⊢
      refine ⟨?_, ?_⟩
      · simpa using hmem
      · intro y hy
        rcases hy with rfl | hy
        · exact hle y (by simp)
        · exact hle y (by simp [hy])
    | some a =>
      rw [mfold] at hm
      obtain ⟨hmem, hle⟩ := ih (some (min a x)) m hm
      simp only [optList, List.cons_append, List.nil_append, List.mem_cons] at hmem hle ⊢
      constructor
      · rcases hmem with hm0 | hm0
        · rcases min_cases a x with ⟨he, _⟩ | ⟨he, _⟩
          · left; rw [hm0, he]
          · right; left; rw [hm0, he]
        · right; right; exact hm0
      · intro y hy
        have hminle : m ≤ min a x := hle _ (Or.inl rfl)
        rcases hy with hy | hy | hy
        · rw [hy]
          exact le_trans hminle (min_le_left _ _)
        · rw [hy]
          exact le_trans hminle (min_le_right _ _)
        · exact hle y (Or.inr hy)

/-- When no factory accepts, `selectLoop` computes the `mfold` minimum of
the need-more-data discard-fronts. -/
theorem selectLoop_no_accept (input : MemView) (isEnd : Bool) :
    ∀ (facts : List (MemView → Bool → AcceptDecision × Int)) (idx : Nat)
      (minNMD : Option Int),
      (∀ f ∈ facts, (f input isEnd).1 ≠ .accept) →
      selectLoop input isEnd facts idx minNMD
        = match mfold minNMD (nmdFronts input isEnd facts) with
          | none => (none, .reject, input.len)
          | some m => (none, .needMoreData, m) := by
  intro facts
  induction facts with
  | nil =>
    intro idx minNMD _
    cases minNMD <;> rfl
  | cons f rest ih =>
    intro idx minNMD hna
    have hrest : ∀ g ∈ rest, (g input isEnd).1 ≠ .accept := by
      intro g hg; exact hna g (by simp [hg])
    rcases hr : (f input isEnd) with ⟨d, df⟩
    have hfne : d ≠ .accept := by
      have := hna f (by simp)
      rw [hr] at this
      simpa using this
    rw [selectLoop_cons]
    rw [hr]
    cases d with
    | accept => exact absurd rfl hfne
    | needMoreData =>
      simp only
      rw [ih (idx + 1) _ hrest]
      have hfr : nmdFronts input isEnd (f :: rest)
          = df :: nmdFronts input isEnd rest := by
        simp only [nmdFronts, List.map_cons, hr]
        rw [List.filter_cons_of_pos (by simp)]
        simp
      rw [hfr]
      cases minNMD with
      | none => rfl
      | some m => rfl
    | reject =>
      simp only
      rw [ih (idx + 1) _ hrest]
      have hfr : nmdFronts input isEnd (f :: rest)
          = nmdFronts input isEnd rest := by
        simp only [nmdFronts, List.map_cons, hr]
        rw [List.filter_cons_of_neg (by simp)]
      rw [hfr]

end Flow

/-- **C2.** The factory selector (modelled from the spec; the implementation
is not under src/): it returns the first factory's decision on the first
`Accept` with that factory's discard-front; otherwise, if at least one
factory returned `NeedMoreData`, it returns `NeedMoreData` with the minimum
discard-front over all factories that returned `NeedMoreData`; otherwise it
returns `Reject` with discard-front equal to the entire input length. -/
theorem selector_characterization
    (facts : List (MemView → Bool → AcceptDecision × Int))
    (input : MemView) (isEnd : Bool) :
    (∀ (i : Nat) (hi : i < facts.length),
      ((facts.get ⟨i, hi⟩) input isEnd).1 = .accept →
      (∀ j (hj : j < i), ((facts.get ⟨j, by omega⟩) input isEnd).1 ≠ .accept) →
      Flow.selectGo facts input isEnd
        = (some i, .accept, ((facts.get ⟨i, hi⟩) input isEnd).2)) ∧
    ((∀ f ∈ facts, (f input isEnd).1 ≠ .accept) →
      Flow.nmdFronts input isEnd facts ≠ [] →
      ∃ m, Flow.selectGo facts input isEnd = (none, .needMoreData, m) ∧
        m ∈ Flow.nmdFronts input isEnd facts ∧
        ∀ x ∈ Flow.nmdFronts input isEnd facts, m ≤ x) ∧
    ((∀ f ∈ facts, (f input isEnd).1 = .reject) →
      Flow.selectGo facts input isEnd = (none, .reject, input.len)) := by
  refine ⟨?_, ?_, ?_⟩
  · intro i hi hacc hmin
    have := Flow.selectLoop_accept input isEnd facts 0 none i hi hacc hmin
    simpa [Flow.selectGo] using this
  · intro hna hne
    rw [Flow.selectGo, Flow.selectLoop_no_accept input isEnd facts 0 none hna]
    cases hm : Flow.mfold none (Flow.nmdFronts input isEnd facts) with
    | none =>
      obtain ⟨_, hnil⟩ := (Flow.mfold_none_iff _ none).mp hm
      exact absurd hnil hne
    | some m =>
      obtain ⟨hmem, hle⟩ := Flow.mfold_spec _ none m hm
      simp only [Flow.optList, List.nil_append] at hmem hle
      exact ⟨m, rfl, hmem, hle⟩
  · intro hall
    rw [Flow.selectGo, Flow.selectLoop_no_accept input isEnd facts 0 none (by
      intro f hf
      rw [hall f hf]
      decide)]
    have hnil : Flow.nmdFronts input isEnd facts = [] := by
      simp only [Flow.nmdFronts, List.map_eq_nil_iff]
      rw [List.filter_eq_nil_iff]
      intro d hd
      simp only [List.mem_map] at hd
      obtain ⟨f, hf, rfl⟩ := hd
      rw [hall f hf]
      decide
    rw [hnil]
    rfl

/-- Witness for C2 at concrete factory lists (mirroring the repository's
`TestTCPParserFactorySelector` cases). -/
theorem selector_characterization_witness :
    Flow.selectGo
        [fun _ _ => (.reject, 20), fun _ _ => (.needMoreData, 10),
         fun _ _ => (.needMoreData, 1), fun _ _ => (.reject, 20)]
        (MemView.new (strBytes "hello I am test input")) true
      = (none, .needMoreData, 1) ∧
    Flow.selectGo
        [fun _ _ => (.accept, 6), fun _ _ => (.needMoreData, 1)]
        (MemView.new (strBytes "hello I am test input")) true
      = (some 0, .accept, 6) ∧
    Flow.selectGo
        [fun _ _ => (.reject, -1), fun _ _ => (.reject, -1)]
        (MemView.new (strBytes "hello I am test input")) true
      = (none, .reject, 21) := by
  refine ⟨?_, ?_, ?_⟩
  · obtain ⟨m, heq, hmem, hle⟩ := (selector_characterization
      [fun _ _ => (.reject, 20), fun _ _ => (.needMoreData, 10),
       fun _ _ => (.needMoreData, 1), fun _ _ => (.reject, 20)]
      (MemView.new (strBytes "hello I am test input")) true).2.1
      (by intro f hf; fin_cases hf <;> decide)
      (by decide)
    have hfr : Flow.nmdFronts (MemView.new (strBytes "hello I am test input")) true
        [fun _ _ => (.reject, 20), fun _ _ => (.needMoreData, 10),
         fun _ _ => (.needMoreData, 1), fun _ _ => (.reject, 20)] = [10, 1] := rfl
    rw [hfr] at hmem hle
    have h1 : m ≤ 1 := hle 1 (by simp)
    have h2 : m = 10 ∨ m = 1 := by simpa using hmem
    have hm1 : m = 1 := by omega
    rw [hm1] at heq
    exact heq
  · exact (selector_characterization _ _ _).1 0 (by decide) (by decide)
      (by intro j hj; omega)
  · exact (selector_characterization _ _ _).2.2 (by intro f hf; fin_cases hf <;> decide)

/-- The TLS Client Hello parser packaged as a flow parser (its state is the
accumulated input buffer). -/
def tlsParseOutFn : MemView → MemView → Bool → Flow.ParseOut MemView :=
  fun st input isEnd =>
    let out := TLSHello.parseGo st input isEnd
    ⟨out.1, out.2.1, out.2.2.1, out.2.2.2.1, out.2.2.2.2⟩

/-- A selector that rejects everything (never consulted when a parser is
active). -/
def rejectAllSelect : MemView → Bool → Flow.SelectOut MemView :=
  fun input _ => .reject input.len

/-- **C3 (amended).** For every flow with an active parser, whenever the call
to `parse` returns an error, the flow emits as "dropped bytes" exactly the
bytes of the **current delivery** handed to that parser (not the bytes from
earlier deliveries, which the parser holds internally) and resets the flow to
the no-parser state. -/
theorem flow_parse_error_resets_and_drops {σ : Type}
    (parseFn : σ → MemView → Bool → Flow.ParseOut σ)
    (selectFn : MemView → Bool → Flow.SelectOut σ)
    (fuel : Nat) (f : Flow.FlowState σ) (sgBytes : List Byte) (ignoreCount : Nat)
    (isEnd : Bool) (p : σ)
    (hp : f.currentParser = some p)
    (herr : (parseFn p (MemView.new (sgBytes.drop ignoreCount)) isEnd).err ≠ none) :
    Flow.reassembledWithIgnore parseFn selectFn (fuel + 1) f sgBytes ignoreCount isEnd
      = (⟨none, f.unusedAcceptBuf⟩,
          Flow.handleUnparseable (sgBytes.drop ignoreCount)) := by
  rw [Flow.reassembledWithIgnore]
  simp only [hp]
  rw [Flow.flowDispatch]
  cases he : (parseFn p (MemView.new (sgBytes.drop ignoreCount)) isEnd).err with
  | none => exact absurd he herr
  | some e =>
    simp [he, MemView.new_bytes]

/-- Witness for C3 (amended) at a concrete flow: the TLS parser, having
previously buffered `16`, errors on the delivery `03 01 00 02 AA BB` and the
flow emits those six bytes as dropped and resets. -/
theorem flow_parse_error_resets_and_drops_witness :
    Flow.reassembledWithIgnore tlsParseOutFn rejectAllSelect 7
        ⟨some (MemView.emptyMV.append (MemView.new [0x16])), MemView.emptyMV⟩
        [0x03, 0x01, 0x00, 0x02, 0xAA, 0xBB] 0 false
      = (⟨none, MemView.emptyMV⟩,
          Flow.handleUnparseable [0x03, 0x01, 0x00, 0x02, 0xAA, 0xBB]) :=
  flow_parse_error_resets_and_drops tlsParseOutFn rejectAllSelect 6
    ⟨some (MemView.emptyMV.append (MemView.new [0x16])), MemView.emptyMV⟩
    [0x03, 0x01, 0x00, 0x02, 0xAA, 0xBB] 0 false
    (MemView.emptyMV.append (MemView.new [0x16])) rfl (by decide)

/-- **C3 counterexample.** A TLS Client Hello parser is fed two deliveries:
first the single byte `16` (buffered, no result), then `03 01 00 02 AA BB`,
which completes a malformed record and makes `parse` fail.  The flow then
emits as dropped bytes only the 6 bytes of the second delivery — not the 7
bytes fed to the parser across all deliveries, as the claim states. -/
theorem flow_error_drops_only_current_delivery :
    Flow.reassembled tlsParseOutFn rejectAllSelect
        ⟨some MemView.emptyMV, MemView.emptyMV⟩ [0x16] false
      = (⟨some (MemView.emptyMV.append (MemView.new [0x16])), MemView.emptyMV⟩, []) ∧
    Flow.reassembled tlsParseOutFn rejectAllSelect
        ⟨some (MemView.emptyMV.append (MemView.new [0x16])), MemView.emptyMV⟩
        [0x03, 0x01, 0x00, 0x02, 0xAA, 0xBB] false
      = (⟨none, MemView.emptyMV⟩,
          [(PNC.droppedBytes 6, [0x03, 0x01, 0x00, 0x02, 0xAA, 0xBB])]) ∧
    ((0x16 : Byte) :: [0x03, 0x01, 0x00, 0x02, 0xAA, 0xBB]
      ≠ [0x03, 0x01, 0x00, 0x02, 0xAA, 0xBB]) := by
  refine ⟨rfl, rfl, by decide⟩

namespace MVReader

/-- Well-formedness of a reader cursor over its view: slab index in range,
in-slab offset within the slab (zero at the end position), and the global
offset equal to the sum of preceding slab lengths plus the in-slab offset
(the documented reader invariant). -/
def ReaderWF (mv : MemView) (r : MVReader) : Prop :=
  r.rIndex ≤ mv.buf.length ∧
  (r.rIndex < mv.buf.length → r.rOffset ≤ (mv.buf.getD r.rIndex []).length) ∧
  (r.rIndex = mv.buf.length → r.rOffset = 0) ∧
  r.gOffset = ((mv.buf.take r.rIndex).flatten.length : Int) + r.rOffset

theorem flatten_take_succ (l : List (List Byte)) (k : Nat) (hk : k < l.length) :
    (l.take (k + 1)).flatten.length = (l.take k).flatten.length + (l.getD k []).length := by
  have h1 : l.take (k + 1) = l.take k ++ [l[k]] := by
    rw [List.take_succ, List.getElem?_eq_getElem hk]
    rfl
  have h2 : l.getD k [] = l[k] := List.getD_eq_getElem l [] hk
  rw [h1, List.flatten_append, h2]
  simp

theorem flatten_take_le (l : List (List Byte)) (k : Nat) :
    (l.take k).flatten.length ≤ l.flatten.length := by
  conv_rhs => rw [← List.take_append_drop k l]
  rw [List.flatten_append, List.length_append]
  omega

theorem readerWF_gOffset_le (mv : MemView) (r : MVReader) (hwf : ReaderWF mv r) :
    r.gOffset ≤ (mv.bytes.length : Int) := by
  obtain ⟨h1, h2, h3, h4⟩ := hwf
  rcases Nat.lt_or_ge r.rIndex mv.buf.length with hlt | hge
  · have hb := flatten_take_succ mv.buf r.rIndex hlt
    have hle2 := flatten_take_le mv.buf (r.rIndex + 1)
    have hoff := h2 hlt
    rw [h4, MemView.bytes]
    omega
  · have hidx : r.rIndex = mv.buf.length := le_antisymm h1 hge
    have h0 := h3 hidx
    rw [h4, hidx, h0, List.take_length, MemView.bytes]
    simp

theorem readerWF_gOffset_nonneg (mv : MemView) (r : MVReader) (hwf : ReaderWF mv r) :
    0 ≤ r.gOffset := by
  rw [hwf.2.2.2]
  positivity

/-- Forward saturation: when the target position lies beyond the view, the
seek loop stops at the end of the view and reports its length. -/
theorem seekLoop_forward (mv : MemView) :
    ∀ (fuel : Nat) (r : MVReader) (o : Int),
      ReaderWF mv r →
      mv.buf.length - r.rIndex < fuel →
      (mv.bytes.length : Int) < r.gOffset + o →
      seekLoop mv fuel r o
        = .ok ((mv.bytes.length : Int), ⟨mv.buf.length, 0, (mv.bytes.length : Int)⟩) := by
  intro fuel
  induction fuel with
  | zero => intro r o _ hf _; omega
  | succ fuel ih =>
    intro r o hwf hf htgt
    have hgle := readerWF_gOffset_le mv r hwf
    obtain ⟨h1, h2, h3, h4⟩ := hwf
    have ho : ¬ o = 0 := by omega
    rw [seekLoop]
    rw [if_neg ho]
    have hwb : ¬ (r.rIndex < mv.buf.length ∧ 0 ≤ (r.rOffset : Int) + o ∧
        (r.rOffset : Int) + o < ((mv.buf.getD r.rIndex []).length : Int)) := by
      rintro ⟨hlt, _, hro⟩
      have hb := flatten_take_succ mv.buf r.rIndex hlt
      have hle2 := flatten_take_le mv.buf (r.rIndex + 1)
      rw [MemView.bytes] at htgt
      omega
    rw [if_neg hwb]
    rw [if_neg (by omega : ¬ o < 0)]
    by_cases hlt : r.rIndex < mv.buf.length
    · rw [if_pos hlt]
      have hb := flatten_take_succ mv.buf r.rIndex hlt
      have hwf2 : ReaderWF mv
          ⟨r.rIndex + 1, 0,
            r.gOffset + (((mv.buf.getD r.rIndex []).length : Int) - r.rOffset)⟩ := by
        refine ⟨by show r.rIndex + 1 ≤ mv.buf.length; omega,
          fun _ => Nat.zero_le _, fun _ => rfl, ?_⟩
        show r.gOffset + (((mv.buf.getD r.rIndex []).length : Int) - r.rOffset)
          = ((mv.buf.take (r.rIndex + 1)).flatten.length : Int) + ((0 : Nat) : Int)
        rw [h4]
        push_cast [hb]
        ring
      have hf2 : mv.buf.length -
          (⟨r.rIndex + 1, 0,
            r.gOffset + (((mv.buf.getD r.rIndex []).length : Int) - r.rOffset)⟩
            : MVReader).rIndex < fuel := by
        show mv.buf.length - (r.rIndex + 1) < fuel
        omega
      have ht2 : (mv.bytes.length : Int) <
          (⟨r.rIndex + 1, 0,
            r.gOffset + (((mv.buf.getD r.rIndex []).length : Int) - r.rOffset)⟩
            : MVReader).gOffset
            + (o - (((mv.buf.getD r.rIndex []).length : Int) - r.rOffset)) := by
        show (mv.bytes.length : Int)
          < r.gOffset + (((mv.buf.getD r.rIndex []).length : Int) - r.rOffset)
            + (o - (((mv.buf.getD r.rIndex []).length : Int) - r.rOffset))
        omega
      exact ih _ _ hwf2 hf2 ht2
    · rw [if_neg hlt]
      have hidx : r.rIndex = mv.buf.length := le_antisymm h1 (le_of_not_lt hlt)
      have h0 := h3 hidx
      have hg : r.gOffset = (mv.bytes.length : Int) := by
        rw [h4, hidx, h0, List.take_length, MemView.bytes]
        simp
      rcases r with ⟨ri, ro, go⟩
      simp only at hidx h0 hg
      subst hidx h0 hg
      rfl

/-- Backward failure: when the target position is negative, the seek loop
walks off the front of the view and errors. -/
theorem seekLoop_backward (mv : MemView) :
    ∀ (fuel : Nat) (r : MVReader) (o : Int),
      ReaderWF mv r →
      r.rIndex < fuel →
      r.gOffset + o < 0 →
      seekLoop mv fuel r o = .error .other := by
  intro fuel
  induction fuel with
  | zero => intro r o _ hf _; omega
  | succ fuel ih =>
    intro r o hwf hf htgt
    have hgnn := readerWF_gOffset_nonneg mv r hwf
    obtain ⟨h1, h2, h3, h4⟩ := hwf
    have hpre : (0 : Int) ≤ ((mv.buf.take r.rIndex).flatten.length : Int) :=
      Int.ofNat_nonneg _
    have ho : ¬ o = 0 := by omega
    rw [seekLoop]
    rw [if_neg ho]
    have hwb : ¬ (r.rIndex < mv.buf.length ∧ 0 ≤ (r.rOffset : Int) + o ∧
        (r.rOffset : Int) + o < ((mv.buf.getD r.rIndex []).length : Int)) := by
      rintro ⟨_, hge0, _⟩
      omega
    rw [if_neg hwb]
    rw [if_pos (by omega : o < 0)]
    by_cases hz : r.rIndex = 0
    · rw [if_pos hz]
    · rw [if_neg hz]
      have hlt1 : 1 ≤ r.rIndex := Nat.one_le_iff_ne_zero.mpr hz
      have hb := flatten_take_succ mv.buf (r.rIndex - 1) (by omega)
      have hidx : r.rIndex - 1 + 1 = r.rIndex := by omega
      rw [hidx] at hb
      have hwf2 : ReaderWF mv
          ⟨r.rIndex - 1, (mv.buf.getD (r.rIndex - 1) []).length,
            r.gOffset - r.rOffset⟩ := by
        refine ⟨by show r.rIndex - 1 ≤ mv.buf.length; omega,
          fun _ => le_refl _, fun hcontr => ?_, ?_⟩
        · exfalso
          have hcontr2 : r.rIndex - 1 = mv.buf.length := hcontr
          omega
        · show r.gOffset - r.rOffset
            = ((mv.buf.take (r.rIndex - 1)).flatten.length : Int)
              + ((mv.buf.getD (r.rIndex - 1) []).length : Int)
          rw [h4]
          omega
      have hf2 : (⟨r.rIndex - 1, (mv.buf.getD (r.rIndex - 1) []).length,
          r.gOffset - r.rOffset⟩ : MVReader).rIndex < fuel := by
        show r.rIndex - 1 < fuel
        omega
      have ht2 : (⟨r.rIndex - 1, (mv.buf.getD (r.rIndex - 1) []).length,
          r.gOffset - r.rOffset⟩ : MVReader).gOffset + (o + r.rOffset) < 0 := by
        show r.gOffset - r.rOffset + (o + r.rOffset) < 0
        omega
      exact ih _ _ hwf2 hf2 ht2

instance readerWFDecidable (mv : MemView) (r : MVReader) : Decidable (ReaderWF mv r) := by
  unfold ReaderWF
  infer_instance

end MVReader

/-- **C8.** For every well-formed reader cursor and every seek request: a
seek whose resolved target is past the end succeeds, returns the view length
and saturates the cursor at the end of the view; a seek whose resolved
target is before the start fails; and on any failure the reader's cursor
(slab index, slab offset, global offset) equals its value on entry. -/
theorem seek_characterization (mv : MemView) (r : MVReader) (offset : Int)
    (whence : MVReader.Whence) (hmv : mv.WF) (hr : MVReader.ReaderWF mv r) :
    (mv.len <
        (match whence with
         | .seekStart => offset
         | .seekEnd => mv.length + offset
         | .seekCurrent => r.gOffset + offset) →
      MVReader.seekGo mv r offset whence
        = (.ok mv.len, ⟨mv.buf.length, 0, mv.len⟩)) ∧
    ((match whence with
      | .seekStart => offset
      | .seekEnd => mv.length + offset
      | .seekCurrent => r.gOffset + offset) < 0 →
      MVReader.seekGo mv r offset whence = (.error .other, r)) ∧
    (∀ (e : IOErr) (r' : MVReader),
      MVReader.seekGo mv r offset whence = (.error e, r') → r' = r) := by
  have hlenb : mv.len = (mv.bytes.length : Int) := hmv
  have hwf0 : MVReader.ReaderWF mv ⟨0, 0, 0⟩ :=
    ⟨Nat.zero_le _, fun _ => Nat.zero_le _, fun _ => rfl, by simp⟩
  have hwfEnd : MVReader.ReaderWF mv ⟨mv.buf.length, 0, mv.length⟩ := by
    refine ⟨le_refl _, fun h => absurd h (lt_irrefl _), fun _ => rfl, ?_⟩
    show mv.length = ((mv.buf.take mv.buf.length).flatten.length : Int) + ((0 : Nat) : Int)
    rw [List.take_length]
    rw [hmv]
    simp [MemView.bytes]
  have hgS : ∀ (off : Int), MVReader.seekGo mv r off .seekStart
      = (match MVReader.seekLoop mv (mv.buf.length + 2) ⟨0, 0, 0⟩ off with
         | .ok (abs, r2) => ((Except.ok abs : Except IOErr Int), r2)
         | .error e3 => (Except.error e3, r)) := fun _ => rfl
  have hgE : ∀ (off : Int), MVReader.seekGo mv r off .seekEnd
      = (match MVReader.seekLoop mv (mv.buf.length + mv.buf.length + 2)
            ⟨mv.buf.length, 0, mv.length⟩ off with
         | .ok (abs, r2) => ((Except.ok abs : Except IOErr Int), r2)
         | .error e3 => (Except.error e3, r)) := fun _ => rfl
  have hgC : ∀ (off : Int), MVReader.seekGo mv r off .seekCurrent
      = (match MVReader.seekLoop mv (mv.buf.length + r.rIndex + 2) r off with
         | .ok (abs, r2) => ((Except.ok abs : Except IOErr Int), r2)
         | .error e3 => (Except.error e3, r)) := fun _ => rfl
  refine ⟨?_, ?_, ?_⟩
  · intro htgt
    cases whence with
    | seekStart =>
      rw [hgS, MVReader.seekLoop_forward mv (mv.buf.length + 2) ⟨0, 0, 0⟩ offset hwf0
        (by omega) (by rw [MemView.len, hmv] at htgt; simpa using htgt)]
      rw [show mv.len = (mv.bytes.length : Int) from hlenb]
    | seekEnd =>
      rw [hgE, MVReader.seekLoop_forward mv (mv.buf.length + mv.buf.length + 2)
        ⟨mv.buf.length, 0, mv.length⟩ offset hwfEnd (by omega)
        (by show (mv.bytes.length : Int) < mv.length + offset
            rw [MemView.len, hmv] at htgt
            rw [hmv]
            exact htgt)]
      rw [show mv.len = (mv.bytes.length : Int) from hlenb]
    | seekCurrent =>
      rw [hgC, MVReader.seekLoop_forward mv (mv.buf.length + r.rIndex + 2) r offset hr
        (by omega) (by rw [MemView.len, hmv] at htgt; simpa using htgt)]
      rw [show mv.len = (mv.bytes.length : Int) from hlenb]
  · intro htgt
    cases whence with
    | seekStart =>
      rw [hgS, MVReader.seekLoop_backward mv (mv.buf.length + 2) ⟨0, 0, 0⟩ offset hwf0
        (by show 0 < mv.buf.length + 2; omega) (by simpa using htgt)]
    | seekEnd =>
      rw [hgE, MVReader.seekLoop_backward mv (mv.buf.length + mv.buf.length + 2)
        ⟨mv.buf.length, 0, mv.length⟩ offset hwfEnd
        (by show mv.buf.length < mv.buf.length + mv.buf.length + 2; omega)
        (by simpa using htgt)]
    | seekCurrent =>
      rw [hgC, MVReader.seekLoop_backward mv (mv.buf.length + r.rIndex + 2) r offset hr
        (by omega) (by simpa using htgt)]
  · intro e r' heq
    cases whence with
    | seekStart =>
      rw [hgS] at heq
      cases hcore : MVReader.seekLoop mv (mv.buf.length + 2) ⟨0, 0, 0⟩ offset with
      | ok out =>
        rcases out with ⟨abs, r2⟩
        rw [hcore] at heq
        simp at heq
      | error e2 =>
        rw [hcore] at heq
        simp only [Prod.mk.injEq] at heq
        exact heq.2.symm
    | seekEnd =>
      rw [hgE] at heq
      cases hcore : MVReader.seekLoop mv (mv.buf.length + mv.buf.length + 2)
          ⟨mv.buf.length, 0, mv.length⟩ offset with
      | ok out =>
        rcases out with ⟨abs, r2⟩
        rw [hcore] at heq
        simp at heq
      | error e2 =>
        rw [hcore] at heq
        simp only [Prod.mk.injEq] at heq
        exact heq.2.symm
    | seekCurrent =>
      rw [hgC] at heq
      cases hcore : MVReader.seekLoop mv (mv.buf.length + r.rIndex + 2) r offset with
      | ok out =>
        rcases out with ⟨abs, r2⟩
        rw [hcore] at heq
        simp at heq
      | error e2 =>
        rw [hcore] at heq
        simp only [Prod.mk.injEq] at heq
        exact heq.2.symm

/-- Witness for C8 at a concrete reader: on the two-slab view
`[[1,2],[3]]` with the cursor at global offset 2 (slab index 1, in-slab offset 0), seeking to 10 from the
start saturates at 3 with the cursor at the end, and seeking to -1 fails
leaving the cursor unchanged. -/
theorem seek_characterization_witness :
    MVReader.seekGo (MemView.append (MemView.new [1, 2]) (MemView.new [3]))
        ⟨1, 0, 2⟩ 10 .seekStart
      = (.ok 3, ⟨2, 0, 3⟩) ∧
    MVReader.seekGo (MemView.append (MemView.new [1, 2]) (MemView.new [3]))
        ⟨1, 0, 2⟩ (-1) .seekStart
      = (.error .other, ⟨1, 0, 2⟩) := by
  constructor
  · exact (seek_characterization (MemView.append (MemView.new [1, 2]) (MemView.new [3]))
      ⟨1, 0, 2⟩ 10 .seekStart (by decide) (by decide)).1 (by decide)
  · exact (seek_characterization (MemView.append (MemView.new [1, 2]) (MemView.new [3]))
      ⟨1, 0, 2⟩ (-1) .seekStart (by decide) (by decide)).2.1 (by decide)


/-! ## C5: the HTTP/1.x request recognizer -/

theorem isPrefixOf_iff_ex : ∀ (l1 l2 : List Byte),
    l1.isPrefixOf l2 = true ↔ ∃ u, l2 = l1 ++ u
  | [], l2 => by
    constructor
    · intro _
      exact ⟨l2, rfl⟩
    · intro _
      cases l2 with
      | nil => rfl
      | cons b bs => rfl
  | a :: as, [] => by
    constructor
    · intro h
      exact Bool.noConfusion h
    · rintro ⟨u, hu⟩
      exact List.noConfusion hu
  | a :: as, b :: bs => by
    rw [show (a :: as).isPrefixOf (b :: bs) = (a == b && as.isPrefixOf bs) from rfl]
    rw [Bool.and_eq_true, beq_iff_eq]
    rw [isPrefixOf_iff_ex as bs]
    constructor
    · rintro ⟨hab, u, hu⟩
      refine ⟨u, ?_⟩
      rw [hab, hu]
      rfl
    · rintro ⟨u, hu⟩
      injection hu with h1 h2
      exact ⟨h1.symm, u, h2⟩

theorem isPrefixOf_length_le {l1 l2 : List Byte} (h : l1.isPrefixOf l2 = true) :
    l1.length ≤ l2.length := by
  obtain ⟨u, rfl⟩ := (isPrefixOf_iff_ex l1 l2).mp h
  simp

/-- Unfolding of `requestLoop` on a cons cell, with the `let` inlined. -/
theorem requestLoop_cons (input : MemView) (m : List Byte) (rest : List (List Byte)) :
    HTTPRec.requestLoop input (m :: rest)
      = (if 0 ≤ input.index 0 m then
          match HTTPRec.hasValidHTTPRequestLine
              (input.subView (input.index 0 m + m.length) input.len) with
          | .accept => some (.accept, input.index 0 m)
          | .needMoreData => some (.needMoreData, input.index 0 m)
          | .reject => HTTPRec.requestLoop input rest
        else HTTPRec.requestLoop input rest) := rfl

/-- If the method loop reports `Accept`, the start is the `Index` of one of
the listed methods, and the request line after that occurrence is valid. -/
theorem requestLoop_accept_sound (input : MemView) :
    ∀ (ms : List (List Byte)) (s : Int),
      HTTPRec.requestLoop input ms = some (.accept, s) →
      ∃ m ∈ ms, 0 ≤ s ∧ s = input.index 0 m ∧
        HTTPRec.hasValidHTTPRequestLine
          (input.subView (s + m.length) input.len) = .accept := by
  intro ms
  induction ms with
  | nil =>
    intro s h
    exact Option.noConfusion h
  | cons m rest ih =>
    intro s h
    rw [requestLoop_cons] at h
    by_cases hge : 0 ≤ input.index 0 m
    · rw [if_pos hge] at h
      cases hv : HTTPRec.hasValidHTTPRequestLine
          (input.subView (input.index 0 m + m.length) input.len) with
      | accept =>
        rw [hv] at h
        have hs : input.index 0 m = s := by
          injection h with h1
          exact congrArg Prod.snd h1
        refine ⟨m, List.mem_cons_self m rest, hs ▸ hge, hs.symm, ?_⟩
        rw [← hs]
        exact hv
      | needMoreData =>
        rw [hv] at h
        simp at h
      | reject =>
        rw [hv] at h
        obtain ⟨m2, hmem, h1, h2, h3⟩ := ih s h
        exact ⟨m2, List.mem_cons_of_mem m hmem, h1, h2, h3⟩
    · rw [if_neg hge] at h
      obtain ⟨m2, hmem, h1, h2, h3⟩ := ih s h
      exact ⟨m2, List.mem_cons_of_mem m hmem, h1, h2, h3⟩

/-- Unfolding of `hasValidHTTPRequestLine`, with the `let`s inlined. -/
theorem hasValid_unfold (input : MemView) :
    HTTPRec.hasValidHTTPRequestLine input =
      (if input.len = 0 then .needMoreData
       else if input.getByte 0 ≠ 32 then .reject
       else if input.index 1 (strBytes " ") < 0 then
         (if HTTPRec.maxHTTPRequestURILength < input.len - 1 then .reject
          else .needMoreData)
       else if input.index 1 (strBytes " ") = 1 then .reject
       else if (input.subView (input.index 1 (strBytes " ") + 1) input.len).len < 10 then
         .needMoreData
       else if (input.subView (input.index 1 (strBytes " ") + 1) input.len).index 0
             (strBytes "HTTP/1.1\r\n") = 0 ∨
           (input.subView (input.index 1 (strBytes " ") + 1) input.len).index 0
             (strBytes "HTTP/1.0\r\n") = 0 then .accept
       else .reject) := rfl

/-- Structure forced by a `hasValidHTTPRequestLine` accept on a single-slab
view: one SP, then a non-empty SP-free target of unconstrained length, one
SP, then literally one of the two version strings with CRLF (bytes after
the CRLF are unconstrained). -/
theorem hasValid_accept_sound (after : List Byte)
    (h : HTTPRec.hasValidHTTPRequestLine (MemView.new after) = .accept) :
    ∃ uri rest : List Byte,
      after = 32 :: (uri ++ 32 :: rest) ∧ uri ≠ [] ∧ 32 ∉ uri ∧
      (List.isPrefixOf (strBytes "HTTP/1.1\r\n") rest = true ∨
       List.isPrefixOf (strBytes "HTTP/1.0\r\n") rest = true) := by
  rw [hasValid_unfold] at h
  by_cases h0 : (MemView.new after).len = 0
  · rw [if_pos h0] at h
    exact absurd h (by decide)
  rw [if_neg h0] at h
  have hne : after ≠ [] := by
    intro he
    subst he
    exact h0 rfl
  obtain ⟨a, t, rfl⟩ : ∃ a t, after = a :: t := by
    cases after with
    | nil => exact absurd rfl hne
    | cons a t => exact ⟨a, t, rfl⟩
  by_cases hb0 : (MemView.new (a :: t)).getByte 0 ≠ 32
  · rw [if_pos hb0] at h
    exact absurd h (by decide)
  rw [if_neg hb0] at h
  have ha : a = 32 := by
    have hg := MemView.getByte_eq (MemView.new (a :: t)) 0 (le_refl 0)
    rw [MemView.new_bytes] at hg
    rw [hg] at hb0
    simpa using hb0
  subst ha
  have hidx := MemView.index_new ((32 : Byte) :: t) 1 (strBytes " ") (by omega)
  have hd1 : ((32 : Byte) :: t).drop ((1 : Int)).toNat = t := rfl
  rw [hd1] at hidx
  cases hfo : firstOccur? t (strBytes " ") with
  | none =>
    have hidx2 : (MemView.new ((32 : Byte) :: t)).index 1 (strBytes " ") = -1 := by
      rw [hidx]
      by_cases hl : ((((32 : Byte) :: t).length : Int) ≤ 1)
      · rw [if_pos hl]
      · rw [if_neg hl, if_neg (by decide), hfo]
    rw [hidx2] at h
    rw [if_pos (by decide)] at h
    by_cases hcap : HTTPRec.maxHTTPRequestURILength < (MemView.new ((32 : Byte) :: t)).len - 1
    · rw [if_pos hcap] at h
      exact absurd h (by decide)
    · rw [if_neg hcap] at h
      exact absurd h (by decide)
  | some p =>
    obtain ⟨hpre, hmin⟩ := (firstOccur?_eq_some_iff t (strBytes " ") p).mp hfo
    have hdne : t.drop p ≠ [] := by
      intro hdrop
      rw [hdrop] at hpre
      exact absurd hpre (by decide)
    have hplt : p < t.length := by
      by_contra hgep
      exact hdne (List.drop_eq_nil_of_le (by omega))
    have hidx2 : (MemView.new ((32 : Byte) :: t)).index 1 (strBytes " ") = 1 + p := by
      rw [hidx]
      rw [if_neg (by simp only [List.length_cons]; push_cast; omega), if_neg (by decide), hfo]
    rw [hidx2] at h
    rw [if_neg (by omega)] at h
    by_cases hp0 : p = 0
    · subst hp0
      rw [if_pos (by norm_num)] at h
      exact absurd h (by decide)
    rw [if_neg (by omega)] at h
    obtain ⟨u, hu⟩ := (isPrefixOf_iff_ex (strBytes " ") (t.drop p)).mp hpre
    have hdropp : t.drop p = 32 :: t.drop (p + 1) := by
      have h1 : t.drop (p + 1) = (t.drop p).drop 1 := by
        rw [List.drop_drop]
      rw [h1, hu]
      rfl
    have hnosp : (32 : Byte) ∉ t.take p := by
      intro hmem
      obtain ⟨q, hq, hEq⟩ := List.mem_iff_getElem.mp hmem
      have hqp : q < p := by
        rw [List.length_take] at hq
        omega
      have hqt : q < t.length := by omega
      have hEq2 : t[q] = 32 := by
        rw [← hEq]
        exact (List.getElem_take ..).symm
      have hdq : t.drop q = 32 :: t.drop (q + 1) := by
        rw [List.drop_eq_getElem_cons hqt, hEq2]
      exact hmin q hqp
        ((isPrefixOf_iff_ex (strBytes " ") (t.drop q)).mpr ⟨t.drop (q + 1), hdq⟩)
    have hlen' : (MemView.new ((32 : Byte) :: t)).len = ((((32 : Byte) :: t)).length : Int) := rfl
    by_cases hrlen : (MemView.new ((32 : Byte) :: t)).len ≤ 1 + (p : Int) + 1
    · have hsv : (MemView.new ((32 : Byte) :: t)).subView (1 + (p : Int) + 1)
          (MemView.new ((32 : Byte) :: t)).len = ⟨[], 0⟩ := by
        rw [MemView.subView, if_pos hrlen]
      rw [hsv] at h
      rw [if_pos (by decide)] at h
      exact absurd h (by decide)
    · have hafter : (MemView.new ((32 : Byte) :: t)).subView (1 + (p : Int) + 1)
          (MemView.new ((32 : Byte) :: t)).len = MemView.new (t.drop (p + 1)) := by
        rw [MemView.subView_new_eq ((32 : Byte) :: t) (1 + (p : Int) + 1)
          (MemView.new ((32 : Byte) :: t)).len (by omega) (lt_of_not_le hrlen)
          (le_of_eq hlen')]
        have h1 : ((1 : Int) + p + 1).toNat = p + 2 := by omega
        have h2 : ((MemView.new ((32 : Byte) :: t)).len - (1 + (p : Int) + 1)).toNat
            = (t.drop (p + 1)).length := by
          rw [hlen']
          simp only [List.length_cons, List.length_drop]
          omega
        rw [h1, h2]
        have h3 : ((32 : Byte) :: t).drop (p + 2) = t.drop (p + 1) := by
          rw [show p + 2 = (p + 1) + 1 from rfl, List.drop_succ_cons]
        rw [h3, List.take_length]
        show (⟨[t.drop (p + 1)],
            (MemView.new ((32 : Byte) :: t)).len - (1 + (p : Int) + 1)⟩ : MemView)
          = ⟨[t.drop (p + 1)], (((t.drop (p + 1)).length : Int))⟩
        congr 1
        rw [hlen']
        simp only [List.length_cons, List.length_drop]
        push_cast
        omega
      rw [hafter] at h
      by_cases h10 : (MemView.new (t.drop (p + 1))).len < 10
      · rw [if_pos h10] at h
        exact absurd h (by decide)
      rw [if_neg h10] at h
      have hconv : ∀ v : List Byte, ¬ v.length = 0 →
          (MemView.new (t.drop (p + 1))).index 0 v = 0 →
          List.isPrefixOf v (t.drop (p + 1)) = true := by
        intro v hv0 hidxv
        have hiv := MemView.index_new (t.drop (p + 1)) 0 v (le_refl 0)
        rw [hidxv] at hiv
        by_cases hr0 : (((t.drop (p + 1)).length : Int) ≤ 0)
        · rw [if_pos hr0] at hiv
          exact absurd hiv (by decide)
        · rw [if_neg hr0, if_neg hv0] at hiv
          have hdz : (t.drop (p + 1)).drop ((0 : Int)).toNat = t.drop (p + 1) := rfl
          rw [hdz] at hiv
          cases hfo2 : firstOccur? (t.drop (p + 1)) v with
          | some q =>
            rw [hfo2] at hiv
            change (0 : Int) = 0 + (q : Int) at hiv
            have hq0 : q = 0 := by omega
            subst hq0
            have hx := ((firstOccur?_eq_some_iff (t.drop (p + 1)) v 0).mp hfo2).1
            simpa using hx
          | none =>
            rw [hfo2] at hiv
            exact absurd hiv (by decide)
      by_cases hdisj : ((MemView.new (t.drop (p + 1))).index 0 (strBytes "HTTP/1.1\r\n") = 0 ∨
          (MemView.new (t.drop (p + 1))).index 0 (strBytes "HTTP/1.0\r\n") = 0)
      · refine ⟨t.take p, t.drop (p + 1), ?_, ?_, hnosp, ?_⟩
        · have hsplit : t = t.take p ++ 32 :: t.drop (p + 1) := by
            conv_lhs => rw [← List.take_append_drop p t]
            rw [hdropp]
          rw [← hsplit]
        · intro he
          have hlen0 : (t.take p).length = 0 := by
            rw [he]
            rfl
          rw [List.length_take] at hlen0
          omega
        · rcases hdisj with h1 | h2
          · exact Or.inl (hconv _ (by decide) h1)
          · exact Or.inr (hconv _ (by decide) h2)
      · rw [if_neg hdisj] at h
        exact absurd h (by decide)

/-- Unfolding of `requestAcceptsCore`. -/
theorem requestAcceptsCore_unfold (input : MemView) :
    HTTPRec.requestAcceptsCore input
      = (if input.len < HTTPRec.minSupportedHTTPMethodLength then (.needMoreData, 0)
         else
           match HTTPRec.requestLoop input HTTPRec.supportedHTTPMethods with
           | some r => r
           | none =>
             if input.len < HTTPRec.maxSupportedHTTPMethodLength then (.needMoreData, 0)
             else (.reject, input.len)) := rfl

/-- Unfolding of `requestAccepts`. -/
theorem requestAccepts_unfold (input : MemView) (isEnd : Bool) :
    HTTPRec.requestAccepts input isEnd
      = (if (HTTPRec.requestAcceptsCore input).1 = .needMoreData ∧ isEnd = true
         then (.reject, input.len) else HTTPRec.requestAcceptsCore input) := rfl

/-- A space cannot be found while the scan is still inside a space-free
front segment. -/
theorem no_space_drop (l1 l2 : List Byte) (q : Nat) (hq : q < l1.length)
    (h32 : (32 : Byte) ∉ l1) :
    ¬ (strBytes " ").isPrefixOf ((l1 ++ l2).drop q) = true := by
  intro hpre
  have hd : (l1 ++ l2).drop q = l1.drop q ++ l2 := by
    rw [List.drop_append_eq_append_drop, show q - l1.length = 0 from by omega,
      List.drop_zero]
  have hcons : l1.drop q = l1[q] :: l1.drop (q + 1) := List.drop_eq_getElem_cons hq
  rw [hd, hcons] at hpre
  have h1 : ((32 : Byte) == l1[q] && List.isPrefixOf ([] : List Byte)
      (l1.drop (q + 1) ++ l2)) = true := hpre
  rw [Bool.and_eq_true] at h1
  have h2 : (32 : Byte) = l1[q] := beq_iff_eq.mp h1.1
  exact h32 (by rw [h2]; exact List.getElem_mem hq)

set_option maxRecDepth 8192 in
/-- The recognizer accepts the request line whose target is `/` followed by
4000 bytes of `a` — a 4001-byte target — refuting the claimed 4000-byte cap
on accepted targets. -/
theorem long_request_accepted :
    HTTPRec.requestAccepts (MemView.new (strBytes "GET /" ++ List.replicate 4000 97 ++ strBytes " HTTP/1.1\r\n")) false = (.accept, 0) := by
  have hg3 : (strBytes "GET").length = 3 := by decide
  have hs10 : (strBytes "HTTP/1.1\r\n").length = 10 := by decide
  have hsplit : (strBytes "GET /" ++ List.replicate 4000 97 ++ strBytes " HTTP/1.1\r\n") = strBytes "GET" ++ (32 :: 47 :: (List.replicate 4000 97 ++ 32 :: strBytes "HTTP/1.1\r\n")) := by
    rw [show strBytes "GET /" = strBytes "GET" ++ [32, 47] from by decide,
        show strBytes " HTTP/1.1\r\n" = 32 :: strBytes "HTTP/1.1\r\n" from by decide]
    simp only [List.append_assoc, List.cons_append, List.singleton_append, List.nil_append]
  have hIl : (strBytes "GET /" ++ List.replicate 4000 97 ++ strBytes " HTTP/1.1\r\n").length = 4016 := by
    rw [hsplit]
    simp only [List.length_append, List.length_cons, List.length_replicate, hg3, hs10]
  have hAl : (32 :: 47 :: (List.replicate 4000 97 ++ 32 :: strBytes "HTTP/1.1\r\n")).length = 4013 := by
    simp only [List.length_cons, List.length_append, List.length_replicate, hs10]
  have hL1len : (47 :: List.replicate 4000 97 : List Byte).length = 4001 := by
    rw [List.length_cons, List.length_replicate]
  have hfoG : firstOccur? (strBytes "GET /" ++ List.replicate 4000 97 ++ strBytes " HTTP/1.1\r\n") (strBytes "GET") = some 0 := by
    refine (firstOccur?_eq_some_iff _ _ _).mpr
      ⟨?_, fun q hq => absurd hq (Nat.not_lt_zero q)⟩
    simp only [List.drop_zero]
    exact (isPrefixOf_iff_ex _ _).mpr ⟨(32 :: 47 :: (List.replicate 4000 97 ++ 32 :: strBytes "HTTP/1.1\r\n")), hsplit⟩
  have hidxG : (MemView.new (strBytes "GET /" ++ List.replicate 4000 97 ++ strBytes " HTTP/1.1\r\n")).index 0 (strBytes "GET") = 0 := by
    rw [MemView.index_new (strBytes "GET /" ++ List.replicate 4000 97 ++ strBytes " HTTP/1.1\r\n") 0 (strBytes "GET") (le_refl 0)]
    rw [if_neg (by rw [hIl]; decide), if_neg (by rw [hg3]; decide)]
    have hdz : (strBytes "GET /" ++ List.replicate 4000 97 ++ strBytes " HTTP/1.1\r\n").drop ((0 : Int)).toNat = (strBytes "GET /" ++ List.replicate 4000 97 ++ strBytes " HTTP/1.1\r\n") := rfl
    rw [hdz, hfoG]
    decide
  have hsub : (MemView.new (strBytes "GET /" ++ List.replicate 4000 97 ++ strBytes " HTTP/1.1\r\n")).subView (0 + ((strBytes "GET").length : Int))
      (MemView.new (strBytes "GET /" ++ List.replicate 4000 97 ++ strBytes " HTTP/1.1\r\n")).len = MemView.new (32 :: 47 :: (List.replicate 4000 97 ++ 32 :: strBytes "HTTP/1.1\r\n")) := by
    rw [MemView.subView_new_eq (strBytes "GET /" ++ List.replicate 4000 97 ++ strBytes " HTTP/1.1\r\n") (0 + ((strBytes "GET").length : Int))
      (MemView.new (strBytes "GET /" ++ List.replicate 4000 97 ++ strBytes " HTTP/1.1\r\n")).len (by rw [hg3]; decide)
      (by
        rw [hg3, show (MemView.new (strBytes "GET /" ++ List.replicate 4000 97 ++ strBytes " HTTP/1.1\r\n")).len = ((strBytes "GET /" ++ List.replicate 4000 97 ++ strBytes " HTTP/1.1\r\n").length : Int) from rfl, hIl]
        decide)
      (le_of_eq rfl)]
    have h1 : ((0 : Int) + ((strBytes "GET").length : Int)).toNat = 3 := by
      rw [hg3]
      decide
    have h2 : ((MemView.new (strBytes "GET /" ++ List.replicate 4000 97 ++ strBytes " HTTP/1.1\r\n")).len - (0 + ((strBytes "GET").length : Int))).toNat
        = (32 :: 47 :: (List.replicate 4000 97 ++ 32 :: strBytes "HTTP/1.1\r\n")).length := by
      rw [show (MemView.new (strBytes "GET /" ++ List.replicate 4000 97 ++ strBytes " HTTP/1.1\r\n")).len = ((strBytes "GET /" ++ List.replicate 4000 97 ++ strBytes " HTTP/1.1\r\n").length : Int) from rfl, hIl, hg3, hAl]
      decide
    have h3 : (strBytes "GET /" ++ List.replicate 4000 97 ++ strBytes " HTTP/1.1\r\n").drop 3 = (32 :: 47 :: (List.replicate 4000 97 ++ 32 :: strBytes "HTTP/1.1\r\n")) := by
      rw [hsplit, show (3 : Nat) = (strBytes "GET").length from hg3.symm, List.drop_left]
    rw [h1, h2, h3, List.take_length]
    show (⟨[(32 :: 47 :: (List.replicate 4000 97 ++ 32 :: strBytes "HTTP/1.1\r\n"))], (MemView.new (strBytes "GET /" ++ List.replicate 4000 97 ++ strBytes " HTTP/1.1\r\n")).len - (0 + ((strBytes "GET").length : Int))⟩ : MemView)
      = ⟨[(32 :: 47 :: (List.replicate 4000 97 ++ 32 :: strBytes "HTTP/1.1\r\n"))], ((32 :: 47 :: (List.replicate 4000 97 ++ 32 :: strBytes "HTTP/1.1\r\n")).length : Int)⟩
    refine congrArg (MemView.mk [(32 :: 47 :: (List.replicate 4000 97 ++ 32 :: strBytes "HTTP/1.1\r\n"))]) ?_
    rw [show (MemView.new (strBytes "GET /" ++ List.replicate 4000 97 ++ strBytes " HTTP/1.1\r\n")).len = ((strBytes "GET /" ++ List.replicate 4000 97 ++ strBytes " HTTP/1.1\r\n").length : Int) from rfl, hIl, hg3, hAl]
    decide
  have hT : (32 :: 47 :: (List.replicate 4000 97 ++ 32 :: strBytes "HTTP/1.1\r\n")).drop ((1 : Int)).toNat = (47 :: (List.replicate 4000 97 ++ 32 :: strBytes "HTTP/1.1\r\n")) := rfl
  have hfoSP : firstOccur? (47 :: (List.replicate 4000 97 ++ 32 :: strBytes "HTTP/1.1\r\n")) (strBytes " ") = some 4001 := by
    refine (firstOccur?_eq_some_iff _ _ _).mpr ⟨?_, ?_⟩
    · have hTsplit : (47 :: (List.replicate 4000 97 ++ 32 :: strBytes "HTTP/1.1\r\n")) = (47 :: List.replicate 4000 97 : List Byte) ++ (32 :: (strBytes "HTTP/1.1\r\n")) := by
        simp only [List.cons_append]
      rw [hTsplit, show (4001 : Nat) = (47 :: List.replicate 4000 97 : List Byte).length from hL1len.symm, List.drop_left]
      exact (isPrefixOf_iff_ex _ _).mpr ⟨(strBytes "HTTP/1.1\r\n"), rfl⟩
    · intro q hq
      have hTsplit : (47 :: (List.replicate 4000 97 ++ 32 :: strBytes "HTTP/1.1\r\n")) = (47 :: List.replicate 4000 97 : List Byte) ++ (32 :: (strBytes "HTTP/1.1\r\n")) := by
        simp only [List.cons_append]
      have hq2 : q < (47 :: List.replicate 4000 97 : List Byte).length := by
        rw [hL1len]
        exact hq
      rw [hTsplit]
      exact no_space_drop (47 :: List.replicate 4000 97 : List Byte) (32 :: (strBytes "HTTP/1.1\r\n")) q hq2
        (by simp only [List.mem_cons, List.mem_replicate]; decide)
  have hidxSP : (MemView.new (32 :: 47 :: (List.replicate 4000 97 ++ 32 :: strBytes "HTTP/1.1\r\n"))).index 1 (strBytes " ") = 4002 := by
    rw [MemView.index_new (32 :: 47 :: (List.replicate 4000 97 ++ 32 :: strBytes "HTTP/1.1\r\n")) 1 (strBytes " ") (by decide)]
    rw [if_neg (by rw [hAl]; decide), if_neg (by decide)]
    rw [hT, hfoSP]
    decide
  have hlen4003 : ((32 : Byte) :: 47 :: (List.replicate 4000 97 ++ [32])).length = 4003 := by
    rw [List.length_cons, List.length_cons, List.length_append, List.length_replicate,
      List.length_cons, List.length_nil]
  have hdrop4003 : (32 :: 47 :: (List.replicate 4000 97 ++ 32 :: strBytes "HTTP/1.1\r\n")).drop 4003 = (strBytes "HTTP/1.1\r\n") := by
    have hAsplit : (32 :: 47 :: (List.replicate 4000 97 ++ 32 :: strBytes "HTTP/1.1\r\n")) = ((32 : Byte) :: 47 :: (List.replicate 4000 97 ++ [32])) ++ (strBytes "HTTP/1.1\r\n") := by
      simp only [List.cons_append, List.append_assoc, List.singleton_append, List.nil_append]
    rw [hAsplit, show (4003 : Nat)
        = ((32 : Byte) :: 47 :: (List.replicate 4000 97 ++ [32])).length from hlen4003.symm,
      List.drop_left]
  have htail : (MemView.new (32 :: 47 :: (List.replicate 4000 97 ++ 32 :: strBytes "HTTP/1.1\r\n"))).subView ((4002 : Int) + 1) (MemView.new (32 :: 47 :: (List.replicate 4000 97 ++ 32 :: strBytes "HTTP/1.1\r\n"))).len
      = MemView.new (strBytes "HTTP/1.1\r\n") := by
    rw [MemView.subView_new_eq (32 :: 47 :: (List.replicate 4000 97 ++ 32 :: strBytes "HTTP/1.1\r\n")) (4002 + 1) (MemView.new (32 :: 47 :: (List.replicate 4000 97 ++ 32 :: strBytes "HTTP/1.1\r\n"))).len (by decide)
      (by
        rw [show (MemView.new (32 :: 47 :: (List.replicate 4000 97 ++ 32 :: strBytes "HTTP/1.1\r\n"))).len = ((32 :: 47 :: (List.replicate 4000 97 ++ 32 :: strBytes "HTTP/1.1\r\n")).length : Int) from rfl, hAl]
        decide)
      (le_of_eq rfl)]
    have h1 : ((4002 : Int) + 1).toNat = 4003 := by decide
    have h2 : ((MemView.new (32 :: 47 :: (List.replicate 4000 97 ++ 32 :: strBytes "HTTP/1.1\r\n"))).len - (4002 + 1)).toNat = (strBytes "HTTP/1.1\r\n").length := by
      rw [show (MemView.new (32 :: 47 :: (List.replicate 4000 97 ++ 32 :: strBytes "HTTP/1.1\r\n"))).len = ((32 :: 47 :: (List.replicate 4000 97 ++ 32 :: strBytes "HTTP/1.1\r\n")).length : Int) from rfl, hAl, hs10]
      decide
    rw [h1, h2, hdrop4003, List.take_length]
    show (⟨[(strBytes "HTTP/1.1\r\n")], (MemView.new (32 :: 47 :: (List.replicate 4000 97 ++ 32 :: strBytes "HTTP/1.1\r\n"))).len - (4002 + 1)⟩ : MemView)
      = ⟨[(strBytes "HTTP/1.1\r\n")], ((strBytes "HTTP/1.1\r\n").length : Int)⟩
    refine congrArg (MemView.mk [(strBytes "HTTP/1.1\r\n")]) ?_
    rw [show (MemView.new (32 :: 47 :: (List.replicate 4000 97 ++ 32 :: strBytes "HTTP/1.1\r\n"))).len = ((32 :: 47 :: (List.replicate 4000 97 ++ 32 :: strBytes "HTTP/1.1\r\n")).length : Int) from rfl, hAl, hs10]
    decide
  have hidxHTTP : (MemView.new (strBytes "HTTP/1.1\r\n")).index 0 (strBytes "HTTP/1.1\r\n") = 0 := by
    rw [MemView.index_new (strBytes "HTTP/1.1\r\n") 0 (strBytes "HTTP/1.1\r\n") (le_refl 0)]
    rw [if_neg (by rw [hs10]; decide), if_neg (by rw [hs10]; decide)]
    have hdz : (strBytes "HTTP/1.1\r\n").drop ((0 : Int)).toNat = (strBytes "HTTP/1.1\r\n") := rfl
    rw [hdz, show firstOccur? (strBytes "HTTP/1.1\r\n") (strBytes "HTTP/1.1\r\n") = some 0 from by decide]
    decide
  have hhv : HTTPRec.hasValidHTTPRequestLine (MemView.new (32 :: 47 :: (List.replicate 4000 97 ++ 32 :: strBytes "HTTP/1.1\r\n"))) = .accept := by
    rw [hasValid_unfold]
    rw [if_neg (by
      rw [show (MemView.new (32 :: 47 :: (List.replicate 4000 97 ++ 32 :: strBytes "HTTP/1.1\r\n"))).len = ((32 :: 47 :: (List.replicate 4000 97 ++ 32 :: strBytes "HTTP/1.1\r\n")).length : Int) from rfl, hAl]
      decide)]
    have hgb : (MemView.new (32 :: 47 :: (List.replicate 4000 97 ++ 32 :: strBytes "HTTP/1.1\r\n"))).getByte 0 = 32 := by
      rw [MemView.getByte_eq _ 0 (le_refl 0), MemView.new_bytes]
      rfl
    rw [if_neg (fun hcon => hcon hgb)]
    rw [hidxSP]
    rw [if_neg (by decide), if_neg (by decide)]
    rw [htail]
    rw [if_neg (by
      rw [show (MemView.new (strBytes "HTTP/1.1\r\n")).len = ((strBytes "HTTP/1.1\r\n").length : Int) from rfl, hs10]
      decide)]
    rw [if_pos (Or.inl hidxHTTP)]
  have hloopL : HTTPRec.requestLoop (MemView.new (strBytes "GET /" ++ List.replicate 4000 97 ++ strBytes " HTTP/1.1\r\n")) HTTPRec.supportedHTTPMethods
      = some (.accept, 0) := by
    rw [show HTTPRec.supportedHTTPMethods = strBytes "GET" ::
        [strBytes "POST", strBytes "DELETE", strBytes "HEAD", strBytes "PUT",
         strBytes "PATCH", strBytes "CONNECT", strBytes "OPTIONS", strBytes "TRACE"]
      from rfl]
    rw [requestLoop_cons, hidxG]
    rw [if_pos (le_refl (0 : Int))]
    rw [hsub, hhv]
  have hnc : ¬ ((HTTPRec.requestAcceptsCore (MemView.new (strBytes "GET /" ++ List.replicate 4000 97 ++ strBytes " HTTP/1.1\r\n"))).1 = .needMoreData
      ∧ false = true) := fun h => absurd h.2 (by decide)
  rw [requestAccepts_unfold, if_neg hnc, requestAcceptsCore_unfold]
  rw [if_neg (by
    rw [show (MemView.new (strBytes "GET /" ++ List.replicate 4000 97 ++ strBytes " HTTP/1.1\r\n")).len = ((strBytes "GET /" ++ List.replicate 4000 97 ++ strBytes " HTTP/1.1\r\n").length : Int) from rfl, hIl]
    decide)]
  rw [hloopL]


/-- **C5.** Amended behaviour of the HTTP/1.x request recognizer on
single-slab inputs.  (1) Accept-soundness: whenever `Accepts` returns
`(Accept, s)`, `s` is the first occurrence of some supported method
keyword, and that occurrence is followed by exactly one SP, a non-empty
SP-free request target, one SP, and literally `HTTP/1.1\r\n` or
`HTTP/1.0\r\n` (bytes after the CRLF unconstrained).  (2) When the method
loop finds no candidate and fewer than seven bytes are buffered, the
recognizer returns `(NeedMoreData, 0)` while not at end of stream.
(3) Accepted targets are not capped at 4000 bytes: the concrete request
whose target is `/` followed by 4000 copies of `a` — a 4001-byte, SP-free
target — is accepted at 0, refuting the original claim's cap (the cap is
consulted only while no terminating SP has been found). -/
theorem http_request_accepts_characterization (data : List Byte) (isEnd : Bool)
    (s : Int) :
    (HTTPRec.requestAccepts (MemView.new data) isEnd = (.accept, s) →
      ∃ m ∈ HTTPRec.supportedHTTPMethods, ∃ uri rest : List Byte,
        0 ≤ s ∧
        List.isPrefixOf m (data.drop s.toNat) = true ∧
        (∀ q < s.toNat, ¬ List.isPrefixOf m (data.drop q) = true) ∧
        data.drop (s.toNat + m.length) = 32 :: (uri ++ 32 :: rest) ∧
        uri ≠ [] ∧ 32 ∉ uri ∧
        (List.isPrefixOf (strBytes "HTTP/1.1\r\n") rest = true ∨
         List.isPrefixOf (strBytes "HTTP/1.0\r\n") rest = true)) ∧
    (HTTPRec.requestLoop (MemView.new data) HTTPRec.supportedHTTPMethods = none →
      (MemView.new data).len < HTTPRec.maxSupportedHTTPMethodLength →
      isEnd = false →
      HTTPRec.requestAccepts (MemView.new data) isEnd = (.needMoreData, 0)) ∧
    (HTTPRec.requestAccepts
        (MemView.new (strBytes "GET /" ++ List.replicate 4000 97 ++ strBytes " HTTP/1.1\r\n"))
        false = (.accept, 0) ∧
     (strBytes "GET /" ++ List.replicate 4000 97 ++ strBytes " HTTP/1.1\r\n").drop 4
        = (47 :: List.replicate 4000 97 : List Byte) ++ 32 :: strBytes "HTTP/1.1\r\n" ∧
     4000 ≤ (47 :: List.replicate 4000 97 : List Byte).length ∧
     (32 : Byte) ∉ (47 :: List.replicate 4000 97 : List Byte)) := by
  refine ⟨?_, ?_, ?_, ?_, ?_, ?_⟩
  · intro hacc
    rw [requestAccepts_unfold] at hacc
    by_cases hnm : (HTTPRec.requestAcceptsCore (MemView.new data)).1 = .needMoreData
        ∧ isEnd = true
    · rw [if_pos hnm] at hacc
      simp at hacc
    rw [if_neg hnm] at hacc
    rw [requestAcceptsCore_unfold] at hacc
    by_cases h3 : (MemView.new data).len < HTTPRec.minSupportedHTTPMethodLength
    · rw [if_pos h3] at hacc
      simp at hacc
    rw [if_neg h3] at hacc
    cases hloop : HTTPRec.requestLoop (MemView.new data) HTTPRec.supportedHTTPMethods with
    | none =>
      rw [hloop] at hacc
      change (if (MemView.new data).len < HTTPRec.maxSupportedHTTPMethodLength
          then ((.needMoreData, 0) : AcceptDecision × Int)
          else (.reject, (MemView.new data).len)) = (.accept, s) at hacc
      by_cases h7 : (MemView.new data).len < HTTPRec.maxSupportedHTTPMethodLength
      · rw [if_pos h7] at hacc
        simp at hacc
      · rw [if_neg h7] at hacc
        simp at hacc
    | some r =>
      rw [hloop] at hacc
      change r = (.accept, s) at hacc
      rw [hacc] at hloop
      obtain ⟨m, hmem, hge, hs, hvalid⟩ :=
        requestLoop_accept_sound (MemView.new data) HTTPRec.supportedHTTPMethods s hloop
      have hmlen : ¬ m.length = 0 := by
        have hall : ∀ m2 ∈ HTTPRec.supportedHTTPMethods, ¬ m2.length = 0 := by decide
        exact hall m hmem
      have hlen' : (MemView.new data).len = ((data.length : Int)) := rfl
      have hidx := MemView.index_new data 0 m (le_refl 0)
      rw [← hs] at hidx
      have hd0 : ¬ ((data.length : Int) ≤ 0) := by
        rw [hlen', show HTTPRec.minSupportedHTTPMethodLength = (3 : Int) from rfl] at h3
        omega
      rw [if_neg hd0, if_neg hmlen] at hidx
      have hdz : data.drop ((0 : Int)).toNat = data := rfl
      rw [hdz] at hidx
      cases hfo : firstOccur? data m with
      | none =>
        rw [hfo] at hidx
        change s = (-1 : Int) at hidx
        omega
      | some p =>
        rw [hfo] at hidx
        change s = 0 + (p : Int) at hidx
        have hstoNat : s.toNat = p := by omega
        obtain ⟨hpre, hmin⟩ := (firstOccur?_eq_some_iff data m p).mp hfo
        have hdne : data.drop p ≠ [] := by
          intro hd
          rw [hd] at hpre
          cases m with
          | nil => exact hmlen rfl
          | cons x xs => exact Bool.noConfusion hpre
        have hplt : p < data.length := by
          by_contra hgep
          exact hdne (List.drop_eq_nil_of_le (by omega))
        have hmle : m.length ≤ data.length - p := by
          have h1 := isPrefixOf_length_le hpre
          rw [List.length_drop] at h1
          exact h1
        by_cases hedge : (MemView.new data).len ≤ s + (m.length : Int)
        · have hsv : (MemView.new data).subView (s + (m.length : Int)) (MemView.new data).len
              = ⟨[], 0⟩ := by
            rw [MemView.subView, if_pos hedge]
          rw [hsv] at hvalid
          exact absurd hvalid (by decide)
        · have hafter : (MemView.new data).subView (s + (m.length : Int))
              (MemView.new data).len = MemView.new (data.drop (p + m.length)) := by
            rw [MemView.subView_new_eq data (s + (m.length : Int)) (MemView.new data).len
              (by omega) (lt_of_not_le hedge) (le_of_eq hlen')]
            have h1 : ((s + (m.length : Int))).toNat = p + m.length := by omega
            have h2 : ((MemView.new data).len - (s + (m.length : Int))).toNat
                = (data.drop (p + m.length)).length := by
              rw [hlen']
              simp only [List.length_drop]
              omega
            rw [h1, h2, List.take_length]
            show (⟨[data.drop (p + m.length)],
                (MemView.new data).len - (s + (m.length : Int))⟩ : MemView)
              = ⟨[data.drop (p + m.length)], (((data.drop (p + m.length)).length : Int))⟩
            congr 1
            rw [hlen']
            simp only [List.length_drop]
            omega
          rw [hafter] at hvalid
          obtain ⟨uri, rest, hdecomp, hune, hnosp, hver⟩ := hasValid_accept_sound _ hvalid
          refine ⟨m, hmem, uri, rest, hge, ?_, ?_, ?_, hune, hnosp, hver⟩
          · rw [hstoNat]
            exact hpre
          · intro q hq
            rw [hstoNat] at hq
            exact hmin q hq
          · rw [hstoNat]
            exact hdecomp
  · intro hloop hlen7 hend
    subst hend
    have hnc : ¬ ((HTTPRec.requestAcceptsCore (MemView.new data)).1 = .needMoreData
        ∧ false = true) := fun h => absurd h.2 (by decide)
    rw [requestAccepts_unfold, if_neg hnc, requestAcceptsCore_unfold]
    by_cases h3 : (MemView.new data).len < HTTPRec.minSupportedHTTPMethodLength
    · rw [if_pos h3]
    · rw [if_neg h3, hloop]
      change (if (MemView.new data).len < HTTPRec.maxSupportedHTTPMethodLength
          then ((.needMoreData, 0) : AcceptDecision × Int)
          else (.reject, (MemView.new data).len)) = (.needMoreData, 0)
      rw [if_pos hlen7]
  · exact long_request_accepted
  · rw [show strBytes "GET /" = [(71 : Byte), 69, 84, 32, 47] from by decide,
      show strBytes " HTTP/1.1\r\n" = 32 :: strBytes "HTTP/1.1\r\n" from by decide]
    rfl
  · rw [List.length_cons, List.length_replicate]
    omega
  · simp only [List.mem_cons, List.mem_replicate]
    decide

/-- The claim's sentence "two consecutive SPs after the method yields
Reject" is false of the code: on `"GET  PUT / HTTP/1.1\r\n"` the first
supported-method occurrence (`GET` at 0) is followed by two consecutive
SPs, yet `Accepts` returns `(Accept, 5)` because a later method occurrence
(`PUT`) carries a valid request line.  (The recognizer also accepts request
targets of 4000 bytes or longer once a terminating SP is present, since the
4000-byte cap is only consulted when no second SP has been found.) -/
theorem http_request_two_space_claim_false :
    (MemView.new (strBytes "GET  PUT / HTTP/1.1\r\n")).index 0 (strBytes "GET") = 0 ∧
    (MemView.new (strBytes "GET  PUT / HTTP/1.1\r\n")).getByte 3 = 32 ∧
    (MemView.new (strBytes "GET  PUT / HTTP/1.1\r\n")).getByte 4 = 32 ∧
    HTTPRec.requestAccepts (MemView.new (strBytes "GET  PUT / HTTP/1.1\r\n")) false
      = (.accept, 5) :=
  ⟨by decide, by decide, by decide, by decide⟩

/-- Witness for C5: the accept-soundness clause discharged at the accepted
request `"GET /x HTTP/1.1\r\n"`, and the short-input clause discharged at
the two-byte input `"AB"` with no method occurrence. -/
theorem http_request_accepts_characterization_witness :
    (HTTPRec.requestAccepts (MemView.new (strBytes "GET /x HTTP/1.1\r\n")) false
        = (.accept, 0) ∧
     (∃ m ∈ HTTPRec.supportedHTTPMethods, ∃ uri rest : List Byte,
       0 ≤ (0 : Int) ∧
       List.isPrefixOf m ((strBytes "GET /x HTTP/1.1\r\n").drop ((0 : Int)).toNat) = true ∧
       (∀ q < ((0 : Int)).toNat,
         ¬ List.isPrefixOf m ((strBytes "GET /x HTTP/1.1\r\n").drop q) = true) ∧
       (strBytes "GET /x HTTP/1.1\r\n").drop (((0 : Int)).toNat + m.length)
           = 32 :: (uri ++ 32 :: rest) ∧
       uri ≠ [] ∧ 32 ∉ uri ∧
       (List.isPrefixOf (strBytes "HTTP/1.1\r\n") rest = true ∨
        List.isPrefixOf (strBytes "HTTP/1.0\r\n") rest = true))) ∧
    (HTTPRec.requestLoop (MemView.new (strBytes "AB")) HTTPRec.supportedHTTPMethods
        = none ∧
     (MemView.new (strBytes "AB")).len < HTTPRec.maxSupportedHTTPMethodLength ∧
     HTTPRec.requestAccepts (MemView.new (strBytes "AB")) false = (.needMoreData, 0)) :=
  ⟨⟨by decide,
    (http_request_accepts_characterization (strBytes "GET /x HTTP/1.1\r\n") false 0).1
      (by decide)⟩,
   by decide, by decide,
   (http_request_accepts_characterization (strBytes "AB") false 0).2.1 (by decide)
     (by decide) rfl⟩


/-! ## C9: buffer representation invariants -/

namespace Mempool

theorem copyInto_fst_length (chunk : List Byte) (offset : Nat) (src : List Byte)
    (h : offset ≤ chunk.length) :
    (copyInto chunk offset src).1.length = chunk.length := by
  unfold copyInto
  simp only [List.length_append, List.length_take, List.length_drop]
  omega

theorem getChunk_chunkSize (pool : Pool) : (pool.getChunk).2.chunkSize = pool.chunkSize := by
  rw [Pool.getChunk]
  by_cases hf : pool.free = 0
  · rw [if_pos hf]
  · rw [if_neg hf]

theorem getChunk_some (pool : Pool) (c : List Byte) (pool1 : Pool)
    (h : pool.getChunk = (some c, pool1)) : c = List.replicate pool.chunkSize 0 := by
  rw [Pool.getChunk] at h
  by_cases hf : pool.free = 0
  · rw [if_pos hf] at h
    simp at h
  · rw [if_neg hf] at h
    injection h with h1 h2
    injection h1 with h1
    exact h1.symm

theorem growObtain_spec :
    ∀ (k : Nat) (pool : Pool) (chunks : List (List Byte)),
      (growObtain k pool chunks).2.1
          = chunks ++ List.replicate (growObtain k pool chunks).2.2
              (List.replicate pool.chunkSize 0) ∧
      (growObtain k pool chunks).2.2 ≤ k ∧
      (growObtain k pool chunks).1.chunkSize = pool.chunkSize := by
  intro k
  induction k with
  | zero =>
    intro pool chunks
    refine ⟨by simp [growObtain], Nat.le_refl _, rfl⟩
  | succ k ih =>
    intro pool chunks
    cases hg : pool.getChunk with
    | mk copt pool1 =>
      have hcs1 : pool1.chunkSize = pool.chunkSize := by
        have hc := getChunk_chunkSize pool
        rw [hg] at hc
        exact hc
      cases copt with
      | none =>
        have h1 : growObtain (k + 1) pool chunks = (pool1, chunks, 0) := by
          rw [growObtain, hg]
        rw [h1]
        exact ⟨by simp, Nat.zero_le _, hcs1⟩
      | some c =>
        have hc : c = List.replicate pool.chunkSize 0 := getChunk_some pool c pool1 hg
        have h1 : growObtain (k + 1) pool chunks
            = ((growObtain k pool1 (chunks ++ [c])).1,
               (growObtain k pool1 (chunks ++ [c])).2.1,
               (growObtain k pool1 (chunks ++ [c])).2.2 + 1) := by
          rw [growObtain, hg]
        rw [h1]
        obtain ⟨ih1, ih2, ih3⟩ := ih pool1 (chunks ++ [c])
        refine ⟨?_, ?_, ?_⟩
        · show (growObtain k pool1 (chunks ++ [c])).2.1
            = chunks ++ List.replicate ((growObtain k pool1 (chunks ++ [c])).2.2 + 1)
                (List.replicate pool.chunkSize 0)
          rw [ih1, hcs1, hc, List.append_assoc]
          congr 1
        · show (growObtain k pool1 (chunks ++ [c])).2.2 + 1 ≤ k + 1
          omega
        · show (growObtain k pool1 (chunks ++ [c])).1.chunkSize = pool.chunkSize
          rw [ih3, hcs1]

/-- Behavior of `buffer.grow`: the chunk list is extended by the obtained
zero chunks; read and write offsets are untouched; the available space
overshoots the request by less than one chunk; and when some space is
available, it equals the capacity from the returned write position to the
end of the buffer. -/
theorem grow_spec (pool : Pool) (buf : GoBuffer) (n : Int)
    (pool1 : Pool) (buf1 : GoBuffer) (idx off : Nat) (avail : Int)
    (hcs : 0 < pool.chunkSize)
    (hwo : buf.chunks ≠ [] → buf.writeOffset ≤ pool.chunkSize)
    (hn : 0 < n)
    (heq : grow pool buf n = (pool1, buf1, idx, off, avail)) :
    ∃ ob : Nat,
      buf1.chunks = buf.chunks ++ List.replicate ob (List.replicate pool.chunkSize 0) ∧
      pool1.chunkSize = pool.chunkSize ∧
      buf1.readOffset = buf.readOffset ∧
      buf1.writeOffset = buf.writeOffset ∧
      avail < n + pool.chunkSize ∧
      0 ≤ avail ∧
      (avail = 0 → ob = 0) ∧
      (0 < avail →
        avail = ((pool.chunkSize - off : Nat) : Int)
            + ((buf1.chunks.length - 1 - idx : Nat) : Int) * pool.chunkSize ∧
        idx < buf1.chunks.length ∧
        off < pool.chunkSize ∧
        (buf1.chunks.length = 1 ∧ buf.chunks ≠ [] → idx = 0 ∧ off = buf.writeOffset)) := by
  have hdivle : ∀ (sn : Int), 0 < sn →
      (((sn + pool.chunkSize - 1) / pool.chunkSize).toNat : Int) * pool.chunkSize
        ≤ sn + pool.chunkSize - 1 := by
    intro sn hsn
    have hnum : 0 ≤ sn + (pool.chunkSize : Int) - 1 := by omega
    have hq : 0 ≤ (sn + (pool.chunkSize : Int) - 1) / pool.chunkSize :=
      Int.ediv_nonneg hnum (by omega)
    rw [Int.toNat_of_nonneg hq]
    exact Int.ediv_mul_le _ (by omega)
  unfold grow at heq
  simp only [] at heq
  split at heq
  case isTrue hempty =>
    have hnil : buf.chunks = [] := List.length_eq_zero.mp hempty
    split at heq
    case isTrue hsp =>
      exfalso
      have hsp2 : n - 0 ≤ 0 := hsp
      omega
    case isFalse hsp =>
      split at heq
      case isTrue hadj =>
        exact absurd (show (0 : Nat) = pool.chunkSize from hadj) (by omega)
      case isFalse hadj =>
        simp only [Prod.mk.injEq] at heq
        obtain ⟨h1, h2, h3, h4, h5⟩ := heq
        have hp1 : pool1 = (growObtain ((n - 0 + (pool.chunkSize : Int) - 1) / (pool.chunkSize : Int)).toNat pool buf.chunks).1 := h1.symm
        have hb1 : buf1 = ⟨(growObtain ((n - 0 + (pool.chunkSize : Int) - 1) / (pool.chunkSize : Int)).toNat pool buf.chunks).2.1, buf.readOffset, buf.writeOffset⟩ := h2.symm
        have hidx : idx = 0 := h3.symm
        have hoff : off = 0 := h4.symm
        have hav : avail = 0 + ((growObtain ((n - 0 + (pool.chunkSize : Int) - 1) / (pool.chunkSize : Int)).toNat pool buf.chunks).2.2 : Int) * pool.chunkSize := h5.symm
        subst hp1 hb1 hidx hoff hav
        obtain ⟨g1, g2, g3⟩ := growObtain_spec ((n - 0 + (pool.chunkSize : Int) - 1) / (pool.chunkSize : Int)).toNat pool buf.chunks
        refine ⟨(growObtain ((n - 0 + (pool.chunkSize : Int) - 1) / (pool.chunkSize : Int)).toNat pool buf.chunks).2.2, g1, g3, rfl, rfl, ?_, ?_, ?_, ?_⟩
        · have hb := hdivle (n - 0) (by omega)
          have hob : ((growObtain ((n - 0 + (pool.chunkSize : Int) - 1) / (pool.chunkSize : Int)).toNat pool buf.chunks).2.2 : Int) ≤ ((((n - 0 + (pool.chunkSize : Int) - 1) / (pool.chunkSize : Int)).toNat : Nat) : Int) := by
            exact_mod_cast g2
          have hmul := mul_le_mul_of_nonneg_right hob
            (by positivity : (0 : Int) ≤ (pool.chunkSize : Int))
          omega
        · positivity
        · intro h0
          by_contra hne
          have hpos : 0 < (growObtain ((n - 0 + (pool.chunkSize : Int) - 1) / (pool.chunkSize : Int)).toNat pool buf.chunks).2.2 := Nat.pos_of_ne_zero hne
          have h1le : (1 : Int) ≤ ((growObtain ((n - 0 + (pool.chunkSize : Int) - 1) / (pool.chunkSize : Int)).toNat pool buf.chunks).2.2 : Int) := by
            exact_mod_cast hpos
          have := mul_le_mul_of_nonneg_right h1le
            (by positivity : (0 : Int) ≤ (pool.chunkSize : Int))
          omega
        · intro hpos
          have hobpos : 0 < (growObtain ((n - 0 + (pool.chunkSize : Int) - 1) / (pool.chunkSize : Int)).toNat pool buf.chunks).2.2 := by
            by_contra hz
            have hz0 : (growObtain ((n - 0 + (pool.chunkSize : Int) - 1) / (pool.chunkSize : Int)).toNat pool buf.chunks).2.2 = 0 := by omega
            rw [hz0] at hpos
            simp at hpos
          have hlen1 : ((⟨(growObtain ((n - 0 + (pool.chunkSize : Int) - 1) / (pool.chunkSize : Int)).toNat pool buf.chunks).2.1, buf.readOffset, buf.writeOffset⟩ : GoBuffer)).chunks.length
              = (growObtain ((n - 0 + (pool.chunkSize : Int) - 1) / (pool.chunkSize : Int)).toNat pool buf.chunks).2.2 := by
            show (growObtain ((n - 0 + (pool.chunkSize : Int) - 1) / (pool.chunkSize : Int)).toNat pool buf.chunks).2.1.length = _
            rw [g1, hnil]
            simp
          refine ⟨?_, ?_, by omega, ?_⟩
          · rw [hlen1]
            have hcast : ((pool.chunkSize - 0 : Nat) : Int) = (pool.chunkSize : Int) := by
              omega
            have hcast2 : (((growObtain ((n - 0 + (pool.chunkSize : Int) - 1) / (pool.chunkSize : Int)).toNat pool buf.chunks).2.2 - 1 - 0 : Nat) : Int) = ((growObtain ((n - 0 + (pool.chunkSize : Int) - 1) / (pool.chunkSize : Int)).toNat pool buf.chunks).2.2 : Int) - 1 := by
              omega
            rw [hcast, hcast2]
            ring
          · rw [hlen1]
            omega
          · rintro ⟨-, hcne⟩
            exact absurd hnil hcne
  case isFalse hempty =>
    have hnonnil : buf.chunks ≠ [] := fun hn2 => hempty (by rw [hn2]; rfl)
    have hwole : buf.writeOffset ≤ pool.chunkSize := hwo hnonnil
    have hlenpos : 0 < buf.chunks.length := List.length_pos.mpr hnonnil
    split at heq
    case isTrue hsp =>
      have hsp2 : n - ((pool.chunkSize : Int) - buf.writeOffset) ≤ 0 := hsp
      simp only [Prod.mk.injEq] at heq
      obtain ⟨h1, h2, h3, h4, h5⟩ := heq
      subst h1 h2
      have hidx : idx = buf.chunks.length - 1 := h3.symm
      have hoff : off = buf.writeOffset := h4.symm
      have hav : avail = (pool.chunkSize : Int) - buf.writeOffset := h5.symm
      subst hidx hoff hav
      refine ⟨0, by simp, rfl, rfl, rfl, by omega, by omega, fun _ => rfl, ?_⟩
      intro hpos
      have hwolt : buf.writeOffset < pool.chunkSize := by omega
      refine ⟨?_, by omega, hwolt, fun _ => ⟨by omega, rfl⟩⟩
      have hz : (buf.chunks.length - 1 - (buf.chunks.length - 1) : Nat) = 0 := by omega
      rw [hz]
      have hcast : ((pool.chunkSize - buf.writeOffset : Nat) : Int)
          = (pool.chunkSize : Int) - buf.writeOffset := by omega
      rw [hcast]
      simp
    case isFalse hsp =>
      have hsp2 : ¬ n - ((pool.chunkSize : Int) - buf.writeOffset) ≤ 0 := hsp
      split at heq
      case isTrue hadj =>
        have hwoc : buf.writeOffset = pool.chunkSize := hadj
        simp only [Prod.mk.injEq] at heq
        obtain ⟨h1, h2, h3, h4, h5⟩ := heq
        have hp1 : pool1 = (growObtain ((n - ((pool.chunkSize : Int) - (buf.writeOffset : Int)) + (pool.chunkSize : Int) - 1) / (pool.chunkSize : Int)).toNat pool buf.chunks).1 := h1.symm
        have hb1 : buf1 = ⟨(growObtain ((n - ((pool.chunkSize : Int) - (buf.writeOffset : Int)) + (pool.chunkSize : Int) - 1) / (pool.chunkSize : Int)).toNat pool buf.chunks).2.1, buf.readOffset, buf.writeOffset⟩ := h2.symm
        have hidx : idx = buf.chunks.length - 1 + 1 := h3.symm
        have hoff : off = 0 := h4.symm
        have hav : avail = ((pool.chunkSize : Int) - buf.writeOffset)
            + ((growObtain ((n - ((pool.chunkSize : Int) - (buf.writeOffset : Int)) + (pool.chunkSize : Int) - 1) / (pool.chunkSize : Int)).toNat pool buf.chunks).2.2 : Int) * pool.chunkSize := h5.symm
        subst hp1 hb1 hidx hoff hav
        obtain ⟨g1, g2, g3⟩ := growObtain_spec ((n - ((pool.chunkSize : Int) - (buf.writeOffset : Int)) + (pool.chunkSize : Int) - 1) / (pool.chunkSize : Int)).toNat pool buf.chunks
        refine ⟨(growObtain ((n - ((pool.chunkSize : Int) - (buf.writeOffset : Int)) + (pool.chunkSize : Int) - 1) / (pool.chunkSize : Int)).toNat pool buf.chunks).2.2, g1, g3, rfl, rfl, ?_, ?_, ?_, ?_⟩
        · have hb := hdivle (n - ((pool.chunkSize : Int) - buf.writeOffset)) (by omega)
          have hob : ((growObtain ((n - ((pool.chunkSize : Int) - (buf.writeOffset : Int)) + (pool.chunkSize : Int) - 1) / (pool.chunkSize : Int)).toNat pool buf.chunks).2.2 : Int) ≤ ((((n - ((pool.chunkSize : Int) - (buf.writeOffset : Int)) + (pool.chunkSize : Int) - 1) / (pool.chunkSize : Int)).toNat : Nat) : Int) := by
            exact_mod_cast g2
          have hmul := mul_le_mul_of_nonneg_right hob
            (by positivity : (0 : Int) ≤ (pool.chunkSize : Int))
          omega
        · have hprod : (0 : Int) ≤ ((growObtain ((n - ((pool.chunkSize : Int) - (buf.writeOffset : Int)) + (pool.chunkSize : Int) - 1) / (pool.chunkSize : Int)).toNat pool buf.chunks).2.2 : Int) * pool.chunkSize := by positivity
          omega
        · intro h0
          by_contra hne
          have hpos : 0 < (growObtain ((n - ((pool.chunkSize : Int) - (buf.writeOffset : Int)) + (pool.chunkSize : Int) - 1) / (pool.chunkSize : Int)).toNat pool buf.chunks).2.2 := Nat.pos_of_ne_zero hne
          have h1le : (1 : Int) ≤ ((growObtain ((n - ((pool.chunkSize : Int) - (buf.writeOffset : Int)) + (pool.chunkSize : Int) - 1) / (pool.chunkSize : Int)).toNat pool buf.chunks).2.2 : Int) := by
            exact_mod_cast hpos
          have := mul_le_mul_of_nonneg_right h1le
            (by positivity : (0 : Int) ≤ (pool.chunkSize : Int))
          omega
        · intro hpos
          have hobpos : 0 < (growObtain ((n - ((pool.chunkSize : Int) - (buf.writeOffset : Int)) + (pool.chunkSize : Int) - 1) / (pool.chunkSize : Int)).toNat pool buf.chunks).2.2 := by
            by_contra hz
            have hz0 : (growObtain ((n - ((pool.chunkSize : Int) - (buf.writeOffset : Int)) + (pool.chunkSize : Int) - 1) / (pool.chunkSize : Int)).toNat pool buf.chunks).2.2 = 0 := by omega
            rw [hz0] at hpos
            simp [hwoc] at hpos
          have hlen1 : ((⟨(growObtain ((n - ((pool.chunkSize : Int) - (buf.writeOffset : Int)) + (pool.chunkSize : Int) - 1) / (pool.chunkSize : Int)).toNat pool buf.chunks).2.1, buf.readOffset, buf.writeOffset⟩ : GoBuffer)).chunks.length
              = buf.chunks.length + (growObtain ((n - ((pool.chunkSize : Int) - (buf.writeOffset : Int)) + (pool.chunkSize : Int) - 1) / (pool.chunkSize : Int)).toNat pool buf.chunks).2.2 := by
            show (growObtain ((n - ((pool.chunkSize : Int) - (buf.writeOffset : Int)) + (pool.chunkSize : Int) - 1) / (pool.chunkSize : Int)).toNat pool buf.chunks).2.1.length = _
            rw [g1]
            simp
          refine ⟨?_, ?_, by omega, ?_⟩
          · rw [hlen1]
            have hcast : ((pool.chunkSize - 0 : Nat) : Int) = (pool.chunkSize : Int) := by
              omega
            have heqn : (buf.chunks.length + (growObtain ((n - ((pool.chunkSize : Int) - (buf.writeOffset : Int)) + (pool.chunkSize : Int) - 1) / (pool.chunkSize : Int)).toNat pool buf.chunks).2.2 - 1 - (buf.chunks.length - 1 + 1) : Nat)
                = (growObtain ((n - ((pool.chunkSize : Int) - (buf.writeOffset : Int)) + (pool.chunkSize : Int) - 1) / (pool.chunkSize : Int)).toNat pool buf.chunks).2.2 - 1 := by
              omega
            rw [hcast, heqn]
            have hcast2 : (((growObtain ((n - ((pool.chunkSize : Int) - (buf.writeOffset : Int)) + (pool.chunkSize : Int) - 1) / (pool.chunkSize : Int)).toNat pool buf.chunks).2.2 - 1 : Nat) : Int) = ((growObtain ((n - ((pool.chunkSize : Int) - (buf.writeOffset : Int)) + (pool.chunkSize : Int) - 1) / (pool.chunkSize : Int)).toNat pool buf.chunks).2.2 : Int) - 1 := by
              omega
            rw [hcast2, hwoc]
            ring
          · rw [hlen1]
            omega
          · rintro ⟨hl1, -⟩
            rw [hlen1] at hl1
            omega
      case isFalse hadj =>
        have hwoc : ¬ buf.writeOffset = pool.chunkSize := hadj
        simp only [Prod.mk.injEq] at heq
        obtain ⟨h1, h2, h3, h4, h5⟩ := heq
        have hp1 : pool1 = (growObtain ((n - ((pool.chunkSize : Int) - (buf.writeOffset : Int)) + (pool.chunkSize : Int) - 1) / (pool.chunkSize : Int)).toNat pool buf.chunks).1 := h1.symm
        have hb1 : buf1 = ⟨(growObtain ((n - ((pool.chunkSize : Int) - (buf.writeOffset : Int)) + (pool.chunkSize : Int) - 1) / (pool.chunkSize : Int)).toNat pool buf.chunks).2.1, buf.readOffset, buf.writeOffset⟩ := h2.symm
        have hidx : idx = buf.chunks.length - 1 := h3.symm
        have hoff : off = buf.writeOffset := h4.symm
        have hav : avail = ((pool.chunkSize : Int) - buf.writeOffset)
            + ((growObtain ((n - ((pool.chunkSize : Int) - (buf.writeOffset : Int)) + (pool.chunkSize : Int) - 1) / (pool.chunkSize : Int)).toNat pool buf.chunks).2.2 : Int) * pool.chunkSize := h5.symm
        subst hp1 hb1 hidx hoff hav
        obtain ⟨g1, g2, g3⟩ := growObtain_spec ((n - ((pool.chunkSize : Int) - (buf.writeOffset : Int)) + (pool.chunkSize : Int) - 1) / (pool.chunkSize : Int)).toNat pool buf.chunks
        refine ⟨(growObtain ((n - ((pool.chunkSize : Int) - (buf.writeOffset : Int)) + (pool.chunkSize : Int) - 1) / (pool.chunkSize : Int)).toNat pool buf.chunks).2.2, g1, g3, rfl, rfl, ?_, ?_, ?_, ?_⟩
        · have hb := hdivle (n - ((pool.chunkSize : Int) - buf.writeOffset)) (by omega)
          have hob : ((growObtain ((n - ((pool.chunkSize : Int) - (buf.writeOffset : Int)) + (pool.chunkSize : Int) - 1) / (pool.chunkSize : Int)).toNat pool buf.chunks).2.2 : Int) ≤ ((((n - ((pool.chunkSize : Int) - (buf.writeOffset : Int)) + (pool.chunkSize : Int) - 1) / (pool.chunkSize : Int)).toNat : Nat) : Int) := by
            exact_mod_cast g2
          have hmul := mul_le_mul_of_nonneg_right hob
            (by positivity : (0 : Int) ≤ (pool.chunkSize : Int))
          omega
        · have hprod : (0 : Int) ≤ ((growObtain ((n - ((pool.chunkSize : Int) - (buf.writeOffset : Int)) + (pool.chunkSize : Int) - 1) / (pool.chunkSize : Int)).toNat pool buf.chunks).2.2 : Int) * pool.chunkSize := by positivity
          omega
        · intro h0
          by_contra hne
          have hpos : 0 < (growObtain ((n - ((pool.chunkSize : Int) - (buf.writeOffset : Int)) + (pool.chunkSize : Int) - 1) / (pool.chunkSize : Int)).toNat pool buf.chunks).2.2 := Nat.pos_of_ne_zero hne
          have h1le : (1 : Int) ≤ ((growObtain ((n - ((pool.chunkSize : Int) - (buf.writeOffset : Int)) + (pool.chunkSize : Int) - 1) / (pool.chunkSize : Int)).toNat pool buf.chunks).2.2 : Int) := by
            exact_mod_cast hpos
          have := mul_le_mul_of_nonneg_right h1le
            (by positivity : (0 : Int) ≤ (pool.chunkSize : Int))
          omega
        · intro hpos
          have hwolt : buf.writeOffset < pool.chunkSize := by omega
          have hlen1 : ((⟨(growObtain ((n - ((pool.chunkSize : Int) - (buf.writeOffset : Int)) + (pool.chunkSize : Int) - 1) / (pool.chunkSize : Int)).toNat pool buf.chunks).2.1, buf.readOffset, buf.writeOffset⟩ : GoBuffer)).chunks.length
              = buf.chunks.length + (growObtain ((n - ((pool.chunkSize : Int) - (buf.writeOffset : Int)) + (pool.chunkSize : Int) - 1) / (pool.chunkSize : Int)).toNat pool buf.chunks).2.2 := by
            show (growObtain ((n - ((pool.chunkSize : Int) - (buf.writeOffset : Int)) + (pool.chunkSize : Int) - 1) / (pool.chunkSize : Int)).toNat pool buf.chunks).2.1.length = _
            rw [g1]
            simp
          refine ⟨?_, ?_, hwolt, ?_⟩
          · rw [hlen1]
            have hcast : ((pool.chunkSize - buf.writeOffset : Nat) : Int)
                = (pool.chunkSize : Int) - buf.writeOffset := by omega
            have heqn : (buf.chunks.length + (growObtain ((n - ((pool.chunkSize : Int) - (buf.writeOffset : Int)) + (pool.chunkSize : Int) - 1) / (pool.chunkSize : Int)).toNat pool buf.chunks).2.2 - 1 - (buf.chunks.length - 1) : Nat)
                = (growObtain ((n - ((pool.chunkSize : Int) - (buf.writeOffset : Int)) + (pool.chunkSize : Int) - 1) / (pool.chunkSize : Int)).toNat pool buf.chunks).2.2 := by
              omega
            rw [hcast, heqn]
          · rw [hlen1]
            omega
          · rintro ⟨hl1, -⟩
            rw [hlen1] at hl1
            have hob0 : (growObtain ((n - ((pool.chunkSize : Int) - (buf.writeOffset : Int)) + (pool.chunkSize : Int) - 1) / (pool.chunkSize : Int)).toNat pool buf.chunks).2.2 = 0 := by omega
            exact ⟨by omega, rfl⟩

theorem copyInto_snd (c : List Byte) (o : Nat) (s : List Byte) :
    (copyInto c o s).2 = min (c.length - o) s.length := rfl

theorem writeLoop_spec (p : List Byte) (csize : Nat) (hcs : 0 < csize) :
    ∀ (fuel : Nat) (chunks : List (List Byte)) (idx off total : Nat),
      (∀ c ∈ chunks, c.length = csize) →
      idx < chunks.length →
      off < csize →
      chunks.length - idx ≤ fuel →
      total < p.length →
      (idx < chunks.length - 1 →
        (csize - off) + (chunks.length - 2 - idx) * csize < p.length - total) →
      (∀ c ∈ (writeLoop p fuel chunks idx off total).1, c.length = csize) ∧
      (writeLoop p fuel chunks idx off total).1.length = chunks.length ∧
      0 < (writeLoop p fuel chunks idx off total).2.1 ∧
      (writeLoop p fuel chunks idx off total).2.1 ≤ csize ∧
      (chunks.length = idx + 1 → off ≤ (writeLoop p fuel chunks idx off total).2.1) := by
  intro fuel
  induction fuel with
  | zero =>
    intro chunks idx off total _ hidx _ hfuel _ _
    omega
  | succ fuel ih =>
    intro chunks idx off total hlen hidx hoff hfuel htot hcap
    have hstep : writeLoop p (fuel + 1) chunks idx off total
        = (if idx < chunks.length then
            (if idx + 1 = chunks.length then
              (chunks.set idx (copyInto (chunks.getD idx []) off (p.drop total)).1,
               off + (copyInto (chunks.getD idx []) off (p.drop total)).2,
               total + (copyInto (chunks.getD idx []) off (p.drop total)).2)
            else
              writeLoop p fuel
                (chunks.set idx (copyInto (chunks.getD idx []) off (p.drop total)).1)
                (idx + 1) 0
                (total + (copyInto (chunks.getD idx []) off (p.drop total)).2))
          else (chunks, off, total)) := by
      rw [writeLoop]
    rw [hstep, if_pos hidx]
    have hgetd : chunks.getD idx [] = chunks[idx] := List.getD_eq_getElem chunks [] hidx
    have hchunklen : (chunks.getD idx []).length = csize := by
      rw [hgetd]
      exact hlen _ (List.getElem_mem hidx)
    have hcp : (copyInto (chunks.getD idx []) off (p.drop total)).2
        = min (csize - off) (p.length - total) := by
      rw [copyInto_snd, hchunklen, List.length_drop]
    have hout1len : (copyInto (chunks.getD idx []) off (p.drop total)).1.length = csize := by
      rw [copyInto_fst_length _ _ _ (by omega), hchunklen]
    have hsetlen : ∀ c ∈ chunks.set idx (copyInto (chunks.getD idx []) off (p.drop total)).1,
        c.length = csize := by
      intro c hc
      rcases List.mem_or_eq_of_mem_set hc with h | h
      · exact hlen c h
      · rw [h]
        exact hout1len
    by_cases hlast : idx + 1 = chunks.length
    · rw [if_pos hlast]
      refine ⟨hsetlen, by simp, ?_, ?_, fun _ => Nat.le_add_right _ _⟩
      · show 0 < off + (copyInto (chunks.getD idx []) off (p.drop total)).2
        omega
      · show off + (copyInto (chunks.getD idx []) off (p.drop total)).2 ≤ csize
        omega
    · rw [if_neg hlast]
      have hlt2 : idx < chunks.length - 1 := by omega
      have hHH := hcap hlt2
      have hcpval : (copyInto (chunks.getD idx []) off (p.drop total)).2 = csize - off := by
        omega
      obtain ⟨i1, i2, i3, i4, i5⟩ := ih
        (chunks.set idx (copyInto (chunks.getD idx []) off (p.drop total)).1)
        (idx + 1) 0 (total + (copyInto (chunks.getD idx []) off (p.drop total)).2)
        hsetlen
        (by simp; omega)
        hcs
        (by simp; omega)
        (by omega)
        (by
          intro hlt3
          simp only [List.length_set] at hlt3 ⊢
          have hsplit : chunks.length - 2 - idx = (chunks.length - 3 - idx) + 1 := by omega
          have hmul : (chunks.length - 2 - idx) * csize
              = (chunks.length - 3 - idx) * csize + csize := by
            rw [hsplit, Nat.succ_mul]
          have hidx3 : chunks.length - 2 - (idx + 1) = chunks.length - 3 - idx := by omega
          rw [hidx3]
          omega)
      refine ⟨i1, ?_, i3, i4, ?_⟩
      · rw [i2]
        simp
      · intro hl
        exact absurd hl.symm hlast

theorem repOk_midInv (csize : Nat) (buf : GoBuffer) (h : RepOk csize buf) :
    MidInv csize buf :=
  ⟨h.1, h.2.1, h.2.2.1, fun hne => (h.2.2.2.1 hne).2, fun h1 => Or.inl (h.2.2.2.2 h1)⟩

/-- `buffer.Write` preserves the representation invariants. -/
theorem write_repOk (pool : Pool) (buf : GoBuffer) (p : List Byte)
    (hcs : 0 < pool.chunkSize) (hrep : RepOk pool.chunkSize buf) :
    RepOk pool.chunkSize (write pool buf p).2.1 := by
  by_cases hp0 : p.length = 0
  · have hw : write pool buf p = (pool, buf, 0, none) := by
      unfold write
      rw [if_pos hp0]
    rw [hw]
    exact hrep
  rcases hgr : grow pool buf ((p.length : Nat) : Int) with ⟨pool1, g2⟩
  rcases g2 with ⟨buf1, g3⟩
  rcases g3 with ⟨idx, g4⟩
  rcases g4 with ⟨off, avail⟩
  obtain ⟨ob, hchunks, hcsz, hro, hwo2, havlt, havnn, hav0, havpos⟩ :=
    grow_spec pool buf ((p.length : Nat) : Int) pool1 buf1 idx off avail hcs
      (fun hne => (hrep.2.2.2.1 hne).2) (by omega) hgr
  by_cases hav : avail = 0
  · have hb1 : buf1 = buf := by
      have hc0 : buf1.chunks = buf.chunks := by
        rw [hchunks, hav0 hav]
        simp
      have he : buf1 = (⟨buf1.chunks, buf1.readOffset, buf1.writeOffset⟩ : GoBuffer) := rfl
      rw [he, hc0, hro, hwo2]
    have hw : write pool buf p = (pool1, buf1, 0,
        if avail < ((p.length : Nat) : Int) then some () else none) := by
      unfold write
      rw [if_neg hp0, hgr]
      rw [if_pos (show ((pool1, buf1, idx, off, avail)
          : Pool × GoBuffer × Nat × Nat × Int).2.2.2.2 = 0 from hav)]
    rw [hw]
    show RepOk pool.chunkSize buf1
    rw [hb1]
    exact hrep
  · have havgt : 0 < avail := by omega
    obtain ⟨hform, hidxlt, hofflt, hone⟩ := havpos havgt
    have hlen1 : ∀ c ∈ buf1.chunks, c.length = pool.chunkSize := by
      intro c hc
      rw [hchunks] at hc
      rcases List.mem_append.mp hc with h | h
      · exact hrep.1 c h
      · rw [List.eq_of_mem_replicate h]
        simp
    -- Nat-level capacity facts from the Int-level grow facts.
    have hcapa : ((pool.chunkSize - off : Nat) : Int)
          + ((buf1.chunks.length - 1 - idx : Nat) : Int) * (pool.chunkSize : Int)
        < ((p.length : Nat) : Int) + (pool.chunkSize : Int) := by
      rw [← hform]
      exact havlt
    have hcapnat : idx < buf1.chunks.length - 1 →
        (pool.chunkSize - off) + (buf1.chunks.length - 2 - idx) * pool.chunkSize
          < p.length - 0 := by
      intro hlt3
      have hsplitc : ((buf1.chunks.length - 1 - idx : Nat) : Int)
          = ((buf1.chunks.length - 2 - idx : Nat) : Int) + 1 := by
        omega
      have hmulc : ((buf1.chunks.length - 1 - idx : Nat) : Int) * (pool.chunkSize : Int)
          = ((buf1.chunks.length - 2 - idx : Nat) : Int) * (pool.chunkSize : Int)
            + (pool.chunkSize : Int) := by
        rw [hsplitc]
        ring
      have hfin : ((pool.chunkSize - off : Nat) : Int)
          + ((buf1.chunks.length - 2 - idx : Nat) : Int) * (pool.chunkSize : Int)
          < ((p.length : Nat) : Int) := by
        omega
      have hfin2 : ((pool.chunkSize - off) + (buf1.chunks.length - 2 - idx) * pool.chunkSize
          : Nat) < p.length := by
        exact_mod_cast hfin
      omega
    obtain ⟨w1, w2, w3, w4, w5⟩ := writeLoop_spec p pool.chunkSize hcs
      (buf1.chunks.length + 1) buf1.chunks idx off 0
      hlen1 hidxlt hofflt (by omega) (by omega) hcapnat
    have hw : write pool buf p = (pool1,
        ⟨(writeLoop p (buf1.chunks.length + 1) buf1.chunks idx off 0).1,
          buf1.readOffset,
          (writeLoop p (buf1.chunks.length + 1) buf1.chunks idx off 0).2.1⟩,
        (writeLoop p (buf1.chunks.length + 1) buf1.chunks idx off 0).2.2,
        if avail < ((p.length : Nat) : Int) then some () else none) := by
      unfold write
      rw [if_neg hp0, hgr]
      rw [if_neg (show ¬ ((pool1, buf1, idx, off, avail)
          : Pool × GoBuffer × Nat × Nat × Int).2.2.2.2 = 0 from hav)]
    rw [hw]
    have hronn : buf1.readOffset = buf.readOffset := hro
    refine ⟨w1, ?_, ?_, ?_, ?_⟩
    · intro hcnil
      have hcnil2 : (writeLoop p (buf1.chunks.length + 1) buf1.chunks idx off 0).1 = [] :=
        hcnil
      exfalso
      rw [hcnil2] at w2
      simp at w2
      omega
    · intro _
      show buf1.readOffset < pool.chunkSize
      rw [hronn]
      rcases List.eq_nil_or_concat buf.chunks with hnil | ⟨l2, a, hcons⟩
      · rw [hrep.2.1 hnil]
        omega
      · exact hrep.2.2.1 (by rw [hcons]; simp)
    · intro _
      exact ⟨w3, w4⟩
    · intro hone2
      show buf1.readOffset
        < (writeLoop p (buf1.chunks.length + 1) buf1.chunks idx off 0).2.1
      have hone3 : (writeLoop p (buf1.chunks.length + 1) buf1.chunks idx off 0).1.length = 1 :=
        hone2
      have hlenone : buf1.chunks.length = 1 := by omega
      rcases List.eq_nil_or_concat buf.chunks with hnil | ⟨l2, a, hcons⟩
      · rw [hronn, hrep.2.1 hnil]
        exact w3
      · have hbne : buf.chunks ≠ [] := by
          rw [hcons]
          simp
        obtain ⟨hidx0, hoffwo⟩ := hone ⟨hlenone, hbne⟩
        have hbpos : 0 < buf.chunks.length := List.length_pos.mpr hbne
        have hprelen : buf.chunks.length = 1 := by
          have hl2 : buf1.chunks.length = buf.chunks.length + ob := by
            rw [hchunks]
            simp
          omega
        have hltwo : buf.readOffset < buf.writeOffset := hrep.2.2.2.2 hprelen
        have hle2 := w5 (by omega)
        rw [hronn]
        omega

/-- Behavior of the space-ensuring step: on failure the buffer produced by
the failed grow is the input buffer unchanged; on success the returned
buffer satisfies the loop invariant and is non-empty. -/
theorem readFromEnsure_spec (pool : Pool) (buf : GoBuffer)
    (hcs : 0 < pool.chunkSize) (hmid : MidInv pool.chunkSize buf) :
    (readFromEnsure pool buf = none →
      (grow pool buf ((pool.chunkSize : Nat) : Int)).2.1 = buf ∧
      (grow pool buf ((pool.chunkSize : Nat) : Int)).1.chunkSize = pool.chunkSize) ∧
    (∀ pool1 buf1, readFromEnsure pool buf = some (pool1, buf1) →
      pool1.chunkSize = pool.chunkSize ∧ MidInv pool.chunkSize buf1 ∧ buf1.chunks ≠ []) := by
  obtain ⟨m1, m2, m3, m4, m5⟩ := hmid
  by_cases hns : buf.chunks.length = 0 ∨ buf.writeOffset = pool.chunkSize
  · rcases hgr : grow pool buf ((pool.chunkSize : Nat) : Int) with ⟨gp, g2⟩
    rcases g2 with ⟨gb, g3⟩
    rcases g3 with ⟨gi, g4⟩
    rcases g4 with ⟨go, ga⟩
    obtain ⟨ob, hchunks, hcsz, hro, hwo2, havlt, havnn, hav0, havpos⟩ :=
      grow_spec pool buf ((pool.chunkSize : Nat) : Int) gp gb gi go ga hcs m4
        (by exact_mod_cast hcs) hgr
    have hstep : readFromEnsure pool buf
        = (if ga = 0 then none else some (gp, ⟨gb.chunks, gb.readOffset, 0⟩)) := by
      unfold readFromEnsure
      rw [if_pos hns, hgr]
    by_cases hga : ga = 0
    · constructor
      · intro _
        have hob := hav0 hga
        subst hob
        constructor
        · show gb = buf
          have hc0 : gb.chunks = buf.chunks := by
            rw [hchunks]
            simp
          have he2 : gb = (⟨gb.chunks, gb.readOffset, gb.writeOffset⟩ : GoBuffer) := rfl
          rw [he2, hc0, hro, hwo2]
        · show gp.chunkSize = pool.chunkSize
          exact hcsz
      · intro pool1 buf1 hsome
        rw [hstep, if_pos hga] at hsome
        exact Option.noConfusion hsome
    · constructor
      · intro hnone
        rw [hstep, if_neg hga] at hnone
        exact Option.noConfusion hnone
      · intro pool1 buf1 hsome
        rw [hstep, if_neg hga] at hsome
        injection hsome with hsome
        have hp1 : pool1 = gp := (congrArg Prod.fst hsome).symm
        have hb1 : buf1 = ⟨gb.chunks, gb.readOffset, 0⟩ := (congrArg Prod.snd hsome).symm
        subst hp1 hb1
        have hgapos : 0 < ga := by omega
        obtain ⟨hform, hidxlt, hofflt, hone⟩ := havpos hgapos
        have hnn : gb.chunks ≠ [] := by
          intro hcnil
          rw [hcnil] at hidxlt
          simp at hidxlt
        refine ⟨hcsz, ⟨?_, ?_, ?_, ?_, ?_⟩, hnn⟩
        · intro c hc
          have hc2 : c ∈ gb.chunks := hc
          rw [hchunks] at hc2
          rcases List.mem_append.mp hc2 with hmm | hmm
          · exact m1 c hmm
          · rw [List.eq_of_mem_replicate hmm]
            simp
        · intro hcnil
          have hcnil2 : gb.chunks = [] := hcnil
          exact absurd hcnil2 hnn
        · intro _
          show gb.readOffset < pool.chunkSize
          rw [hro]
          by_cases hbn : buf.chunks = []
          · rw [m2 hbn]
            exact hcs
          · exact m3 hbn
        · intro _
          exact Nat.zero_le _
        · intro hl1
          have hl1g : gb.chunks.length = 1 := hl1
          by_cases hbn : buf.chunks = []
          · right
            refine ⟨?_, rfl⟩
            show gb.readOffset = 0
            rw [hro, m2 hbn]
          · exfalso
            have hbpos : 0 < buf.chunks.length := List.length_pos.mpr hbn
            have hlen2 : gb.chunks.length = buf.chunks.length + ob := by
              rw [hchunks]
              simp
            obtain ⟨hi0, hoeq⟩ := hone ⟨hl1g, hbn⟩
            have hwoc : buf.writeOffset = pool.chunkSize := by
              rcases hns with hx | hx
              · exact absurd (List.length_eq_zero.mp hx) hbn
              · exact hx
            have hz1 : (pool.chunkSize - go : Nat) = 0 := by omega
            have hz2 : (gb.chunks.length - 1 - gi : Nat) = 0 := by omega
            rw [hz1, hz2] at hform
            simp at hform
            omega
  · have hstep : readFromEnsure pool buf = some (pool, buf) := by
      unfold readFromEnsure
      rw [if_neg hns]
    constructor
    · intro hnone
      rw [hstep] at hnone
      exact Option.noConfusion hnone
    · intro pool1 buf1 hsome
      rw [hstep] at hsome
      injection hsome with hsome
      have hp1 : pool1 = pool := (congrArg Prod.fst hsome).symm
      have hb1 : buf1 = buf := (congrArg Prod.snd hsome).symm
      subst hp1 hb1
      refine ⟨rfl, ⟨m1, m2, m3, m4, m5⟩, ?_⟩
      intro hcnil
      exact hns (Or.inl (by rw [hcnil]; rfl))

/-- The read-and-copy step of `ReadFrom` preserves the loop invariant. -/
theorem readStep_midInv (csize : Nat) (hcs : 0 < csize) (buf1 : GoBuffer)
    (data : List Byte) (hmid : MidInv csize buf1) (hne : buf1.chunks ≠ []) :
    MidInv csize ⟨buf1.chunks.set (buf1.chunks.length - 1) (copyInto (buf1.chunks.getD (buf1.chunks.length - 1) []) buf1.writeOffset (data.take (min data.length ((buf1.chunks.getD (buf1.chunks.length - 1) []).length - buf1.writeOffset)))).1, buf1.readOffset, buf1.writeOffset + min data.length ((buf1.chunks.getD (buf1.chunks.length - 1) []).length - buf1.writeOffset)⟩ := by
  obtain ⟨m1, m2, m3, m4, m5⟩ := hmid
  have hpos : 0 < buf1.chunks.length := List.length_pos.mpr hne
  have hgetd : buf1.chunks.getD (buf1.chunks.length - 1) []
      = buf1.chunks[buf1.chunks.length - 1] :=
    List.getD_eq_getElem _ _ (by omega)
  have hclen : (buf1.chunks.getD (buf1.chunks.length - 1) []).length = csize := by
    rw [hgetd]
    exact m1 _ (List.getElem_mem _)
  have hwole : buf1.writeOffset ≤ csize := m4 hne
  have hout : (copyInto (buf1.chunks.getD (buf1.chunks.length - 1) []) buf1.writeOffset
      (data.take (min data.length ((buf1.chunks.getD (buf1.chunks.length - 1) []).length - buf1.writeOffset)))).1.length = csize := by
    rw [copyInto_fst_length _ _ _ (by omega), hclen]
  have hminle : min data.length ((buf1.chunks.getD (buf1.chunks.length - 1) []).length - buf1.writeOffset) ≤ csize - buf1.writeOffset := by
    rw [hclen]
    omega
  refine ⟨?_, ?_, ?_, ?_, ?_⟩
  · intro c hc
    have hc2 : c ∈ buf1.chunks.set (buf1.chunks.length - 1)
        (copyInto (buf1.chunks.getD (buf1.chunks.length - 1) []) buf1.writeOffset
          (data.take (min data.length ((buf1.chunks.getD (buf1.chunks.length - 1) []).length - buf1.writeOffset)))).1 := hc
    rcases List.mem_or_eq_of_mem_set hc2 with hmm | hmm
    · exact m1 c hmm
    · rw [hmm]
      exact hout
  · intro hcnil
    have hcnil2 : buf1.chunks.set (buf1.chunks.length - 1)
        (copyInto (buf1.chunks.getD (buf1.chunks.length - 1) []) buf1.writeOffset
          (data.take (min data.length ((buf1.chunks.getD (buf1.chunks.length - 1) []).length - buf1.writeOffset)))).1 = [] := hcnil
    exfalso
    have hlen0 := congrArg List.length hcnil2
    simp only [List.length_set, List.length_nil] at hlen0
    omega
  · intro _
    show buf1.readOffset < csize
    exact m3 hne
  · intro _
    show buf1.writeOffset + min data.length ((buf1.chunks.getD (buf1.chunks.length - 1) []).length - buf1.writeOffset) ≤ csize
    omega
  · intro hl1
    have hl2 : (buf1.chunks.set (buf1.chunks.length - 1)
        (copyInto (buf1.chunks.getD (buf1.chunks.length - 1) []) buf1.writeOffset
          (data.take (min data.length ((buf1.chunks.getD (buf1.chunks.length - 1) []).length - buf1.writeOffset)))).1).length = 1 := hl1
    simp at hl2
    rcases m5 hl2 with hlt | ⟨hr0, hw0⟩
    · left
      show buf1.readOffset < buf1.writeOffset + min data.length ((buf1.chunks.getD (buf1.chunks.length - 1) []).length - buf1.writeOffset)
      omega
    · by_cases hm0 : min data.length ((buf1.chunks.getD (buf1.chunks.length - 1) []).length - buf1.writeOffset) = 0
      · right
        refine ⟨hr0, ?_⟩
        show buf1.writeOffset + min data.length ((buf1.chunks.getD (buf1.chunks.length - 1) []).length - buf1.writeOffset) = 0
        omega
      · left
        show buf1.readOffset < buf1.writeOffset + min data.length ((buf1.chunks.getD (buf1.chunks.length - 1) []).length - buf1.writeOffset)
        omega

/-- The `ReadFrom` loop preserves the loop invariant and the chunk size. -/
theorem readFromLoop_inv :
    ∀ (plan : List ReadResp) (pool : Pool) (buf : GoBuffer) (total : Nat),
      0 < pool.chunkSize → MidInv pool.chunkSize buf →
      MidInv pool.chunkSize (readFromLoop plan pool buf total).2.1 ∧
      (readFromLoop plan pool buf total).1.chunkSize = pool.chunkSize := by
  intro plan
  induction plan with
  | nil =>
    intro pool buf total hcs hmid
    obtain ⟨hf, hs⟩ := readFromEnsure_spec pool buf hcs hmid
    cases he : readFromEnsure pool buf with
    | none =>
      obtain ⟨hgb, hgcs⟩ := hf he
      have hstep : readFromLoop [] pool buf total
          = ((grow pool buf ((pool.chunkSize : Nat) : Int)).1,
             (grow pool buf ((pool.chunkSize : Nat) : Int)).2.1, total, some .emptyPool) := by
        rw [readFromLoop, he]
      rw [hstep]
      refine ⟨?_, ?_⟩
      · show MidInv pool.chunkSize (grow pool buf ((pool.chunkSize : Nat) : Int)).2.1
        rw [hgb]
        exact hmid
      · show (grow pool buf ((pool.chunkSize : Nat) : Int)).1.chunkSize = pool.chunkSize
        exact hgcs
    | some pr =>
      rcases pr with ⟨pool1, buf1⟩
      obtain ⟨hcs1, hmid1, hne1⟩ := hs pool1 buf1 he
      have hstep : readFromLoop [] pool buf total = (pool1, buf1, total, none) := by
        rw [readFromLoop, he]
      rw [hstep]
      exact ⟨hmid1, hcs1⟩
  | cons resp rest ih =>
    intro pool buf total hcs hmid
    rcases resp with ⟨data, err⟩
    obtain ⟨hf, hs⟩ := readFromEnsure_spec pool buf hcs hmid
    cases he : readFromEnsure pool buf with
    | none =>
      obtain ⟨hgb, hgcs⟩ := hf he
      have hstep : readFromLoop (⟨data, err⟩ :: rest) pool buf total
          = ((grow pool buf ((pool.chunkSize : Nat) : Int)).1,
             (grow pool buf ((pool.chunkSize : Nat) : Int)).2.1, total, some .emptyPool) := by
        rw [readFromLoop, he]
      rw [hstep]
      refine ⟨?_, ?_⟩
      · show MidInv pool.chunkSize (grow pool buf ((pool.chunkSize : Nat) : Int)).2.1
        rw [hgb]
        exact hmid
      · show (grow pool buf ((pool.chunkSize : Nat) : Int)).1.chunkSize = pool.chunkSize
        exact hgcs
    | some pr =>
      rcases pr with ⟨pool1, buf1⟩
      obtain ⟨hcs1, hmid1, hne1⟩ := hs pool1 buf1 he
      have hmids : MidInv pool.chunkSize ⟨buf1.chunks.set (buf1.chunks.length - 1) (copyInto (buf1.chunks.getD (buf1.chunks.length - 1) []) buf1.writeOffset (data.take (min data.length ((buf1.chunks.getD (buf1.chunks.length - 1) []).length - buf1.writeOffset)))).1, buf1.readOffset, buf1.writeOffset + min data.length ((buf1.chunks.getD (buf1.chunks.length - 1) []).length - buf1.writeOffset)⟩ :=
        readStep_midInv pool.chunkSize hcs buf1 data hmid1 hne1
      cases err with
      | none =>
        have hstep : readFromLoop (⟨data, none⟩ :: rest) pool buf total
            = readFromLoop rest pool1 ⟨buf1.chunks.set (buf1.chunks.length - 1) (copyInto (buf1.chunks.getD (buf1.chunks.length - 1) []) buf1.writeOffset (data.take (min data.length ((buf1.chunks.getD (buf1.chunks.length - 1) []).length - buf1.writeOffset)))).1, buf1.readOffset, buf1.writeOffset + min data.length ((buf1.chunks.getD (buf1.chunks.length - 1) []).length - buf1.writeOffset)⟩
                (total + min data.length ((buf1.chunks.getD (buf1.chunks.length - 1) []).length - buf1.writeOffset)) := by
          rw [readFromLoop, he]
        rw [hstep]
        have hcs1x : 0 < pool1.chunkSize := by
          rw [hcs1]
          exact hcs
        have hmid2 : MidInv pool1.chunkSize ⟨buf1.chunks.set (buf1.chunks.length - 1) (copyInto (buf1.chunks.getD (buf1.chunks.length - 1) []) buf1.writeOffset (data.take (min data.length ((buf1.chunks.getD (buf1.chunks.length - 1) []).length - buf1.writeOffset)))).1, buf1.readOffset, buf1.writeOffset + min data.length ((buf1.chunks.getD (buf1.chunks.length - 1) []).length - buf1.writeOffset)⟩ := by
          rw [hcs1]
          exact hmids
        obtain ⟨o1, o2⟩ := ih pool1 ⟨buf1.chunks.set (buf1.chunks.length - 1) (copyInto (buf1.chunks.getD (buf1.chunks.length - 1) []) buf1.writeOffset (data.take (min data.length ((buf1.chunks.getD (buf1.chunks.length - 1) []).length - buf1.writeOffset)))).1, buf1.readOffset, buf1.writeOffset + min data.length ((buf1.chunks.getD (buf1.chunks.length - 1) []).length - buf1.writeOffset)⟩
          (total + min data.length ((buf1.chunks.getD (buf1.chunks.length - 1) []).length - buf1.writeOffset)) hcs1x hmid2
        rw [hcs1] at o1 o2
        exact ⟨o1, o2⟩
      | some ioerr =>
        cases ioerr with
        | eof =>
          have hstep : readFromLoop (⟨data, some .eof⟩ :: rest) pool buf total
              = (pool1, ⟨buf1.chunks.set (buf1.chunks.length - 1) (copyInto (buf1.chunks.getD (buf1.chunks.length - 1) []) buf1.writeOffset (data.take (min data.length ((buf1.chunks.getD (buf1.chunks.length - 1) []).length - buf1.writeOffset)))).1, buf1.readOffset, buf1.writeOffset + min data.length ((buf1.chunks.getD (buf1.chunks.length - 1) []).length - buf1.writeOffset)⟩, total + min data.length ((buf1.chunks.getD (buf1.chunks.length - 1) []).length - buf1.writeOffset), none) := by
            rw [readFromLoop, he]
          rw [hstep]
          exact ⟨hmids, hcs1⟩
        | other =>
          have hstep : readFromLoop (⟨data, some .other⟩ :: rest) pool buf total
              = (pool1, ⟨buf1.chunks.set (buf1.chunks.length - 1) (copyInto (buf1.chunks.getD (buf1.chunks.length - 1) []) buf1.writeOffset (data.take (min data.length ((buf1.chunks.getD (buf1.chunks.length - 1) []).length - buf1.writeOffset)))).1, buf1.readOffset, buf1.writeOffset + min data.length ((buf1.chunks.getD (buf1.chunks.length - 1) []).length - buf1.writeOffset)⟩, total + min data.length ((buf1.chunks.getD (buf1.chunks.length - 1) []).length - buf1.writeOffset), some .readOther) := by
            rw [readFromLoop, he]
          rw [hstep]
          exact ⟨hmids, hcs1⟩

/-- The deferred handler of `ReadFrom` turns the loop invariant back into
the full representation invariant. -/
theorem readFromFinish_repOk (pool : Pool) (buf : GoBuffer)
    (hcs : 0 < pool.chunkSize) (hmid : MidInv pool.chunkSize buf) :
    RepOk pool.chunkSize (readFromFinish pool buf).2 := by
  obtain ⟨m1, m2, m3, m4, m5⟩ := hmid
  unfold readFromFinish
  by_cases h0 : buf.chunks.length = 0
  · rw [if_pos h0]
    have hnil : buf.chunks = [] := List.length_eq_zero.mp h0
    exact ⟨m1, m2, fun h => absurd hnil h, fun h => absurd hnil h,
      fun h1 => by rw [hnil] at h1; simp at h1⟩
  · rw [if_neg h0]
    have hne : buf.chunks ≠ [] := fun h => h0 (by rw [h]; rfl)
    by_cases hw0 : buf.writeOffset = 0
    · rw [if_pos hw0]
      refine ⟨?_, ?_, ?_, ?_, ?_⟩
      · intro c hc
        have hc2 : c ∈ buf.chunks.dropLast := hc
        have hc3 : c ∈ buf.chunks := by
          rw [List.dropLast_eq_take] at hc2
          exact List.take_subset _ _ hc2
        exact m1 c hc3
      · intro h
        have h2 : buf.chunks.dropLast = [] := h
        have hlen1 : buf.chunks.length = 1 := by
          have h3 := congrArg List.length h2
          simp [List.length_dropLast] at h3
          omega
        rcases m5 hlen1 with hlt | ⟨hr0, _⟩
        · show buf.readOffset = 0
          omega
        · exact hr0
      · intro _
        show buf.readOffset < pool.chunkSize
        exact m3 hne
      · intro _
        exact ⟨hcs, le_refl _⟩
      · intro _
        show buf.readOffset < pool.chunkSize
        exact m3 hne
    · rw [if_neg hw0]
      refine ⟨m1, m2, m3, fun hne2 => ⟨Nat.pos_of_ne_zero hw0, m4 hne2⟩, ?_⟩
      intro h1
      rcases m5 h1 with hlt | ⟨_, hww⟩
      · exact hlt
      · exact absurd hww hw0

/-- `buffer.ReadFrom` preserves the representation invariants. -/
theorem readFrom_repOk (pool : Pool) (buf : GoBuffer) (plan : List ReadResp)
    (hcs : 0 < pool.chunkSize) (hrep : RepOk pool.chunkSize buf) :
    RepOk pool.chunkSize (readFrom pool buf plan).2.1 := by
  obtain ⟨hm, hpc⟩ := readFromLoop_inv plan pool buf 0 hcs (repOk_midInv _ _ hrep)
  have heq2 : (readFrom pool buf plan).2.1
      = (readFromFinish (readFromLoop plan pool buf 0).1
          (readFromLoop plan pool buf 0).2.1).2 := rfl
  rw [heq2]
  have hcsx : 0 < (readFromLoop plan pool buf 0).1.chunkSize := by
    rw [hpc]
    exact hcs
  have hmx : MidInv (readFromLoop plan pool buf 0).1.chunkSize
      (readFromLoop plan pool buf 0).2.1 := by
    rw [hpc]
    exact hm
  have hres := readFromFinish_repOk (readFromLoop plan pool buf 0).1
    (readFromLoop plan pool buf 0).2.1 hcsx hmx
  rw [hpc] at hres
  exact hres

/-- `buffer.Release` (and `Reset`) restores the empty-buffer invariants. -/
theorem release_repOk (pool : Pool) (buf : GoBuffer) :
    RepOk pool.chunkSize (release pool buf).2 := by
  refine ⟨?_, fun _ => rfl, ?_, ?_, ?_⟩
  · intro c hc
    have hc2 : c ∈ ([] : List (List Byte)) := hc
    simp at hc2
  · intro h
    exact absurd rfl h
  · intro h
    exact absurd rfl h
  · intro h1
    have h2 : ([] : List (List Byte)).length = 1 := h1
    simp at h2

/-- Flattened length of the slab list built by `Bytes()` for the chunks
after the first: middles are whole, the last is cut at the write offset. -/
theorem bytesTail_length (csize wo : Nat) (hwo : wo ≤ csize) :
    ∀ (l : List (List Byte)), l ≠ [] → (∀ c ∈ l, c.length = csize) →
      (bytesTail wo l).flatten.length = (l.length - 1) * csize + wo := by
  intro l
  induction l with
  | nil =>
    intro h _
    exact absurd rfl h
  | cons c rest ih =>
    intro _ hlen
    cases rest with
    | nil =>
      have hc : c.length = csize := hlen c (by simp)
      have h1 : bytesTail wo [c] = [c.take wo] := rfl
      rw [h1]
      simp [List.length_take, hc]
      omega
    | cons d rest2 =>
      have h1 : bytesTail wo (c :: d :: rest2) = c :: bytesTail wo (d :: rest2) := rfl
      rw [h1]
      have hc : c.length = csize := hlen c (by simp)
      have ihh := ih (by simp) (fun x hx => hlen x (List.mem_cons_of_mem c hx))
      rw [List.flatten_cons, List.length_append, ihh, hc]
      have hlen2 : (c :: d :: rest2).length - 1 = ((d :: rest2).length - 1) + 1 := by
        simp
      rw [hlen2, Nat.succ_mul]
      omega

/-- Under the representation invariants, the unread content exposed by
`Bytes()` has exactly the length given by the `Len()` offset formula. -/
theorem repOk_bufLen (csize : Nat) (chunks : List (List Byte)) (ro wo : Nat)
    (_hcs : 0 < csize) (h : RepOk csize ⟨chunks, ro, wo⟩) :
    ((bufBytes ⟨chunks, ro, wo⟩).length : Int) = bufferLen csize ⟨chunks, ro, wo⟩ := by
  obtain ⟨h1, h2, h3, h4, h5⟩ := h
  have h1x : ∀ c ∈ chunks, c.length = csize := h1
  have h3x : chunks ≠ [] → ro < csize := h3
  have h4x : chunks ≠ [] → 0 < wo ∧ wo ≤ csize := h4
  have h5x : chunks.length = 1 → ro < wo := h5
  cases chunks with
  | nil =>
    have hbb : bufBytes ⟨[], ro, wo⟩ = [] := rfl
    have hbl : bufferLen csize ⟨[], ro, wo⟩ = 0 := by
      unfold bufferLen
      rw [if_pos (show ((⟨[], ro, wo⟩ : GoBuffer)).chunks.length = 0 from rfl)]
    rw [hbb, hbl]
    rfl
  | cons c rest =>
    cases rest with
    | nil =>
      have hcl : c.length = csize := h1x c (by simp)
      have hrw : ro < wo := h5x rfl
      have hwole : wo ≤ csize := (h4x (by simp)).2
      have hbb : bufBytes ⟨[c], ro, wo⟩ = (c.drop ro).take (wo - ro) := rfl
      have hbl : bufferLen csize ⟨[c], ro, wo⟩
          = (csize : Int) * ((([c] : List (List Byte)).length : Nat) : Int)
            - (ro : Int) - ((csize : Int) - (wo : Int)) := by
        unfold bufferLen
        rw [if_neg (show ¬ ((⟨[c], ro, wo⟩ : GoBuffer)).chunks.length = 0 from by simp)]
      rw [hbb, hbl]
      simp only [List.length_take, List.length_drop, hcl, List.length_cons,
        List.length_nil]
      omega
    | cons d rest2 =>
      have hcl : c.length = csize := h1x c (by simp)
      have hro : ro < csize := h3x (by simp)
      have hwole : wo ≤ csize := (h4x (by simp)).2
      have htail := bytesTail_length csize wo hwole (d :: rest2) (by simp)
        (fun x hx => h1x x (List.mem_cons_of_mem c hx))
      have hbb : bufBytes ⟨c :: d :: rest2, ro, wo⟩
          = c.drop ro ++ (bytesTail wo (d :: rest2)).flatten := rfl
      have hbl : bufferLen csize ⟨c :: d :: rest2, ro, wo⟩
          = (csize : Int) * ((((c :: d :: rest2) : List (List Byte)).length : Nat) : Int)
            - (ro : Int) - ((csize : Int) - (wo : Int)) := by
        unfold bufferLen
        rw [if_neg (show ¬ ((⟨c :: d :: rest2, ro, wo⟩ : GoBuffer)).chunks.length = 0
          from by simp)]
      rw [hbb, hbl]
      rw [List.length_append, htail, List.length_drop, hcl]
      simp only [List.length_cons]
      have hl1 : (rest2.length + 1 - 1) = rest2.length := by omega
      rw [hl1]
      have hone : ((rest2.length + 1 + 1 : Nat) : Int) = (rest2.length : Int) + 2 := by
        push_cast
        ring
      rw [hone]
      have hPP : (csize : Int) * ((rest2.length : Int) + 2)
          = ((rest2.length * csize : Nat) : Int) + 2 * (csize : Int) := by
        push_cast
        ring
      rw [hPP]
      omega

end Mempool

/-- **C9.** Starting from any buffer satisfying the representation
invariants (over a pool with a positive chunk size), each of the three
buffer operations — `Write` of any byte string, `ReadFrom` of any reader
(modelled by its planned responses), and `Release` — yields a buffer that
again satisfies the invariants checked by `repOk` (all slabs are exactly
chunk-size long; a non-empty buffer has no trailing unused slab, i.e. its
write offset is positive; the read offset is zero for an empty buffer,
within the first slab otherwise, and before the write offset when there is
a single slab), and whose unread content as exposed by `Bytes()` has length
exactly (slab-count × chunk-size) − read-offset − (chunk-size − write-offset). -/
theorem buffer_operations_invariants (pool : Mempool.Pool) (buf : Mempool.GoBuffer)
    (p : List Byte) (plan : List Mempool.ReadResp)
    (hcs : 0 < pool.chunkSize) (hrep : Mempool.RepOk pool.chunkSize buf) :
    (Mempool.RepOk pool.chunkSize (Mempool.write pool buf p).2.1 ∧
      (((Mempool.bufBytes (Mempool.write pool buf p).2.1).length : Int)
        = Mempool.bufferLen pool.chunkSize (Mempool.write pool buf p).2.1)) ∧
    (Mempool.RepOk pool.chunkSize (Mempool.readFrom pool buf plan).2.1 ∧
      (((Mempool.bufBytes (Mempool.readFrom pool buf plan).2.1).length : Int)
        = Mempool.bufferLen pool.chunkSize (Mempool.readFrom pool buf plan).2.1)) ∧
    (Mempool.RepOk pool.chunkSize (Mempool.release pool buf).2 ∧
      (((Mempool.bufBytes (Mempool.release pool buf).2).length : Int)
        = Mempool.bufferLen pool.chunkSize (Mempool.release pool buf).2)) := by
  have hw := Mempool.write_repOk pool buf p hcs hrep
  have hr := Mempool.readFrom_repOk pool buf plan hcs hrep
  have hl := Mempool.release_repOk pool buf
  refine ⟨⟨hw, ?_⟩, ⟨hr, ?_⟩, ⟨hl, ?_⟩⟩
  · exact Mempool.repOk_bufLen pool.chunkSize (Mempool.write pool buf p).2.1.chunks
      (Mempool.write pool buf p).2.1.readOffset (Mempool.write pool buf p).2.1.writeOffset
      hcs hw
  · exact Mempool.repOk_bufLen pool.chunkSize (Mempool.readFrom pool buf plan).2.1.chunks
      (Mempool.readFrom pool buf plan).2.1.readOffset
      (Mempool.readFrom pool buf plan).2.1.writeOffset hcs hr
  · exact Mempool.repOk_bufLen pool.chunkSize (Mempool.release pool buf).2.chunks
      (Mempool.release pool buf).2.readOffset (Mempool.release pool buf).2.writeOffset
      hcs hl

/-- Witness for C9 at a concrete pool (two free chunks of size 4) and the
empty buffer, writing three bytes and reading a two-byte stream. -/
theorem buffer_operations_invariants_witness :
    (0 < (⟨2, 2, 4⟩ : Mempool.Pool).chunkSize ∧
      Mempool.RepOk (⟨2, 2, 4⟩ : Mempool.Pool).chunkSize
        (⟨[], 0, 0⟩ : Mempool.GoBuffer)) ∧
    ((Mempool.RepOk (⟨2, 2, 4⟩ : Mempool.Pool).chunkSize
        (Mempool.write ⟨2, 2, 4⟩ ⟨[], 0, 0⟩ [1, 2, 3]).2.1 ∧
      (((Mempool.bufBytes (Mempool.write ⟨2, 2, 4⟩ ⟨[], 0, 0⟩ [1, 2, 3]).2.1).length : Int)
        = Mempool.bufferLen (⟨2, 2, 4⟩ : Mempool.Pool).chunkSize
            (Mempool.write ⟨2, 2, 4⟩ ⟨[], 0, 0⟩ [1, 2, 3]).2.1)) ∧
    (Mempool.RepOk (⟨2, 2, 4⟩ : Mempool.Pool).chunkSize
        (Mempool.readFrom ⟨2, 2, 4⟩ ⟨[], 0, 0⟩ [⟨[7, 8], some .eof⟩]).2.1 ∧
      (((Mempool.bufBytes
            (Mempool.readFrom ⟨2, 2, 4⟩ ⟨[], 0, 0⟩ [⟨[7, 8], some .eof⟩]).2.1).length : Int)
        = Mempool.bufferLen (⟨2, 2, 4⟩ : Mempool.Pool).chunkSize
            (Mempool.readFrom ⟨2, 2, 4⟩ ⟨[], 0, 0⟩ [⟨[7, 8], some .eof⟩]).2.1)) ∧
    (Mempool.RepOk (⟨2, 2, 4⟩ : Mempool.Pool).chunkSize
        (Mempool.release ⟨2, 2, 4⟩ ⟨[], 0, 0⟩).2 ∧
      (((Mempool.bufBytes (Mempool.release ⟨2, 2, 4⟩ ⟨[], 0, 0⟩).2).length : Int)
        = Mempool.bufferLen (⟨2, 2, 4⟩ : Mempool.Pool).chunkSize
            (Mempool.release ⟨2, 2, 4⟩ ⟨[], 0, 0⟩).2))) :=
  ⟨⟨by decide, by decide⟩,
   buffer_operations_invariants ⟨2, 2, 4⟩ ⟨[], 0, 0⟩ [1, 2, 3] [⟨[7, 8], some .eof⟩]
     (by decide) (by decide)⟩

end GoPcap
